import Mathlib

/-!
# The candidate tree pool of IQ-TREE (`candidateset.cpp`)

A shallow embedding of `CandidateSet`, the bounded pool of candidate trees that
drives the tree search, and theorems about it.

`CandidateSet` derives from `std::multimap<double, CandidateTree>`.  The
multimap is embedded as the list of its `(key, value)` pairs in iteration order
(`begin()` is the head of the list, `rbegin()` its last element).  The
secondary index `topologies` (an `unordered_map<string, double>`) is embedded as
an association list that holds every key at most once, and the stack
`parentTrees` as a list whose head is the top of the stack.

Scores are `double`s.  The pool is embedded with scores given by their rank
in the order of `operator<` (`Dbl`, `CandidateSet`), which covers every number,
the infinities included, and a second time with scores that may also be NaN
(`Double`, `Fp.CandidateSet`).  The two agree on numbers (`update_toFp`), and a
run of the second that stores no NaN is a run of the first on its calls whose
score is a number (`updates_of_toFp`).

The last part of the definitions embeds the state numbering of the PoMo model
(`ModelPoMo::decomposeState` of `model/modelpomo.cpp`), whose arithmetic is done
in `int`: every `int` expression is evaluated with a check of its range.
-/

namespace IQTree

/-! ## Definitions -/

/-- A `double` other than NaN, represented by its rank in the order of
`operator<`: the integer whose magnitude is the low 63 bits of the IEEE-754
binary64 pattern and whose sign is the sign bit, so that both zeros have rank
`0`.  For doubles `x`, `y` that are not NaN, `x < y` holds exactly when
`rank x < rank y`, `x == y` exactly when the ranks are equal, and
`rank (-x) = -(rank x)`.  `candidateset.cpp` only copies and compares scores,
so the rank carries everything the code can observe.  NaN has no rank: the
type `Double` below adds it, and the pool is embedded twice, with scores that
are ranks (`CandidateSet`) and with scores that may be NaN (`Fp.CandidateSet`);
the second, on scores that are numbers, is the first (`update_toFp`). -/
abbrev Dbl := Int

/-- Rank of the double with the given sign bit, biased exponent field (11 bits)
and fraction field (52 bits). -/
def Dbl.ofFields (negative : Bool) (exponent fraction : Nat) : Dbl :=
  if negative then -((exponent * 2 ^ 52 + fraction : Nat) : Int)
  else ((exponent * 2 ^ 52 + fraction : Nat) : Int)

/-- `DBL_MAX` of `<cfloat>`, the largest finite double. -/
def DBL_MAX : Dbl := Dbl.ofFields false 2046 (2 ^ 52 - 1)

/-- Positive infinity, the largest double. -/
def DBL_INF : Dbl := Dbl.ofFields false 2047 0

/-- The ranks that are ranks of a double: from minus infinity to plus infinity. -/
def Dbl.IsDouble (x : Dbl) : Prop := -DBL_INF ≤ x ∧ x ≤ DBL_INF

instance (x : Dbl) : Decidable (Dbl.IsDouble x) := by
  unfold Dbl.IsDouble
  infer_instance

/-- Largest value of a C `int` (32 bits). -/
def INT_MAX : Int := 2 ^ 31 - 1

/-- The comparison `size() < limit` of `update`.  `size()` is a `size_t` and
`limit` an `int`, so by the usual arithmetic conversions `limit` is converted to
`size_t` (64 bits, reduction modulo `2 ^ 64`) before the two are compared: a
negative `limit` compares as a huge unsigned number. -/
def sizeLessThan (size : Nat) (limit : Int) : Bool :=
  decide ((size : Int) < limit % 2 ^ 64)

/-- The struct `CandidateTree`: the tree text, its canonical topology and its
score. -/
structure CandidateTree where
  tree : String
  topology : String
  score : Dbl
  deriving DecidableEq, Repr

/-- The class `CandidateSet`: the multimap it derives from (`entries`, in
iteration order, ascending keys) and its data members.  `aln` records whether
the alignment pointer is non-null. -/
structure CandidateSet where
  entries : List (Dbl × CandidateTree)
  limit : Int
  max_candidates : Int
  bestScore : Dbl
  topologies : List (String × Dbl)
  parentTrees : List String
  aln : Bool
  deriving DecidableEq, Repr

/-- `std::multimap::insert(value_type(k, v))`: the new element is placed at the
upper bound of `k`, that is, behind every element whose key is not greater than
`k` (elements with equal keys keep their order of insertion). -/
def mmInsert {V : Type} (k : Dbl) (v : V) : List (Dbl × V) → List (Dbl × V)
  | [] => [(k, v)]
  | e :: es => if k < e.1 then (k, v) :: e :: es else e :: mmInsert k v es

/-- `topologies.find(k)`: the value stored under `k`, if any. -/
def mapFind (k : String) : List (String × Dbl) → Option Dbl
  | [] => none
  | e :: es => if e.1 = k then some e.2 else mapFind k es

/-- `topologies[k] = v`: overwrite the value under `k`, or add the key. -/
def mapSet (k : String) (v : Dbl) : List (String × Dbl) → List (String × Dbl)
  | [] => [(k, v)]
  | e :: es => if e.1 = k then (k, v) :: es else e :: mapSet k v es

/-- `topologies.erase(k)`: remove the record of key `k`. -/
def mapErase (k : String) : List (String × Dbl) → List (String × Dbl)
  | [] => []
  | e :: es => if e.1 = k then es else e :: mapErase k es

/-- `CandidateSet::CandidateSet(int limit, int max_candidates, Alignment *aln)`;
`none` when one of the two assertions fails. -/
def CandidateSet.create (limit max_candidates : Int) (aln : Bool) : Option CandidateSet :=
  if max_candidates ≤ limit ∧ aln = true then
    some { entries := [], limit := limit, max_candidates := max_candidates,
           bestScore := -DBL_MAX, topologies := [], parentTrees := [], aln := aln }
  else none

/-- `CandidateSet::treeTopologyExist`. -/
def CandidateSet.treeTopologyExist (cs : CandidateSet) (topo : String) : Bool :=
  (mapFind topo cs.topologies).isSome

/-- `CandidateSet::update(string tree, double score)`.  `getTopology` is
`CandidateSet::getTopology`, which canonicalises the tree text with the tree
parser (not part of this file).  The result is the returned flag and the new
state; `none` stands for undefined behaviour: `begin()->first` is evaluated
while the multimap is empty. -/
def CandidateSet.update (getTopology : String → String) (cs : CandidateSet)
    (tree : String) (score : Dbl) : Option (Bool × CandidateSet) :=
  let candidate : CandidateTree :=
    { tree := tree, score := score, topology := getTopology tree }
  let cs := if candidate.score > cs.bestScore then { cs with bestScore := candidate.score } else cs
  match mapFind candidate.topology cs.topologies with
  | some old =>
    if old ≤ score then
      some (false,
        { cs with
          topologies := mapSet candidate.topology score cs.topologies
          entries := mmInsert score candidate
            (cs.entries.eraseP (fun e => e.2.topology == candidate.topology)) })
    else some (false, cs)
  | none =>
    if sizeLessThan cs.entries.length cs.limit then
      some (true,
        { cs with
          entries := mmInsert score candidate cs.entries
          topologies := mapSet candidate.topology score cs.topologies })
    else
      match cs.entries with
      | [] => none
      | worst :: rest =>
        if worst.1 < score then
          some (true,
            { cs with
              topologies := mapSet candidate.topology score
                (mapErase worst.2.topology cs.topologies)
              entries := mmInsert score candidate rest })
        else some (false, cs)

/-- A sequence of `update` calls, one per `(tree, score)` pair, in order. -/
def CandidateSet.updates (getTopology : String → String) :
    CandidateSet → List (String × Dbl) → Option CandidateSet
  | cs, [] => some cs
  | cs, (tree, score) :: rest =>
    match cs.update getTopology tree score with
    | none => none
    | some (_, cs') => cs'.updates getTopology rest

/-- `CandidateSet::getBestTree`: walk from `rbegin()` while the score of the
entry equals `bestScore`. -/
def CandidateSet.getBestTree (cs : CandidateSet) : List String :=
  (cs.entries.reverse.takeWhile (fun e => e.2.score == cs.bestScore)).map (fun e => e.2.tree)

/-- The conversion `(int)size()`: a `size_t` is reduced modulo `2 ^ 32` into the
range of `int`. -/
def castInt (n : Nat) : Int := ((n : Int) + 2 ^ 31) % 2 ^ 32 - 2 ^ 31

/-- The loop `for (rit = rbegin(); rit != rend() && cnt > 0; rit++, cnt--)` of
`getBestTrees`, `getBestScores` and `initParentTrees`: the elements it visits.
The argument is the multimap as walked from `rbegin()`, best entry first. -/
def walkBest (cnt : Int) : List (Dbl × CandidateTree) → List (Dbl × CandidateTree)
  | [] => []
  | e :: es => if cnt > 0 then e :: walkBest (cnt - 1) es else []

/-- `CandidateSet::getBestTrees(int numTree)`; `none` when the assertion
`numTree <= limit` fails. -/
def CandidateSet.getBestTrees (cs : CandidateSet) (numTree : Int) : Option (List String) :=
  if numTree ≤ cs.limit then
    let numTree := if numTree = 0 then cs.max_candidates else numTree
    some ((walkBest numTree cs.entries.reverse).map (fun e => e.2.tree))
  else none

/-- `CandidateSet::getBestScores(int numBestsore)`: the keys `rit->first` of the
entries visited. -/
def CandidateSet.getBestScores (cs : CandidateSet) (numBestsore : Int) : List Dbl :=
  (walkBest numBestsore cs.entries.reverse).map Prod.fst

/-- The loop `for (i = rbegin(); i != rend(); i++, id--) if (id == 0) return
i->second.tree;` of `getRandCandTree`, followed by `return ""`.  The argument is
the multimap as walked from `rbegin()`. -/
def pickRank (id : Int) : List (Dbl × CandidateTree) → String
  | [] => ""
  | e :: es => if id = 0 then e.2.tree else pickRank (id - 1) es

/-- `CandidateSet::getRandCandTree`.  `random_int` is the random number
generator of the program (not part of this file): the value it returns for the
given bound. -/
def CandidateSet.getRandCandTree (cs : CandidateSet) (random_int : Int → Int) : String :=
  if cs.entries.isEmpty then ""
  else pickRank (random_int (min cs.max_candidates (castInt cs.entries.length)))
    cs.entries.reverse

/-- `CandidateSet::initParentTrees`: when the stack is empty, push the tree texts
of the first `max_candidates` entries from `rbegin()`, best first (so that the
last one pushed, the worst of them, ends on top). -/
def CandidateSet.initParentTrees (cs : CandidateSet) : CandidateSet :=
  if cs.parentTrees.isEmpty then
    { cs with
      parentTrees := ((walkBest cs.max_candidates cs.entries.reverse).map
        (fun e => e.2.tree)).foldl (fun stack tree => tree :: stack) cs.parentTrees }
  else cs

/-- `CandidateSet::getNextCandTree`: the returned tree and the new state.  `none`
when the assertion `!empty()` fails, and when `parentTrees.top()` is evaluated on
an empty stack (undefined behaviour). -/
def CandidateSet.getNextCandTree (cs : CandidateSet) : Option (String × CandidateSet) :=
  if cs.entries.isEmpty then none
  else
    let cs := if cs.parentTrees.isEmpty then cs.initParentTrees else cs
    match cs.parentTrees with
    | [] => none
    | tree :: rest => some (tree, { cs with parentTrees := rest })

/-- Index of the upper bound of `k` in the multimap: the position at which
`mmInsert k` places the new element. -/
def upperBound {V : Type} (k : Dbl) : List (Dbl × V) → Nat
  | [] => 0
  | e :: es => if k < e.1 then 0 else upperBound k es + 1

/-- The loop of `replaceTree`,
`for (i = rbegin(); i != rend(); i++) { if (i->second.topology ==
candidate.topology) { erase(--(i.base())); break; } insert(value_type(score,
candidate)); }`.
The reverse iterator `i` is represented by `base`, the index of `i.base()` in
the multimap (`size()` for `end()`); `*i` is the element at index `base - 1`.
An insertion leaves iterators valid: the node `i.base()` moves up by one index
when the new element is placed before it, and `i++` then steps `i.base()` back
by one node of the multimap as it is after the insertion.  `fuel` bounds the
number of iterations; the result is `none` when it is used up. -/
def replaceLoop (candidate : CandidateTree) (score : Dbl) :
    Nat → List (Dbl × CandidateTree) → Nat → Option (List (Dbl × CandidateTree))
  | 0, _, _ => none
  | fuel + 1, entries, base =>
    if base = 0 then some entries
    else
      match entries[base - 1]? with
      | none => none
      | some e =>
        if e.2.topology = candidate.topology then some (entries.eraseIdx (base - 1))
        else
          let base' := if upperBound score entries ≤ base then base + 1 else base
          replaceLoop candidate score fuel (mmInsert score candidate entries) (base' - 1)

/-- `CandidateSet::replaceTree(string tree, double score)`: the returned flag and
the new state.  The loop is given `2 * size() + 2` iterations, more than it ever
makes (`replaceLoop_terminates`). -/
def CandidateSet.replaceTree (getTopology : String → String) (cs : CandidateSet)
    (tree : String) (score : Dbl) : Option (Bool × CandidateSet) :=
  let candidate : CandidateTree :=
    { tree := tree, score := score, topology := getTopology tree }
  if cs.treeTopologyExist candidate.topology then
    match replaceLoop candidate score (2 * cs.entries.length + 2) cs.entries
        cs.entries.length with
    | none => none
    | some entries =>
      some (true,
        { cs with
          topologies := mapSet candidate.topology score cs.topologies
          entries := entries })
  else some (false, cs)

/-! ### Scores that may be NaN -/

/-- A `double` as `update(string tree, double score)` receives it: NaN, or a
number, given by its rank (see `Dbl`).  The code only copies and compares
scores, and every NaN compares alike, so one value stands for all NaNs. -/
inductive Double
  | nan
  | num (rank : Dbl)
  deriving DecidableEq, Repr

/-- The comparison `a < b` of two `double`s: false when an operand is NaN. -/
def Double.less : Double → Double → Bool
  | .num a, .num b => decide (a < b)
  | _, _ => false

/-- The comparison `a <= b` of two `double`s: false when an operand is NaN. -/
def Double.lessEq : Double → Double → Bool
  | .num a, .num b => decide (a ≤ b)
  | _, _ => false

/-- The comparison `a == b` of two `double`s: false when an operand is NaN. -/
def Double.equal : Double → Double → Bool
  | .num a, .num b => decide (a = b)
  | _, _ => false

/-- Two keys are equivalent for `std::less<double>`: neither is less than the
other.  NaN is equivalent to every key. -/
def Double.equiv (a b : Double) : Bool := !(a.less b) && !(b.less a)

/-- The requirement of `std::multimap` on its comparison, for the keys `ks` of a
container: it is a strict weak ordering on them.  `<` on `double` is irreflexive
and transitive whatever the operands; what fails with NaN is the transitivity of
equivalence, as soon as NaN is a key next to two numbers that differ. -/
def keysOrdered (ks : List Double) : Bool :=
  ks.all (fun a => ks.all (fun b => ks.all (fun c =>
    !(a.equiv b && b.equiv c) || a.equiv c)))

/-- The struct `CandidateTree` with a score that may be NaN. -/
structure Fp.CandidateTree where
  tree : String
  topology : String
  score : Double
  deriving DecidableEq, Repr

/-- The class `CandidateSet` with scores that may be NaN: the members of
`CandidateSet`, the keys of the multimap, `bestScore` and the values of
`topologies` being `double`s. -/
structure Fp.CandidateSet where
  entries : List (Double × Fp.CandidateTree)
  limit : Int
  max_candidates : Int
  bestScore : Double
  topologies : List (String × Double)
  parentTrees : List String
  aln : Bool
  deriving DecidableEq, Repr

/-- The position `std::multimap::insert` gives the new element when the
comparison is a strict weak ordering on the keys: the upper bound of `k`. -/
def Fp.mmScan {V : Type} (k : Double) (v : V) : List (Double × V) → List (Double × V)
  | [] => [(k, v)]
  | e :: es => if k.less e.1 then (k, v) :: e :: es else e :: Fp.mmScan k v es

/-- `std::multimap::insert(value_type(k, v))` with keys that may be NaN.  `none`
stands for undefined behaviour: with the new key the comparison is no longer a
strict weak ordering on the keys of the container, which the container
requires. -/
def Fp.mmInsert {V : Type} (k : Double) (v : V) (l : List (Double × V)) :
    Option (List (Double × V)) :=
  if keysOrdered (k :: l.map Prod.fst) then some (Fp.mmScan k v l) else none

/-- `topologies.find(k)` with values that may be NaN. -/
def Fp.mapFind (k : String) : List (String × Double) → Option Double
  | [] => none
  | e :: es => if e.1 = k then some e.2 else Fp.mapFind k es

/-- `topologies[k] = v` with values that may be NaN. -/
def Fp.mapSet (k : String) (v : Double) : List (String × Double) → List (String × Double)
  | [] => [(k, v)]
  | e :: es => if e.1 = k then (k, v) :: es else e :: Fp.mapSet k v es

/-- `topologies.erase(k)` with values that may be NaN. -/
def Fp.mapErase (k : String) : List (String × Double) → List (String × Double)
  | [] => []
  | e :: es => if e.1 = k then es else e :: Fp.mapErase k es

/-- `CandidateSet::CandidateSet(int limit, int max_candidates, Alignment *aln)`;
`none` when one of the two assertions fails. -/
def Fp.CandidateSet.create (limit max_candidates : Int) (aln : Bool) :
    Option Fp.CandidateSet :=
  if max_candidates ≤ limit ∧ aln = true then
    some { entries := [], limit := limit, max_candidates := max_candidates,
           bestScore := Double.num (-DBL_MAX), topologies := [], parentTrees := [],
           aln := aln }
  else none

/-- `CandidateSet::update(string tree, double score)` for every `double`, NaN
included: the statements of `CandidateSet.update`, with the comparisons of
`double` (`candidate.score > bestScore`, `topologies[...] <= score`,
`begin()->first < score`).  `none` stands for undefined behaviour:
`begin()->first` on an empty multimap, or an `insert` after which the comparison
is not a strict weak ordering on the keys. -/
def Fp.CandidateSet.update (getTopology : String → String) (cs : Fp.CandidateSet)
    (tree : String) (score : Double) : Option (Bool × Fp.CandidateSet) :=
  let candidate : Fp.CandidateTree :=
    { tree := tree, score := score, topology := getTopology tree }
  let cs := if cs.bestScore.less candidate.score then
    { cs with bestScore := candidate.score } else cs
  match Fp.mapFind candidate.topology cs.topologies with
  | some old =>
    if old.lessEq score then
      match Fp.mmInsert score candidate
          (cs.entries.eraseP (fun e => e.2.topology == candidate.topology)) with
      | none => none
      | some entries =>
        some (false,
          { cs with
            topologies := Fp.mapSet candidate.topology score cs.topologies
            entries := entries })
    else some (false, cs)
  | none =>
    if sizeLessThan cs.entries.length cs.limit then
      match Fp.mmInsert score candidate cs.entries with
      | none => none
      | some entries =>
        some (true,
          { cs with
            entries := entries
            topologies := Fp.mapSet candidate.topology score cs.topologies })
    else
      match cs.entries with
      | [] => none
      | worst :: rest =>
        if worst.1.less score then
          match Fp.mmInsert score candidate rest with
          | none => none
          | some entries =>
            some (true,
              { cs with
                topologies := Fp.mapSet candidate.topology score
                  (Fp.mapErase worst.2.topology cs.topologies)
                entries := entries })
        else some (false, cs)

/-- A sequence of `update` calls with scores that may be NaN. -/
def Fp.CandidateSet.updates (getTopology : String → String) :
    Fp.CandidateSet → List (String × Double) → Option Fp.CandidateSet
  | cs, [] => some cs
  | cs, (tree, score) :: rest =>
    match cs.update getTopology tree score with
    | none => none
    | some (_, cs') => cs'.updates getTopology rest

/-- `CandidateSet::getBestTree` with scores that may be NaN: the loop goes on
while `rit->second.score == bestScore`. -/
def Fp.CandidateSet.getBestTree (cs : Fp.CandidateSet) : List String :=
  (cs.entries.reverse.takeWhile (fun e => e.2.score.equal cs.bestScore)).map
    (fun e => e.2.tree)

/-- The counted walk from `rbegin()` (see `walkBest`) over entries whose scores
may be NaN. -/
def Fp.walkBest (cnt : Int) :
    List (Double × Fp.CandidateTree) → List (Double × Fp.CandidateTree)
  | [] => []
  | e :: es => if cnt > 0 then e :: Fp.walkBest (cnt - 1) es else []

/-- `CandidateSet::getBestTrees(int numTree)` with scores that may be NaN. -/
def Fp.CandidateSet.getBestTrees (cs : Fp.CandidateSet) (numTree : Int) :
    Option (List String) :=
  if numTree ≤ cs.limit then
    let numTree := if numTree = 0 then cs.max_candidates else numTree
    some ((Fp.walkBest numTree cs.entries.reverse).map (fun e => e.2.tree))
  else none

/-- `CandidateSet::getBestScores(int numBestsore)` with scores that may be
NaN. -/
def Fp.CandidateSet.getBestScores (cs : Fp.CandidateSet) (numBestsore : Int) :
    List Double :=
  (Fp.walkBest numBestsore cs.entries.reverse).map Prod.fst

/-- The loop of `getRandCandTree` (see `pickRank`) over entries whose scores may
be NaN. -/
def Fp.pickRank (id : Int) : List (Double × Fp.CandidateTree) → String
  | [] => ""
  | e :: es => if id = 0 then e.2.tree else Fp.pickRank (id - 1) es

/-- `CandidateSet::getRandCandTree` with scores that may be NaN. -/
def Fp.CandidateSet.getRandCandTree (cs : Fp.CandidateSet) (random_int : Int → Int) :
    String :=
  if cs.entries.isEmpty then ""
  else Fp.pickRank (random_int (min cs.max_candidates (castInt cs.entries.length)))
    cs.entries.reverse

/-- A candidate tree whose score is a number, as a candidate tree whose score
may be NaN. -/
def CandidateTree.toFp (c : CandidateTree) : Fp.CandidateTree :=
  { tree := c.tree, topology := c.topology, score := Double.num c.score }

/-- A pool all of whose scores are numbers, as a pool whose scores may be NaN:
every rank `x` becomes the `double` `num x`. -/
def CandidateSet.toFp (cs : CandidateSet) : Fp.CandidateSet :=
  { entries := cs.entries.map (fun e => (Double.num e.1, e.2.toFp)),
    limit := cs.limit, max_candidates := cs.max_candidates,
    bestScore := Double.num cs.bestScore,
    topologies := cs.topologies.map (fun r => (r.1, Double.num r.2)),
    parentTrees := cs.parentTrees, aln := cs.aln }

/-- The arguments of a sequence of `update` calls whose scores are numbers (none
is NaN), as `double`s. -/
def numOps (ops : List (String × Dbl)) : List (String × Double) :=
  ops.map (fun op => (op.1, Double.num op.2))

/-- The calls of a sequence of `update` calls whose score is a number, with the
rank of that score; the calls whose score is NaN are left out. -/
def ranksOf : List (String × Double) → List (String × Dbl)
  | [] => []
  | (tree, Double.num r) :: rest => (tree, r) :: ranksOf rest
  | (_, Double.nan) :: rest => ranksOf rest

/-- The structure of a pool whose scores may be NaN: no topology is stored
twice, and the index maps the topology of every entry to the key of the
entry. -/
def Fp.CandidateSet.Linked (cs : Fp.CandidateSet) : Prop :=
  (cs.entries.map (fun e => e.2.topology)).Nodup ∧
  ∀ e ∈ cs.entries, Fp.mapFind e.2.topology cs.topologies = some e.1

/-- A finite double: the biased exponent field is not all ones, so the rank is
below that of infinity in magnitude. -/
def Dbl.IsFinite (x : Dbl) : Prop := -(2047 * 2 ^ 52 : Int) < x ∧ x < 2047 * 2 ^ 52

instance (x : Dbl) : Decidable (Dbl.IsFinite x) := by
  unfold Dbl.IsFinite
  infer_instance

/-! ### The PoMo state space (`model/modelpomo.cpp`) -/

deriving instance DecidableEq for Except

/-- Smallest value of a C `int` (32 bits). -/
def INT_MIN : Int := -(2 ^ 31)

/-- The value of an `int` expression whose mathematical result is `x`: `none`
when `x` is not representable, a signed overflow (undefined behaviour). -/
def intResult (x : Int) : Option Int :=
  if INT_MIN ≤ x ∧ x ≤ INT_MAX then some x else none

/-- The `int` expression `4+k*(N-1)` of the branch conditions of
`decomposeState`, for `k` from 2 to 6. -/
def polyBound (k N : Int) : Option Int :=
  match intResult (N - 1) with
  | none => none
  | some n1 =>
    match intResult (k * n1) with
    | none => none
    | some m => intResult (4 + m)

/-- The `int` expression `state-3-k*(N-1)` assigned to `i` in the branches of
`decomposeState`, for `k` from 2 to 5: `(state - 3) - (k * (N - 1))`. -/
def polyIndex (k N state : Int) : Option Int :=
  match intResult (state - 3) with
  | none => none
  | some a =>
    match intResult (N - 1) with
    | none => none
    | some n1 =>
      match intResult (k * n1) with
      | none => none
      | some m => intResult (a - m)

/-- `ModelPoMo::isFixed`. -/
def ModelPoMo.isFixed (state : Int) : Bool := decide (state < 4)

/-- `ModelPoMo::decomposeState(int state, int &i, int &nt1, int &nt2)` for the
member `N` (the virtual population size): the triple `(i, nt1, nt2)` written to
the reference parameters.  `some (.error msg)` is the call `outError(msg)`,
which ends the program; `none` is a signed overflow in one of the `int`
expressions evaluated. -/
def ModelPoMo.decomposeState (N state : Int) : Option (Except String (Int × Int × Int)) :=
  if state < 4 then some (.ok (N, state, -1))
  else
    match (intResult (N - 1)).bind (fun n1 => intResult (4 + n1)) with
    | none => none
    | some b1 =>
      if state < b1 then (intResult (state - 3)).map (fun i => .ok (i, 0, 1))
      else
        match polyBound 2 N with
        | none => none
        | some b2 =>
          if state < b2 then
            ((intResult (state - 3)).bind (fun a => (intResult (N - 1)).bind
              (fun n1 => intResult (a - n1)))).map (fun i => .ok (i, 0, 2))
          else
            match polyBound 3 N with
            | none => none
            | some b3 =>
              if state < b3 then (polyIndex 2 N state).map (fun i => .ok (i, 0, 3))
              else
                match polyBound 4 N with
                | none => none
                | some b4 =>
                  if state < b4 then (polyIndex 3 N state).map (fun i => .ok (i, 1, 2))
                  else
                    match polyBound 5 N with
                    | none => none
                    | some b5 =>
                      if state < b5 then (polyIndex 4 N state).map (fun i => .ok (i, 1, 3))
                      else
                        match polyBound 6 N with
                        | none => none
                        | some b6 =>
                          if state < b6 then
                            (polyIndex 5 N state).map (fun i => .ok (i, 2, 3))
                          else some (.error "State exceeds limit")

/-- The divisor `(k*(N-k))` of `computeStateFreq`, an `int` expression evaluated
for every state that is not fixed, with the `k` that `decomposeState` wrote;
`none` is a signed overflow. -/
def ModelPoMo.stateFreqDivisor (N k : Int) : Option Int :=
  match intResult (N - k) with
  | none => none
  | some d => intResult (k * d)

/-- The entry `e` holds the better-scored variant of its topology among the
submissions `calls` (the `(tree, score)` arguments of the `update` calls made so
far, in order): no submission of the topology of `e` has a score above the key
of `e`, and the tree text and the key of `e` are those of a submission of that
topology after which every submission of the topology has a strictly lower
score (the latest submission that attains the maximum). -/
def HoldsBest (getTopology : String → String) (calls : List (String × Dbl))
    (e : Dbl × CandidateTree) : Prop :=
  (∀ c ∈ calls, getTopology c.1 = e.2.topology → c.2 ≤ e.1) ∧
  ∃ pre post, calls = pre ++ (e.2.tree, e.1) :: post ∧
    getTopology e.2.tree = e.2.topology ∧
    ∀ c ∈ post, getTopology c.1 = e.2.topology → c.2 < e.1

/-- Every submission of `calls` either has its topology stored in the pool, or
the pool is full and the score submitted exceeds no stored score. -/
def LeftOut (getTopology : String → String) (cs : CandidateSet)
    (calls : List (String × Dbl)) : Prop :=
  ∀ c ∈ calls, (∃ e ∈ cs.entries, e.2.topology = getTopology c.1) ∨
    (sizeLessThan cs.entries.length cs.limit = false ∧ ∀ e ∈ cs.entries, c.2 ≤ e.1)

/-- The double 0.4 (the double nearest to it), a score of the examples of the
specification. -/
def d0_4 : Dbl := Dbl.ofFields false 1021 0x999999999999A

/-- The double 0.5. -/
def d0_5 : Dbl := Dbl.ofFields false 1022 0

/-- The double 1.0. -/
def d1_0 : Dbl := Dbl.ofFields false 1023 0

/-- The double 1.5. -/
def d1_5 : Dbl := Dbl.ofFields false 1023 (2 ^ 51)

/-- The double 2.0. -/
def d2_0 : Dbl := Dbl.ofFields false 1024 0

/-- The double 3.0. -/
def d3_0 : Dbl := Dbl.ofFields false 1024 (2 ^ 51)

/-- A canonicaliser for the examples: the topology of a tree text is its first
character, so that `"A"` and `"A2"` are two texts of one topology. -/
def firstChar (tree : String) : String := tree.take 1


/-- The empty pool of the examples of the specification: `limit = 3`,
`max_candidates = 2`. -/
def pool0 : CandidateSet := ⟨[], 3, 2, -DBL_MAX, [], [], true⟩

/-- The pool `pool0` after `update("A", 1.0)`. -/
def poolA : CandidateSet :=
  ⟨[(d1_0, ⟨"A", "A", d1_0⟩)], 3, 2, d1_0, [("A", d1_0)], [], true⟩

/-- The pool `poolA` after `update("B", 2.0)`. -/
def poolAB : CandidateSet :=
  ⟨[(d1_0, ⟨"A", "A", d1_0⟩), (d2_0, ⟨"B", "B", d2_0⟩)],
    3, 2, d2_0, [("A", d1_0), ("B", d2_0)], [], true⟩

/-- The pool `poolAB` after `update("C", 0.5)`. -/
def poolABC : CandidateSet :=
  ⟨[(d0_5, ⟨"C", "C", d0_5⟩), (d1_0, ⟨"A", "A", d1_0⟩), (d2_0, ⟨"B", "B", d2_0⟩)],
    3, 2, d2_0, [("A", d1_0), ("B", d2_0), ("C", d0_5)], [], true⟩

/-- The pool `poolABC` after `update("D", 3.0)`, which evicts C (and after the
rejected `update("E", 0.4)`, which changes nothing). -/
def poolABD : CandidateSet :=
  ⟨[(d1_0, ⟨"A", "A", d1_0⟩), (d2_0, ⟨"B", "B", d2_0⟩), (d3_0, ⟨"D", "D", d3_0⟩)],
    3, 2, d3_0, [("A", d1_0), ("B", d2_0), ("D", d3_0)], [], true⟩

/-- The pool `poolABD` after `update("A2", 1.5)`, which replaces A. -/
def poolA2BD : CandidateSet :=
  ⟨[(d1_5, ⟨"A2", "A", d1_5⟩), (d2_0, ⟨"B", "B", d2_0⟩), (d3_0, ⟨"D", "D", d3_0⟩)],
    3, 2, d3_0, [("A", d1_5), ("B", d2_0), ("D", d3_0)], [], true⟩

/-- The pool of limit 3 after the `update` calls A:1.0, B:1.0, C:1.0 and
A2:1.0: three entries of equal score, A2 the most recently inserted. -/
def poolTies : CandidateSet :=
  ⟨[(d1_0, ⟨"B", "B", d1_0⟩), (d1_0, ⟨"C", "C", d1_0⟩), (d1_0, ⟨"A2", "A", d1_0⟩)],
    3, 2, d1_0, [("A", d1_0), ("B", d1_0), ("C", d1_0)], [], true⟩

/-- The pool of limit 3 after A:-inf, B:2.0, C:0.5 and D:3.0, which evicts
A. -/
def poolBCD : CandidateSet :=
  ⟨[(d0_5, ⟨"C", "C", d0_5⟩), (d2_0, ⟨"B", "B", d2_0⟩), (d3_0, ⟨"D", "D", d3_0⟩)],
    3, 2, d3_0, [("B", d2_0), ("C", d0_5), ("D", d3_0)], [], true⟩

/-- The pool with ghost data for reasoning about the order of insertion: every
element of the multimap carries, next to its `CandidateTree`, the number of the
`update` call that inserted it (calls are numbered from 0), and `calls` counts
the `update` calls made so far.  The other fields are those of `CandidateSet`. -/
structure TracedSet where
  entries : List (Dbl × (CandidateTree × Nat))
  limit : Int
  max_candidates : Int
  bestScore : Dbl
  topologies : List (String × Dbl)
  parentTrees : List String
  aln : Bool
  calls : Nat
  deriving DecidableEq, Repr

/-- Forget the ghost data. -/
def TracedSet.pool (ts : TracedSet) : CandidateSet :=
  { entries := ts.entries.map (fun e => (e.1, e.2.1)), limit := ts.limit,
    max_candidates := ts.max_candidates, bestScore := ts.bestScore,
    topologies := ts.topologies, parentTrees := ts.parentTrees, aln := ts.aln }

/-- A pool before its first `update` call, with ghost data. -/
def TracedSet.ofPool (cs : CandidateSet) : TracedSet :=
  { entries := cs.entries.map (fun e => (e.1, (e.2, 0))), limit := cs.limit,
    max_candidates := cs.max_candidates, bestScore := cs.bestScore,
    topologies := cs.topologies, parentTrees := cs.parentTrees, aln := cs.aln, calls := 0 }

/-- `CandidateSet::update` on the pool with ghost data: the same statements as
`CandidateSet.update`, the inserted element stamped with the number of this
call. -/
def TracedSet.update (getTopology : String → String) (ts : TracedSet)
    (tree : String) (score : Dbl) : Option (Bool × TracedSet) :=
  let candidate : CandidateTree :=
    { tree := tree, score := score, topology := getTopology tree }
  let stamp := ts.calls
  let ts := { ts with
    bestScore := if candidate.score > ts.bestScore then candidate.score else ts.bestScore
    calls := ts.calls + 1 }
  match mapFind candidate.topology ts.topologies with
  | some old =>
    if old ≤ score then
      some (false,
        { ts with
          topologies := mapSet candidate.topology score ts.topologies
          entries := mmInsert score (candidate, stamp)
            (ts.entries.eraseP (fun e => e.2.1.topology == candidate.topology)) })
    else some (false, ts)
  | none =>
    if sizeLessThan ts.entries.length ts.limit then
      some (true,
        { ts with
          entries := mmInsert score (candidate, stamp) ts.entries
          topologies := mapSet candidate.topology score ts.topologies })
    else
      match ts.entries with
      | [] => none
      | worst :: rest =>
        if worst.1 < score then
          some (true,
            { ts with
              topologies := mapSet candidate.topology score
                (mapErase worst.2.1.topology ts.topologies)
              entries := mmInsert score (candidate, stamp) rest })
        else some (false, ts)

/-- A sequence of `update` calls on the pool with ghost data. -/
def TracedSet.updates (getTopology : String → String) :
    TracedSet → List (String × Dbl) → Option TracedSet
  | ts, [] => some ts
  | ts, (tree, score) :: rest =>
    match ts.update getTopology tree score with
    | none => none
    | some (_, ts') => ts'.updates getTopology rest

/-- Order of the multimap elements with ghost data: by key, and by number of the
inserting call among equal keys. -/
def StampLt (a b : Dbl × (CandidateTree × Nat)) : Prop :=
  a.1 < b.1 ∨ (a.1 = b.1 ∧ a.2.2 < b.2.2)

/-- The stored scores are the best of the submitted scores `S`: together with a
list `R` of scores left out they make up `S`, no score left out exceeds a stored
one, and the pool holds `min (length S) limit` scores. -/
def KeepsBest (cs : CandidateSet) (S : List Dbl) : Prop :=
  ∃ R : List Dbl, (cs.entries.map Prod.fst ++ R).Perm S ∧
    (∀ r ∈ R, ∀ m ∈ cs.entries.map Prod.fst, r ≤ m) ∧
    (cs.entries.length : Int) = min (S.length : Int) cs.limit

/-- The number `m` is the greatest element of the list `l`. -/
def IsMaxOf (m : Dbl) (l : List Dbl) : Prop := m ∈ l ∧ ∀ x ∈ l, x ≤ m

/-- The number `m` is the least element of the list `l`. -/
def IsMinOf (m : Dbl) (l : List Dbl) : Prop := m ∈ l ∧ ∀ x ∈ l, m ≤ x

instance (m : Dbl) (l : List Dbl) : Decidable (IsMaxOf m l) := by
  unfold IsMaxOf
  infer_instance

instance (m : Dbl) (l : List Dbl) : Decidable (IsMinOf m l) := by
  unfold IsMinOf
  infer_instance

/-- The representation invariant of the pool: the multimap is sorted by key,
every key is the score of its value, no topology is stored twice, the index
holds every key once, the index maps exactly the stored topologies to their
scores, and no stored score exceeds `bestScore`. -/
structure CandidateSet.Inv (cs : CandidateSet) : Prop where
  sorted : cs.entries.Pairwise (fun a b => a.1 ≤ b.1)
  keyScore : ∀ e ∈ cs.entries, e.1 = e.2.score
  nodupTopo : (cs.entries.map (fun e => e.2.topology)).Nodup
  nodupKeys : (cs.topologies.map Prod.fst).Nodup
  index : ∀ k v, mapFind k cs.topologies = some v ↔
    ∃ e ∈ cs.entries, e.2.topology = k ∧ e.1 = v
  best : ∀ e ∈ cs.entries, e.1 ≤ cs.bestScore

/-! ## The containers -/

theorem mmInsert_perm {V : Type} (k : Dbl) (v : V) (l : List (Dbl × V)) :
    (mmInsert k v l).Perm ((k, v) :: l) := by
  induction l with
  | nil => simp [mmInsert]
  | cons e es ih =>
    simp only [mmInsert]
    split
    · exact List.Perm.refl _
    · exact (List.Perm.cons e ih).trans (List.Perm.swap _ _ _)

theorem mem_mmInsert {V : Type} (k : Dbl) (v : V) (l : List (Dbl × V)) (e : Dbl × V) :
    e ∈ mmInsert k v l ↔ e = (k, v) ∨ e ∈ l := by
  rw [(mmInsert_perm k v l).mem_iff, List.mem_cons]

theorem length_mmInsert {V : Type} (k : Dbl) (v : V) (l : List (Dbl × V)) :
    (mmInsert k v l).length = l.length + 1 := by
  rw [(mmInsert_perm k v l).length_eq, List.length_cons]

theorem mmInsert_sorted {V : Type} (k : Dbl) (v : V) (l : List (Dbl × V))
    (h : l.Pairwise (fun a b => a.1 ≤ b.1)) :
    (mmInsert k v l).Pairwise (fun a b => a.1 ≤ b.1) := by
  induction l with
  | nil => simp [mmInsert]
  | cons e es ih =>
    rw [List.pairwise_cons] at h
    simp only [mmInsert]
    split
    · rename_i hlt
      refine List.pairwise_cons.2 ⟨?_, List.pairwise_cons.2 h⟩
      intro a ha
      rcases List.mem_cons.1 ha with rfl | ha
      · exact le_of_lt hlt
      · exact le_trans (le_of_lt hlt) (h.1 a ha)
    · rename_i hge
      refine List.pairwise_cons.2 ⟨?_, ih h.2⟩
      intro a ha
      rcases (mem_mmInsert k v es a).1 ha with rfl | ha
      · exact not_lt.1 hge
      · exact h.1 a ha

theorem mapFind_eq_none {k : String} {m : List (String × Dbl)} :
    mapFind k m = none ↔ k ∉ m.map Prod.fst := by
  induction m with
  | nil => simp [mapFind]
  | cons e es ih =>
    simp only [mapFind, List.map_cons, List.mem_cons, not_or]
    split
    · rename_i h
      simp [h]
    · rename_i h
      rw [ih]
      constructor
      · intro h2
        exact ⟨fun h3 => h h3.symm, h2⟩
      · exact fun h2 => h2.2

theorem mapFind_mem {k : String} {v : Dbl} {m : List (String × Dbl)}
    (h : mapFind k m = some v) : (k, v) ∈ m := by
  induction m with
  | nil => simp [mapFind] at h
  | cons e es ih =>
    simp only [mapFind] at h
    split at h
    · rename_i hk
      cases h
      subst hk
      exact List.mem_cons_self _ _
    · exact List.mem_cons_of_mem _ (ih h)

theorem mapFind_of_mem {k : String} {v : Dbl} {m : List (String × Dbl)}
    (nd : (m.map Prod.fst).Nodup) (h : (k, v) ∈ m) : mapFind k m = some v := by
  induction m with
  | nil => simp at h
  | cons e es ih =>
    rw [List.map_cons, List.nodup_cons] at nd
    simp only [mapFind]
    rcases List.mem_cons.1 h with rfl | h
    · simp
    · have : e.1 ≠ k := by
        intro hk
        exact nd.1 (hk ▸ List.mem_map_of_mem Prod.fst h)
      simp [this, ih nd.2 h]

theorem mapFind_mapSet (k k' : String) (v : Dbl) (m : List (String × Dbl)) :
    mapFind k' (mapSet k v m) = if k' = k then some v else mapFind k' m := by
  induction m with
  | nil =>
    by_cases h : k' = k
    · simp [mapSet, mapFind, h]
    · have h' : ¬ k = k' := fun h2 => h h2.symm
      simp [mapSet, mapFind, h, h']
  | cons e es ih =>
    simp only [mapSet]
    by_cases he : e.1 = k
    · by_cases h : k' = k
      · simp [he, h, mapFind]
      · have h' : ¬ k = k' := fun h2 => h h2.symm
        simp [he, h, h', mapFind]
    · by_cases h : k' = k
      · subst h
        simp [he, mapFind, ih]
      · simp only [he, if_false, mapFind, ih, h]

theorem mapSet_keys (k : String) (v : Dbl) (m : List (String × Dbl)) :
    (mapSet k v m).map Prod.fst
      = if k ∈ m.map Prod.fst then m.map Prod.fst else m.map Prod.fst ++ [k] := by
  induction m with
  | nil => simp [mapSet]
  | cons e es ih =>
    simp only [mapSet]
    by_cases he : e.1 = k
    · simp [he]
    · have he' : ¬ k = e.1 := fun h => he h.symm
      simp only [he, if_false, List.map_cons, ih, List.mem_cons, he', false_or]
      split <;> simp

theorem mapSet_nodup (k : String) (v : Dbl) (m : List (String × Dbl))
    (nd : (m.map Prod.fst).Nodup) : ((mapSet k v m).map Prod.fst).Nodup := by
  rw [mapSet_keys]
  split
  · exact nd
  · rename_i h
    exact List.Nodup.append nd (List.nodup_singleton k) (by simpa using h)

theorem mapErase_keys (k : String) (m : List (String × Dbl)) :
    (mapErase k m).map Prod.fst = (m.map Prod.fst).erase k := by
  induction m with
  | nil => simp [mapErase]
  | cons e es ih =>
    simp only [mapErase]
    by_cases he : e.1 = k
    · simp [he]
    · simp [he, ih, List.erase_cons_tail]

theorem mapErase_nodup (k : String) (m : List (String × Dbl))
    (nd : (m.map Prod.fst).Nodup) : ((mapErase k m).map Prod.fst).Nodup := by
  rw [mapErase_keys]
  exact nd.erase k

theorem mapFind_mapErase (k k' : String) (m : List (String × Dbl))
    (nd : (m.map Prod.fst).Nodup) :
    mapFind k' (mapErase k m) = if k' = k then none else mapFind k' m := by
  induction m with
  | nil => simp [mapErase, mapFind]
  | cons e es ih =>
    rw [List.map_cons, List.nodup_cons] at nd
    simp only [mapErase]
    by_cases he : e.1 = k
    · by_cases h : k' = k
      · subst h
        simp only [he, if_true]
        exact mapFind_eq_none.2 (he ▸ nd.1)
      · have h' : ¬ k = k' := fun h2 => h h2.symm
        simp [he, h, h', mapFind]
    · by_cases h : k' = k
      · subst h
        simp [he, mapFind, ih nd.2]
      · simp only [he, if_false, mapFind, ih nd.2, h]


/-! ## `update`, branch by branch -/

theorem update_eq (gt : String → String) (cs : CandidateSet) (tree : String) (score : Dbl) :
    cs.update gt tree score =
      match mapFind (gt tree) cs.topologies with
      | some old =>
        if old ≤ score then
          some (false,
            { cs with
              bestScore := max cs.bestScore score
              topologies := mapSet (gt tree) score cs.topologies
              entries := mmInsert score ⟨tree, gt tree, score⟩
                (cs.entries.eraseP (fun e => e.2.topology == gt tree)) })
        else some (false, { cs with bestScore := max cs.bestScore score })
      | none =>
        if sizeLessThan cs.entries.length cs.limit then
          some (true,
            { cs with
              bestScore := max cs.bestScore score
              entries := mmInsert score ⟨tree, gt tree, score⟩ cs.entries
              topologies := mapSet (gt tree) score cs.topologies })
        else
          match cs.entries with
          | [] => none
          | worst :: rest =>
            if worst.1 < score then
              some (true,
                { cs with
                  bestScore := max cs.bestScore score
                  topologies := mapSet (gt tree) score
                    (mapErase worst.2.topology cs.topologies)
                  entries := mmInsert score ⟨tree, gt tree, score⟩ rest })
            else some (false, { cs with bestScore := max cs.bestScore score }) := by
  unfold CandidateSet.update
  by_cases hb : score > cs.bestScore
  · have hm : max cs.bestScore score = score := max_eq_right (le_of_lt hb)
    simp only [hb, if_true, hm]
  · have hm : max cs.bestScore score = cs.bestScore := max_eq_left (not_lt.1 hb)
    simp only [hb, if_false, hm]


theorem update_existing_ge {gt : String → String} {cs : CandidateSet} {tree : String}
    {score old : Dbl} (hf : mapFind (gt tree) cs.topologies = some old) (hle : old ≤ score) :
    cs.update gt tree score = some (false,
      { cs with
        bestScore := max cs.bestScore score
        topologies := mapSet (gt tree) score cs.topologies
        entries := mmInsert score ⟨tree, gt tree, score⟩
          (cs.entries.eraseP (fun e => e.2.topology == gt tree)) }) := by
  rw [update_eq, hf]
  simp only [hle, if_true]

theorem update_existing_lt {gt : String → String} {cs : CandidateSet} {tree : String}
    {score old : Dbl} (hf : mapFind (gt tree) cs.topologies = some old) (hlt : score < old) :
    cs.update gt tree score = some (false, { cs with bestScore := max cs.bestScore score }) := by
  rw [update_eq, hf]
  simp only [not_le.2 hlt, if_false]

theorem update_new_room {gt : String → String} {cs : CandidateSet} {tree : String}
    {score : Dbl} (hf : mapFind (gt tree) cs.topologies = none)
    (hs : sizeLessThan cs.entries.length cs.limit = true) :
    cs.update gt tree score = some (true,
      { cs with
        bestScore := max cs.bestScore score
        entries := mmInsert score ⟨tree, gt tree, score⟩ cs.entries
        topologies := mapSet (gt tree) score cs.topologies }) := by
  rw [update_eq, hf]
  simp only [hs, if_true]

theorem update_new_empty {gt : String → String} {cs : CandidateSet} {tree : String}
    {score : Dbl} (hf : mapFind (gt tree) cs.topologies = none)
    (hs : ¬ sizeLessThan cs.entries.length cs.limit = true) (hent : cs.entries = []) :
    cs.update gt tree score = none := by
  have hs' : sizeLessThan cs.entries.length cs.limit = false := by simpa using hs
  rw [update_eq, hf]
  simp only [hs', Bool.false_eq_true, if_false]
  rw [hent]

theorem update_new_evict {gt : String → String} {cs : CandidateSet} {tree : String}
    {score : Dbl} {worst : Dbl × CandidateTree} {rest : List (Dbl × CandidateTree)}
    (hf : mapFind (gt tree) cs.topologies = none)
    (hs : ¬ sizeLessThan cs.entries.length cs.limit = true)
    (hent : cs.entries = worst :: rest) (hw : worst.1 < score) :
    cs.update gt tree score = some (true,
      { cs with
        bestScore := max cs.bestScore score
        topologies := mapSet (gt tree) score (mapErase worst.2.topology cs.topologies)
        entries := mmInsert score ⟨tree, gt tree, score⟩ rest }) := by
  have hs' : sizeLessThan cs.entries.length cs.limit = false := by simpa using hs
  rw [update_eq, hf]
  simp only [hs', Bool.false_eq_true, if_false]
  rw [hent]
  simp only [hw, if_true]

theorem update_new_reject {gt : String → String} {cs : CandidateSet} {tree : String}
    {score : Dbl} {worst : Dbl × CandidateTree} {rest : List (Dbl × CandidateTree)}
    (hf : mapFind (gt tree) cs.topologies = none)
    (hs : ¬ sizeLessThan cs.entries.length cs.limit = true)
    (hent : cs.entries = worst :: rest) (hw : ¬ worst.1 < score) :
    cs.update gt tree score = some (false, { cs with bestScore := max cs.bestScore score }) := by
  have hs' : sizeLessThan cs.entries.length cs.limit = false := by simpa using hs
  rw [update_eq, hf]
  simp only [hs', Bool.false_eq_true, if_false]
  split
  · rename_i h
    rw [hent] at h
    cases h
  · rename_i w r h
    rw [hent] at h
    cases h
    simp only [hw, if_false]

/-! ## The representation invariant -/

theorem eraseP_topology_ne (topo : String) (l : List (Dbl × CandidateTree))
    (nd : (l.map (fun e => e.2.topology)).Nodup) :
    ∀ e ∈ l.eraseP (fun e => e.2.topology == topo), e.2.topology ≠ topo := by
  induction l with
  | nil => simp
  | cons a as ih =>
    rw [List.map_cons, List.nodup_cons] at nd
    intro e he
    rw [List.eraseP_cons] at he
    by_cases ha : a.2.topology = topo
    · simp only [ha, beq_self_eq_true, cond_true] at he
      intro h
      exact nd.1 (ha ▸ h ▸ List.mem_map_of_mem (fun e : Dbl × CandidateTree => e.2.topology) he)
    · have hp : (a.2.topology == topo) = false := by simpa using ha
      simp only [hp, cond_false] at he
      rcases List.mem_cons.1 he with rfl | he
      · exact ha
      · exact ih nd.2 e he

theorem mem_eraseP_topology (topo : String) (l : List (Dbl × CandidateTree))
    (e : Dbl × CandidateTree) (h : e.2.topology ≠ topo) :
    e ∈ l.eraseP (fun e => e.2.topology == topo) ↔ e ∈ l :=
  List.mem_eraseP_of_neg (by simpa using h)

theorem inv_bestScore (cs : CandidateSet) (score : Dbl) (h : cs.Inv) :
    CandidateSet.Inv { cs with bestScore := max cs.bestScore score } :=
  { sorted := h.sorted, keyScore := h.keyScore, nodupTopo := h.nodupTopo,
    nodupKeys := h.nodupKeys, index := h.index,
    best := fun e he => le_trans (h.best e he) (le_max_left _ _) }

theorem inv_insert (cs : CandidateSet) (tree topo : String) (score : Dbl)
    (L : List (Dbl × CandidateTree)) (M : List (String × Dbl))
    (hs : L.Pairwise (fun a b => a.1 ≤ b.1))
    (hk : ∀ e ∈ L, e.1 = e.2.score)
    (hn : (L.map (fun e => e.2.topology)).Nodup)
    (hm : (M.map Prod.fst).Nodup)
    (hi : ∀ k v, k ≠ topo → (mapFind k M = some v ↔ ∃ e ∈ L, e.2.topology = k ∧ e.1 = v))
    (hb : ∀ e ∈ L, e.1 ≤ cs.bestScore)
    (hne : ∀ e ∈ L, e.2.topology ≠ topo) :
    CandidateSet.Inv
      { cs with
        bestScore := max cs.bestScore score
        entries := mmInsert score ⟨tree, topo, score⟩ L
        topologies := mapSet topo score M } := by
  refine ⟨mmInsert_sorted _ _ _ hs, ?_, ?_, mapSet_nodup _ _ _ hm, ?_, ?_⟩
  · intro e he
    rcases (mem_mmInsert _ _ _ _).1 he with rfl | he
    · rfl
    · exact hk e he
  · refine ((mmInsert_perm score (⟨tree, topo, score⟩ : CandidateTree) L).map _).nodup_iff.2 ?_
    rw [List.map_cons, List.nodup_cons]
    refine ⟨?_, hn⟩
    intro hmem
    rcases List.mem_map.1 hmem with ⟨e, he, het⟩
    exact hne e he het
  · intro k v
    show mapFind k (mapSet topo score M) = some v ↔
      ∃ e ∈ mmInsert score (⟨tree, topo, score⟩ : CandidateTree) L, e.2.topology = k ∧ e.1 = v
    rw [mapFind_mapSet]
    by_cases hkt : k = topo
    · subst hkt
      simp only [if_true, Option.some.injEq]
      constructor
      · intro hv
        exact ⟨(score, ⟨tree, k, score⟩), (mem_mmInsert _ _ _ _).2 (Or.inl rfl), rfl, hv⟩
      · rintro ⟨e, he, het, hev⟩
        rcases (mem_mmInsert _ _ _ _).1 he with rfl | he
        · exact hev
        · exact absurd het (hne e he)
    · simp only [hkt, if_false]
      rw [hi k v hkt]
      constructor
      · rintro ⟨e, he, het, hev⟩
        exact ⟨e, (mem_mmInsert _ _ _ _).2 (Or.inr he), het, hev⟩
      · rintro ⟨e, he, het, hev⟩
        rcases (mem_mmInsert _ _ _ _).1 he with rfl | he
        · exact absurd het.symm hkt
        · exact ⟨e, he, het, hev⟩
  · intro e he
    rcases (mem_mmInsert _ _ _ _).1 he with rfl | he
    · exact le_max_right _ _
    · exact le_trans (hb e he) (le_max_left _ _)

theorem topology_not_stored {cs : CandidateSet} (h : cs.Inv) {topo : String}
    (hf : mapFind topo cs.topologies = none) : ∀ e ∈ cs.entries, e.2.topology ≠ topo := by
  intro e he het
  have := (h.index topo e.1).2 ⟨e, he, het, rfl⟩
  rw [hf] at this
  cases this

theorem inv_update {gt : String → String} {cs cs' : CandidateSet} {tree : String}
    {score : Dbl} {b : Bool} (h : cs.Inv)
    (hu : cs.update gt tree score = some (b, cs')) : cs'.Inv := by
  rw [update_eq] at hu
  split at hu
  · rename_i old hf
    split at hu
    · cases hu
      refine inv_insert cs tree (gt tree) score _ _
        (h.sorted.sublist (List.eraseP_sublist _)) ?_
        (h.nodupTopo.sublist ((List.eraseP_sublist _).map _)) h.nodupKeys ?_ ?_
        (eraseP_topology_ne _ _ h.nodupTopo)
      · exact fun e he => h.keyScore e (List.mem_of_mem_eraseP he)
      · intro k v hk
        rw [h.index k v]
        constructor
        · rintro ⟨e, he, het, hev⟩
          exact ⟨e, (mem_eraseP_topology _ _ e (het ▸ hk)).2 he, het, hev⟩
        · rintro ⟨e, he, het, hev⟩
          exact ⟨e, List.mem_of_mem_eraseP he, het, hev⟩
      · exact fun e he => h.best e (List.mem_of_mem_eraseP he)
    · cases hu
      exact inv_bestScore cs score h
  · rename_i hf
    split at hu
    · cases hu
      exact inv_insert cs tree (gt tree) score _ _ h.sorted h.keyScore h.nodupTopo h.nodupKeys
        (fun k v _ => h.index k v) h.best (topology_not_stored h hf)
    · split at hu
      · cases hu
      · rename_i worst rest hent
        split at hu
        · cases hu
          have hs := h.sorted
          have hn := h.nodupTopo
          have hne := topology_not_stored h hf
          rw [hent] at hs hn hne
          rw [List.map_cons, List.nodup_cons] at hn
          rw [List.pairwise_cons] at hs
          refine inv_insert cs tree (gt tree) score rest _ hs.2 ?_ hn.2
            (mapErase_nodup _ _ h.nodupKeys) ?_ ?_ ?_
          · exact fun e he => h.keyScore e (hent ▸ List.mem_cons_of_mem _ he)
          · intro k v _
            rw [mapFind_mapErase _ _ _ h.nodupKeys]
            by_cases hkw : k = worst.2.topology
            · subst hkw
              simp only [if_true]
              constructor
              · intro hc
                cases hc
              · rintro ⟨e, he, het, _⟩
                exact absurd (het ▸ List.mem_map_of_mem (fun e : Dbl × CandidateTree => e.2.topology) he) hn.1
            · simp only [hkw, if_false]
              rw [h.index k v, hent]
              constructor
              · rintro ⟨e, he, het, hev⟩
                rcases List.mem_cons.1 he with rfl | he
                · exact absurd het.symm hkw
                · exact ⟨e, he, het, hev⟩
              · rintro ⟨e, he, het, hev⟩
                exact ⟨e, List.mem_cons_of_mem _ he, het, hev⟩
          · exact fun e he => h.best e (hent ▸ List.mem_cons_of_mem _ he)
          · exact fun e he => hne e (List.mem_cons_of_mem _ he)
        · cases hu
          exact inv_bestScore cs score h

theorem inv_create {limit max_candidates : Int} {aln : Bool} {cs : CandidateSet}
    (h : CandidateSet.create limit max_candidates aln = some cs) : cs.Inv := by
  unfold CandidateSet.create at h
  split at h
  · cases h
    exact ⟨List.Pairwise.nil, by simp, by simp, by simp, by simp [mapFind], by simp⟩
  · cases h

theorem inv_updates {gt : String → String} (ops : List (String × Dbl)) :
    ∀ {cs cs' : CandidateSet}, cs.Inv → cs.updates gt ops = some cs' → cs'.Inv := by
  induction ops with
  | nil =>
    intro cs cs' h hu
    simp only [CandidateSet.updates, Option.some.injEq] at hu
    exact hu ▸ h
  | cons op rest ih =>
    intro cs cs' h hu
    obtain ⟨tree, score⟩ := op
    simp only [CandidateSet.updates] at hu
    split at hu
    · cases hu
    · rename_i b cs1 h1
      exact ih (inv_update h h1) hu


theorem updates_induction (gt : String → String) (P : CandidateSet → Prop)
    (step : ∀ cs tree score b cs', P cs → cs.update gt tree score = some (b, cs') → P cs') :
    ∀ (ops : List (String × Dbl)) (cs cs' : CandidateSet),
      P cs → cs.updates gt ops = some cs' → P cs' := by
  intro ops
  induction ops with
  | nil =>
    intro cs cs' h hu
    simp only [CandidateSet.updates, Option.some.injEq] at hu
    exact hu ▸ h
  | cons op rest ih =>
    intro cs cs' h hu
    obtain ⟨tree, score⟩ := op
    simp only [CandidateSet.updates] at hu
    split at hu
    · cases hu
    · rename_i b cs1 h1
      exact ih cs1 cs' (step cs tree score b cs1 h h1) hu

/-! ## Capacity -/

theorem sizeLessThan_iff {n : Nat} {limit : Int} (h0 : 0 ≤ limit) (h1 : limit ≤ INT_MAX) :
    sizeLessThan n limit = true ↔ (n : Int) < limit := by
  unfold INT_MAX at h1
  unfold sizeLessThan
  rw [decide_eq_true_iff, Int.emod_eq_of_lt h0 (by omega)]

theorem sizeLessThan_zero_of_neg {limit : Int} (h0 : limit < 0) (h1 : -(2 ^ 31) ≤ limit) (n : Nat)
    (hn : (n : Int) < 2 ^ 63) : sizeLessThan n limit = true := by
  unfold sizeLessThan
  rw [decide_eq_true_iff]
  omega

theorem update_config {gt : String → String} {cs cs' : CandidateSet} {tree : String}
    {score : Dbl} {b : Bool} (hu : cs.update gt tree score = some (b, cs')) :
    cs'.limit = cs.limit ∧ cs'.max_candidates = cs.max_candidates ∧
      cs'.parentTrees = cs.parentTrees ∧ cs'.aln = cs.aln := by
  rw [update_eq] at hu
  split at hu
  · split at hu <;> cases hu <;> exact ⟨rfl, rfl, rfl, rfl⟩
  · split at hu
    · cases hu
      exact ⟨rfl, rfl, rfl, rfl⟩
    · split at hu
      · cases hu
      · split at hu <;> cases hu <;> exact ⟨rfl, rfl, rfl, rfl⟩

theorem length_eraseP_topology {cs : CandidateSet} (h : cs.Inv) {topo : String} {old : Dbl}
    (hf : mapFind topo cs.topologies = some old) :
    (cs.entries.eraseP (fun e => e.2.topology == topo)).length + 1 = cs.entries.length := by
  obtain ⟨e, he, het, _⟩ := (h.index topo old).1 hf
  have hp : (fun e : Dbl × CandidateTree => e.2.topology == topo) e = true := by simp [het]
  rw [List.length_eraseP_of_mem he hp]
  have := List.length_pos_of_mem he
  omega

theorem update_defined (gt : String → String) (cs : CandidateSet) (tree : String) (score : Dbl)
    (h1 : 1 ≤ cs.limit) (h2 : cs.limit ≤ INT_MAX) :
    ∃ b cs', cs.update gt tree score = some (b, cs') := by
  rw [update_eq]
  split
  · split <;> exact ⟨_, _, rfl⟩
  · split
    · exact ⟨_, _, rfl⟩
    · rename_i hlt
      split
      · rename_i hent
        rw [hent] at hlt
        exact absurd ((sizeLessThan_iff (by omega) h2).2 (by simpa using h1)) hlt
      · split <;> exact ⟨_, _, rfl⟩

theorem updates_defined (gt : String → String) (ops : List (String × Dbl)) :
    ∀ (cs : CandidateSet), 1 ≤ cs.limit → cs.limit ≤ INT_MAX →
      ∃ cs', cs.updates gt ops = some cs' := by
  induction ops with
  | nil => exact fun cs _ _ => ⟨cs, rfl⟩
  | cons op rest ih =>
    intro cs h1 h2
    obtain ⟨tree, score⟩ := op
    obtain ⟨b, cs1, hu⟩ := update_defined gt cs tree score h1 h2
    have hl := (update_config hu).1
    obtain ⟨cs', hr⟩ := ih cs1 (hl ▸ h1) (hl ▸ h2)
    exact ⟨cs', by simp only [CandidateSet.updates, hu, hr]⟩

theorem create_eq {limit max_candidates : Int} {aln : Bool} {cs : CandidateSet}
    (h : CandidateSet.create limit max_candidates aln = some cs) :
    cs = { entries := [], limit := limit, max_candidates := max_candidates,
           bestScore := -DBL_MAX, topologies := [], parentTrees := [], aln := true } := by
  unfold CandidateSet.create at h
  split at h
  · rename_i hc
    cases h
    rw [hc.2]
  · cases h

theorem filter_topology_singleton (l : List (Dbl × CandidateTree))
    (nd : (l.map (fun e => e.2.topology)).Nodup) (e : Dbl × CandidateTree) (he : e ∈ l) :
    l.filter (fun x => x.2.topology == e.2.topology) = [e] := by
  induction l with
  | nil => simp at he
  | cons a as ih =>
    rw [List.map_cons, List.nodup_cons] at nd
    rcases List.mem_cons.1 he with rfl | he
    · have hrest : as.filter (fun x => x.2.topology == e.2.topology) = [] := by
        rw [List.filter_eq_nil_iff]
        intro x hx hxe
        exact nd.1 ((beq_iff_eq.1 hxe) ▸
          List.mem_map_of_mem (fun e : Dbl × CandidateTree => e.2.topology) hx)
      simp [List.filter_cons, hrest]
    · have hne : ¬ a.2.topology = e.2.topology := by
        intro hae
        exact nd.1 (hae ▸ List.mem_map_of_mem (fun e : Dbl × CandidateTree => e.2.topology) he)
      simp [List.filter_cons, hne, ih nd.2 he]

/-! ## The best score -/

theorem update_bestScore {gt : String → String} {cs cs' : CandidateSet} {tree : String}
    {score : Dbl} {b : Bool} (hu : cs.update gt tree score = some (b, cs')) :
    cs'.bestScore = max cs.bestScore score := by
  rw [update_eq] at hu
  split at hu
  · split at hu <;> cases hu <;> rfl
  · split at hu
    · cases hu
      rfl
    · split at hu
      · cases hu
      · split at hu <;> cases hu <;> rfl

theorem updates_bestScore {gt : String → String} (ops : List (String × Dbl)) :
    ∀ {cs cs' : CandidateSet}, cs.updates gt ops = some cs' →
      cs'.bestScore = (ops.map Prod.snd).foldl max cs.bestScore := by
  induction ops with
  | nil =>
    intro cs cs' hu
    simp only [CandidateSet.updates, Option.some.injEq] at hu
    rw [← hu]
    rfl
  | cons op rest ih =>
    intro cs cs' hu
    obtain ⟨tree, score⟩ := op
    simp only [CandidateSet.updates] at hu
    split at hu
    · cases hu
    · rename_i b cs1 h1
      rw [ih hu, update_bestScore h1]
      rfl

theorem le_foldl_max (l : List Dbl) : ∀ a : Dbl, a ≤ l.foldl max a := by
  induction l with
  | nil => exact fun a => le_refl a
  | cons x xs ih => exact fun a => le_trans (le_max_left a x) (ih (max a x))

theorem le_foldl_max_of_mem (l : List Dbl) :
    ∀ (a x : Dbl), x ∈ l → x ≤ l.foldl max a := by
  induction l with
  | nil =>
    intro a x hx
    simp at hx
  | cons y ys ih =>
    intro a x hx
    rcases List.mem_cons.1 hx with rfl | hx
    · exact le_trans (le_max_right a x) (le_foldl_max ys (max a x))
    · exact ih (max a y) x hx

theorem foldl_max_eq_or_mem (l : List Dbl) :
    ∀ a : Dbl, l.foldl max a = a ∨ l.foldl max a ∈ l := by
  induction l with
  | nil => exact fun a => Or.inl rfl
  | cons x xs ih =>
    intro a
    rcases ih (max a x) with h | h
    · rcases max_choice a x with hm | hm
      · left
        rw [List.foldl_cons, h, hm]
      · right
        rw [List.foldl_cons, h, hm]
        exact List.mem_cons_self _ _
    · right
      exact List.mem_cons_of_mem _ h

theorem foldl_max_isMaxOf (l : List Dbl) (a : Dbl) (hne : l ≠ [])
    (hge : ∀ x ∈ l, a ≤ x) : IsMaxOf (l.foldl max a) l := by
  refine ⟨?_, fun x hx => le_foldl_max_of_mem l a x hx⟩
  rcases foldl_max_eq_or_mem l a with h | h
  · obtain ⟨x, hx⟩ := List.exists_mem_of_ne_nil l hne
    have h1 := le_foldl_max_of_mem l a x hx
    have h2 := hge x hx
    rw [h] at h1
    have : x = a := le_antisymm h1 h2
    rw [h, ← this]
    exact hx
  · exact h

theorem foldl_max_isMaxOf_of_exists (l : List Dbl) (a : Dbl)
    (hge : ∃ x ∈ l, a ≤ x) : IsMaxOf (l.foldl max a) l := by
  refine ⟨?_, fun x hx => le_foldl_max_of_mem l a x hx⟩
  rcases foldl_max_eq_or_mem l a with h | h
  · obtain ⟨x, hx, h2⟩ := hge
    have h1 := le_foldl_max_of_mem l a x hx
    rw [h] at h1
    have : x = a := le_antisymm h1 h2
    rw [h, ← this]
    exact hx
  · exact h

/-! ## States reached from the empty pool -/

theorem reached_inv {gt : String → String} {limit max_candidates : Int} {aln : Bool}
    {cs0 cs : CandidateSet} {ops : List (String × Dbl)}
    (hc : CandidateSet.create limit max_candidates aln = some cs0)
    (hu : cs0.updates gt ops = some cs) :
    cs.Inv ∧ cs.limit = limit ∧ cs.max_candidates = max_candidates := by
  have h00 := create_eq hc
  exact updates_induction gt
    (fun c => c.Inv ∧ c.limit = limit ∧ c.max_candidates = max_candidates)
    (fun c tree score b c' hp hstep =>
      ⟨inv_update hp.1 hstep, (update_config hstep).1.trans hp.2.1,
        (update_config hstep).2.1.trans hp.2.2⟩)
    ops cs0 cs ⟨inv_create hc, by rw [h00], by rw [h00]⟩ hu

theorem isMinOf_head {cs : CandidateSet} (h : cs.entries.Pairwise (fun a b => a.1 ≤ b.1))
    {worst : Dbl × CandidateTree}
    {rest : List (Dbl × CandidateTree)} (hent : cs.entries = worst :: rest) (m : Dbl) :
    IsMinOf m (cs.entries.map Prod.fst) ↔ m = worst.1 := by
  have hs := h
  rw [hent, List.pairwise_cons] at hs
  rw [hent]
  constructor
  · rintro ⟨hm, hle⟩
    have h1 : m ≤ worst.1 := hle worst.1 (by simp)
    rcases List.mem_map.1 hm with ⟨e, he, rfl⟩
    rcases List.mem_cons.1 he with rfl | he
    · rfl
    · exact le_antisymm h1 (hs.1 e he)
  · rintro rfl
    refine ⟨by simp, ?_⟩
    intro x hx
    rcases List.mem_map.1 hx with ⟨e, he, rfl⟩
    rcases List.mem_cons.1 he with rfl | he
    · exact le_refl _
    · exact hs.1 e he

/-! ## The pool with ghost data -/

theorem map_mmInsert {V W : Type} (f : V → W) (k : Dbl) (v : V) (l : List (Dbl × V)) :
    (mmInsert k v l).map (fun e => (e.1, f e.2))
      = mmInsert k (f v) (l.map (fun e => (e.1, f e.2))) := by
  induction l with
  | nil => rfl
  | cons e es ih =>
    simp only [mmInsert, List.map_cons]
    split
    · rfl
    · rw [List.map_cons, ih]

theorem traced_update_eq (gt : String → String) (ts : TracedSet) (tree : String)
    (score : Dbl) :
    ts.update gt tree score =
      match mapFind (gt tree) ts.topologies with
      | some old =>
        if old ≤ score then
          some (false,
            { ts with
              bestScore := max ts.bestScore score
              calls := ts.calls + 1
              topologies := mapSet (gt tree) score ts.topologies
              entries := mmInsert score (⟨tree, gt tree, score⟩, ts.calls)
                (ts.entries.eraseP (fun e => e.2.1.topology == gt tree)) })
        else some (false, { ts with bestScore := max ts.bestScore score, calls := ts.calls + 1 })
      | none =>
        if sizeLessThan ts.entries.length ts.limit then
          some (true,
            { ts with
              bestScore := max ts.bestScore score
              calls := ts.calls + 1
              entries := mmInsert score (⟨tree, gt tree, score⟩, ts.calls) ts.entries
              topologies := mapSet (gt tree) score ts.topologies })
        else
          match ts.entries with
          | [] => none
          | worst :: rest =>
            if worst.1 < score then
              some (true,
                { ts with
                  bestScore := max ts.bestScore score
                  calls := ts.calls + 1
                  topologies := mapSet (gt tree) score
                    (mapErase worst.2.1.topology ts.topologies)
                  entries := mmInsert score (⟨tree, gt tree, score⟩, ts.calls) rest })
            else
              some (false,
                { ts with bestScore := max ts.bestScore score, calls := ts.calls + 1 }) := by
  unfold TracedSet.update
  by_cases hb : score > ts.bestScore
  · have hm : max ts.bestScore score = score := max_eq_right (le_of_lt hb)
    simp only [hb, if_true, hm]
  · have hm : max ts.bestScore score = ts.bestScore := max_eq_left (not_lt.1 hb)
    simp only [hb, if_false, hm]

theorem traced_update_pool (gt : String → String) (ts : TracedSet) (tree : String)
    (score : Dbl) :
    ts.pool.update gt tree score
      = (ts.update gt tree score).map (fun r => (r.1, r.2.pool)) := by
  rw [update_eq, traced_update_eq]
  have hp : (fun e : Dbl × CandidateTree => e.2.topology == gt tree) ∘
      (fun e : Dbl × (CandidateTree × Nat) => (e.1, e.2.1))
      = (fun e : Dbl × (CandidateTree × Nat) => e.2.1.topology == gt tree) := rfl
  have hlen : ts.pool.entries.length = ts.entries.length := by
    simp [TracedSet.pool]
  have htop : ts.pool.topologies = ts.topologies := rfl
  have hlim : ts.pool.limit = ts.limit := rfl
  rw [htop, hlen, hlim]
  cases hf : mapFind (gt tree) ts.topologies with
  | some old =>
    simp only []
    split
    · simp only [Option.map_some', TracedSet.pool, map_mmInsert (fun v : CandidateTree × Nat => v.1),
        List.eraseP_map, hp]
    · rfl
  | none =>
    simp only []
    split
    · simp only [Option.map_some', TracedSet.pool,
        map_mmInsert (fun v : CandidateTree × Nat => v.1)]
    · cases hent : ts.entries with
      | nil => simp [TracedSet.pool, hent]
      | cons worst rest =>
        have hpe : ts.pool.entries = (worst.1, worst.2.1) :: rest.map (fun e => (e.1, e.2.1)) := by
          simp [TracedSet.pool, hent]
        rw [hpe]
        simp only []
        split
        · simp only [Option.map_some', TracedSet.pool,
            map_mmInsert (fun v : CandidateTree × Nat => v.1)]
        · simp only [Option.map_some', TracedSet.pool, hent, List.map_cons]

theorem traced_updates_pool (gt : String → String) (ops : List (String × Dbl)) :
    ∀ ts : TracedSet, ts.pool.updates gt ops = (ts.updates gt ops).map TracedSet.pool := by
  induction ops with
  | nil => exact fun ts => rfl
  | cons op rest ih =>
    intro ts
    obtain ⟨tree, score⟩ := op
    simp only [CandidateSet.updates, TracedSet.updates, traced_update_pool]
    cases ts.update gt tree score with
    | none => rfl
    | some r => exact ih r.2

theorem pool_ofPool (cs : CandidateSet) : (TracedSet.ofPool cs).pool = cs := by
  simp [TracedSet.pool, TracedSet.ofPool, List.map_map, Function.comp_def]

theorem traced_run {gt : String → String} {cs0 cs : CandidateSet} {ops : List (String × Dbl)}
    (hu : cs0.updates gt ops = some cs) :
    ∃ ts, (TracedSet.ofPool cs0).updates gt ops = some ts ∧ ts.pool = cs := by
  have h := traced_updates_pool gt ops (TracedSet.ofPool cs0)
  rw [pool_ofPool, hu] at h
  cases hts : (TracedSet.ofPool cs0).updates gt ops with
  | none =>
    rw [hts] at h
    cases h
  | some ts =>
    rw [hts] at h
    exact ⟨ts, rfl, (Option.some.inj h).symm⟩

theorem mmInsert_stampLt (k : Dbl) (c : CandidateTree) (n : Nat)
    (l : List (Dbl × (CandidateTree × Nat)))
    (hs : l.Pairwise StampLt) (hf : ∀ e ∈ l, e.2.2 < n) :
    (mmInsert k (c, n) l).Pairwise StampLt := by
  induction l with
  | nil => simp [mmInsert]
  | cons e es ih =>
    rw [List.pairwise_cons] at hs
    simp only [mmInsert]
    split
    · rename_i hlt
      refine List.pairwise_cons.2 ⟨?_, List.pairwise_cons.2 hs⟩
      intro a ha
      rcases List.mem_cons.1 ha with rfl | ha
      · exact Or.inl hlt
      · rcases hs.1 a ha with h | h
        · exact Or.inl (lt_trans hlt h)
        · exact Or.inl (h.1 ▸ hlt)
    · rename_i hge
      refine List.pairwise_cons.2
        ⟨?_, ih hs.2 (fun a ha => hf a (List.mem_cons_of_mem _ ha))⟩
      intro a ha
      rcases (mem_mmInsert k (c, n) es a).1 ha with rfl | ha
      · rcases lt_or_eq_of_le (not_lt.1 hge) with h | h
        · exact Or.inl h
        · exact Or.inr ⟨h, hf e (List.mem_cons_self _ _)⟩
      · exact hs.1 a ha

theorem traced_update_stamped {gt : String → String} {ts ts' : TracedSet} {tree : String}
    {score : Dbl} {b : Bool}
    (h : ts.entries.Pairwise StampLt ∧ ∀ e ∈ ts.entries, e.2.2 < ts.calls)
    (hu : ts.update gt tree score = some (b, ts')) :
    ts'.entries.Pairwise StampLt ∧ ∀ e ∈ ts'.entries, e.2.2 < ts'.calls := by
  have hfresh : ∀ (l : List (Dbl × (CandidateTree × Nat))) (c : CandidateTree),
      (∀ e ∈ l, e.2.2 < ts.calls) →
      ∀ e ∈ mmInsert score (c, ts.calls) l, e.2.2 < ts.calls + 1 := by
    intro l c hl e he
    rcases (mem_mmInsert _ _ _ _).1 he with rfl | he
    · exact Nat.lt_succ_self _
    · exact Nat.lt_succ_of_lt (hl e he)
  have hkeep : ts.entries.Pairwise StampLt ∧ ∀ e ∈ ts.entries, e.2.2 < ts.calls + 1 :=
    ⟨h.1, fun e he => Nat.lt_succ_of_lt (h.2 e he)⟩
  rw [traced_update_eq] at hu
  split at hu
  · split at hu
    · cases hu
      have hsub : ∀ e ∈ ts.entries.eraseP (fun e => e.2.1.topology == gt tree),
          e.2.2 < ts.calls := fun e he => h.2 e (List.mem_of_mem_eraseP he)
      exact ⟨mmInsert_stampLt _ _ _ _ (h.1.sublist (List.eraseP_sublist _)) hsub,
        hfresh _ _ hsub⟩
    · cases hu
      exact hkeep
  · split at hu
    · cases hu
      exact ⟨mmInsert_stampLt _ _ _ _ h.1 h.2, hfresh _ _ h.2⟩
    · split at hu
      · cases hu
      · rename_i worst rest hent
        have h1 := h.1
        have h2 := h.2
        rw [hent] at h1 h2
        have hrest : ∀ e ∈ rest, e.2.2 < ts.calls :=
          fun e he => h2 e (List.mem_cons_of_mem _ he)
        split at hu
        · cases hu
          exact ⟨mmInsert_stampLt _ _ _ _ (List.pairwise_cons.1 h1).2 hrest, hfresh _ _ hrest⟩
        · cases hu
          exact hkeep

theorem traced_updates_stamped {gt : String → String} (ops : List (String × Dbl)) :
    ∀ {ts ts' : TracedSet},
      (ts.entries.Pairwise StampLt ∧ ∀ e ∈ ts.entries, e.2.2 < ts.calls) →
      ts.updates gt ops = some ts' →
      ts'.entries.Pairwise StampLt ∧ ∀ e ∈ ts'.entries, e.2.2 < ts'.calls := by
  induction ops with
  | nil =>
    intro ts ts' h hu
    simp only [TracedSet.updates, Option.some.injEq] at hu
    exact hu ▸ h
  | cons op rest ih =>
    intro ts ts' h hu
    obtain ⟨tree, score⟩ := op
    simp only [TracedSet.updates] at hu
    split at hu
    · cases hu
    · rename_i b ts1 h1
      exact ih (traced_update_stamped h h1) hu

theorem traced_run_sorted {gt : String → String} {limit max_candidates : Int} {aln : Bool}
    {cs0 cs : CandidateSet} {ops : List (String × Dbl)}
    (hc : CandidateSet.create limit max_candidates aln = some cs0)
    (hu : cs0.updates gt ops = some cs) :
    ∃ ts, (TracedSet.ofPool cs0).updates gt ops = some ts ∧ ts.pool = cs ∧
      ts.entries.Pairwise StampLt := by
  obtain ⟨ts, hts, hp⟩ := traced_run hu
  refine ⟨ts, hts, hp, (traced_updates_stamped ops ?_ hts).1⟩
  rw [create_eq hc]
  exact ⟨List.Pairwise.nil, by simp [TracedSet.ofPool]⟩

/-! ## Frame lemmas -/

theorem keepsBest_update {gt : String → String} {cs cs' : CandidateSet} {tree : String}
    {score : Dbl} {b : Bool} {S : List Dbl} (hinv : cs.Inv)
    (h1 : 1 ≤ cs.limit) (h2 : cs.limit ≤ INT_MAX)
    (hf : mapFind (gt tree) cs.topologies = none) (hk : KeepsBest cs S)
    (hu : cs.update gt tree score = some (b, cs')) : KeepsBest cs' (S ++ [score]) := by
  obtain ⟨R, hperm, hle, hlen⟩ := hk
  have hlens : cs.entries.length + R.length = S.length := by
    simpa using hperm.length_eq
  by_cases hs : sizeLessThan cs.entries.length cs.limit = true
  · rw [update_new_room hf hs] at hu
    cases hu
    have hlt := (sizeLessThan_iff (by omega) h2).1 hs
    have hR : R = [] := by
      apply List.eq_nil_of_length_eq_zero
      omega
    subst hR
    refine ⟨[], ?_, by simp, ?_⟩
    · simp only [List.append_nil] at hperm ⊢
      refine ((mmInsert_perm score _ cs.entries).map Prod.fst).trans ?_
      rw [List.map_cons]
      exact (List.Perm.cons _ hperm).trans (List.perm_append_singleton score S).symm
    · show ((mmInsert score _ cs.entries).length : Int) = min ((S ++ [score]).length : Int) cs.limit
      rw [length_mmInsert, List.length_append, List.length_singleton]
      omega
  · have hge : ¬ (cs.entries.length : Int) < cs.limit := by
      rw [← sizeLessThan_iff (by omega) h2]
      exact hs
    cases hent : cs.entries with
    | nil =>
      rw [update_new_empty hf hs hent] at hu
      cases hu
    | cons worst rest =>
      have hsorted := hinv.sorted
      rw [hent, List.pairwise_cons] at hsorted
      rw [hent] at hperm hle hlen hlens
      by_cases hw : worst.1 < score
      · rw [update_new_evict hf hs hent hw] at hu
        cases hu
        refine ⟨worst.1 :: R, ?_, ?_, ?_⟩
        · show ((mmInsert score _ rest).map Prod.fst ++ worst.1 :: R).Perm (S ++ [score])
          have hp1 := (mmInsert_perm score (⟨tree, gt tree, score⟩ : CandidateTree) rest).map Prod.fst
          rw [List.map_cons] at hp1
          have hp2 : ((score :: rest.map Prod.fst) ++ worst.1 :: R).Perm
              (score :: ((worst :: rest).map Prod.fst ++ R)) := by
            rw [List.map_cons, List.cons_append, List.cons_append]
            exact List.Perm.cons _ List.perm_middle
          exact ((hp1.append_right _).trans hp2).trans
            ((List.Perm.cons _ hperm).trans (List.perm_append_singleton score S).symm)
        · intro r hr m hm
          have hm' : m = score ∨ m ∈ rest.map Prod.fst := by
            rcases List.mem_map.1 hm with ⟨e, he, rfl⟩
            rcases (mem_mmInsert _ _ _ _).1 he with rfl | he
            · exact Or.inl rfl
            · exact Or.inr (List.mem_map_of_mem Prod.fst he)
          have hwm : worst.1 ≤ m := by
            rcases hm' with rfl | hm'
            · exact le_of_lt hw
            · rcases List.mem_map.1 hm' with ⟨e, he, rfl⟩
              exact hsorted.1 e he
          rcases List.mem_cons.1 hr with rfl | hr
          · exact hwm
          · exact le_trans (hle r hr worst.1 (by simp)) hwm
        · show ((mmInsert score _ rest).length : Int) = min ((S ++ [score]).length : Int) cs.limit
          rw [length_mmInsert, List.length_append, List.length_singleton]
          rw [hent] at hge
          simp only [List.length_cons] at hlen hge ⊢
          omega
      · rw [update_new_reject hf hs hent hw] at hu
        cases hu
        refine ⟨score :: R, ?_, ?_, ?_⟩
        · show (cs.entries.map Prod.fst ++ score :: R).Perm (S ++ [score])
          rw [hent]
          exact List.perm_middle.trans
            ((List.Perm.cons _ hperm).trans (List.perm_append_singleton score S).symm)
        · intro r hr m hm
          change m ∈ cs.entries.map Prod.fst at hm
          rw [hent] at hm
          rcases List.mem_cons.1 hr with rfl | hr
          · have hwm : worst.1 ≤ m := by
              rcases List.mem_map.1 hm with ⟨e, he, rfl⟩
              rcases List.mem_cons.1 he with rfl | he
              · exact le_refl _
              · exact hsorted.1 e he
            exact le_trans (not_lt.1 hw) hwm
          · exact hle r hr m hm
        · show (cs.entries.length : Int) = min ((S ++ [score]).length : Int) cs.limit
          rw [hent, List.length_append, List.length_singleton]
          rw [hent] at hge
          simp only [List.length_cons] at hlen hge ⊢
          omega

theorem update_keys_subset {gt : String → String} {cs cs' : CandidateSet} {tree : String}
    {score : Dbl} {b : Bool} (hu : cs.update gt tree score = some (b, cs')) :
    ∀ k ∈ cs'.topologies.map Prod.fst, k = gt tree ∨ k ∈ cs.topologies.map Prod.fst := by
  have hset : ∀ (M : List (String × Dbl)),
      (∀ k ∈ M.map Prod.fst, k ∈ cs.topologies.map Prod.fst) →
      ∀ k ∈ (mapSet (gt tree) score M).map Prod.fst,
        k = gt tree ∨ k ∈ cs.topologies.map Prod.fst := by
    intro M hM k hk
    rw [mapSet_keys] at hk
    split at hk
    · exact Or.inr (hM k hk)
    · rcases List.mem_append.1 hk with hk | hk
      · exact Or.inr (hM k hk)
      · exact Or.inl (by simpa using hk)
  rw [update_eq] at hu
  split at hu
  · split at hu
    · cases hu
      exact hset _ (fun k hk => hk)
    · cases hu
      exact fun k hk => Or.inr hk
  · split at hu
    · cases hu
      exact hset _ (fun k hk => hk)
    · split at hu
      · cases hu
      · split at hu
        · cases hu
          refine hset _ (fun k hk => ?_)
          rw [mapErase_keys] at hk
          exact List.mem_of_mem_erase hk
        · cases hu
          exact fun k hk => Or.inr hk

theorem keepsBest_updates (gt : String → String) (ops : List (String × Dbl)) :
    ∀ (cs cs' : CandidateSet) (S : List Dbl), cs.Inv → 1 ≤ cs.limit → cs.limit ≤ INT_MAX →
      (ops.map (fun op => gt op.1)).Nodup →
      (∀ k ∈ cs.topologies.map Prod.fst, k ∉ ops.map (fun op => gt op.1)) →
      KeepsBest cs S → cs.updates gt ops = some cs' →
      KeepsBest cs' (S ++ ops.map Prod.snd) := by
  induction ops with
  | nil =>
    intro cs cs' S _ _ _ _ _ hk hu
    simp only [CandidateSet.updates, Option.some.injEq] at hu
    rw [← hu]
    simpa using hk
  | cons op rest ih =>
    intro cs cs' S hinv h1 h2 hnd hdis hk hu
    obtain ⟨tree, score⟩ := op
    rw [List.map_cons, List.nodup_cons] at hnd
    simp only [CandidateSet.updates] at hu
    split at hu
    · cases hu
    · rename_i b cs1 hstep
      have hf : mapFind (gt tree) cs.topologies = none := by
        rw [mapFind_eq_none]
        intro hmem
        exact hdis _ hmem (by simp)
      have hl := (update_config hstep).1
      have := ih cs1 cs' (S ++ [score]) (inv_update hinv hstep) (hl ▸ h1) (hl ▸ h2) hnd.2
        (by
          intro k hk1 hk2
          rcases update_keys_subset hstep k hk1 with rfl | hk1
          · exact hnd.1 hk2
          · exact hdis k hk1 (List.mem_cons_of_mem _ hk2))
        (keepsBest_update hinv h1 h2 hf hk hstep) hu
      simpa using this

theorem keepsBest_eq_drop {cs : CandidateSet} {S : List Dbl}
    (hs : cs.entries.Pairwise (fun a b => a.1 ≤ b.1)) (hk : KeepsBest cs S) :
    cs.entries.map Prod.fst
      = (S.insertionSort (fun a b => a ≤ b)).drop (S.length - cs.entries.length) := by
  obtain ⟨R, hperm, hle, _⟩ := hk
  have hlens : cs.entries.length + R.length = S.length := by
    simpa using hperm.length_eq
  have hkeys : (cs.entries.map Prod.fst).Sorted (fun a b => a ≤ b) :=
    List.pairwise_map.2 hs
  have hsorted : (R.insertionSort (fun a b => a ≤ b) ++ cs.entries.map Prod.fst).Sorted
      (fun a b => a ≤ b) := by
    refine List.pairwise_append.2 ⟨List.sorted_insertionSort _ R, hkeys, ?_⟩
    intro r hr m hm
    exact hle r ((List.perm_insertionSort _ R).mem_iff.1 hr) m hm
  have hp : (R.insertionSort (fun a b => a ≤ b) ++ cs.entries.map Prod.fst).Perm
      (S.insertionSort (fun a b => a ≤ b)) :=
    (((List.perm_insertionSort _ R).append_right _).trans List.perm_append_comm).trans
      (hperm.trans (List.perm_insertionSort _ S).symm)
  rw [← List.eq_of_perm_of_sorted hp hsorted (List.sorted_insertionSort _ S)]
  rw [List.drop_left']
  rw [List.length_insertionSort]
  omega

/-! ## The best entry -/

theorem best_stored_update {gt : String → String} {cs cs' : CandidateSet} {tree : String}
    {score : Dbl} {b : Bool} (hinv : cs.Inv)
    (hR : ∃ e ∈ cs.entries, e.1 = cs.bestScore)
    (hu : cs.update gt tree score = some (b, cs')) :
    ∃ e ∈ cs'.entries, e.1 = cs'.bestScore := by
  obtain ⟨e, he, heb⟩ := hR
  have hnew : ∀ L : List (Dbl × CandidateTree), cs.bestScore ≤ score →
      ∃ e ∈ mmInsert score (⟨tree, gt tree, score⟩ : CandidateTree) L,
        e.1 = max cs.bestScore score := by
    intro L hb
    exact ⟨_, (mem_mmInsert _ _ _ _).2 (Or.inl rfl), (max_eq_right hb).symm⟩
  have hold : ∀ L : List (Dbl × CandidateTree), ¬ cs.bestScore ≤ score → e ∈ L →
      ∃ e ∈ mmInsert score (⟨tree, gt tree, score⟩ : CandidateTree) L,
        e.1 = max cs.bestScore score := by
    intro L hb heL
    exact ⟨e, (mem_mmInsert _ _ _ _).2 (Or.inr heL),
      heb.trans (max_eq_left (le_of_lt (not_le.1 hb))).symm⟩
  have hsame : score ≤ cs.bestScore → ∃ e ∈ cs.entries, e.1 = max cs.bestScore score := by
    intro hb
    rw [max_eq_left hb]
    exact ⟨e, he, heb⟩
  cases hf : mapFind (gt tree) cs.topologies with
  | some old =>
    obtain ⟨e0, he0, het0, hev0⟩ := (hinv.index (gt tree) old).1 hf
    by_cases hle : old ≤ score
    · rw [update_existing_ge hf hle] at hu
      cases hu
      by_cases hb : cs.bestScore ≤ score
      · exact hnew _ hb
      · refine hold _ hb ((mem_eraseP_topology _ _ e ?_).2 he)
        intro het
        have h1 := (hinv.index (gt tree) e.1).2 ⟨e, he, het, rfl⟩
        rw [hf] at h1
        have h2 : old = e.1 := Option.some.inj h1
        rw [heb] at h2
        rw [h2] at hle
        exact hb hle
    · rw [update_existing_lt hf (not_le.1 hle)] at hu
      cases hu
      refine hsame (le_trans (le_of_lt (not_le.1 hle)) ?_)
      rw [← hev0]
      exact hinv.best e0 he0
  | none =>
    by_cases hs : sizeLessThan cs.entries.length cs.limit = true
    · rw [update_new_room hf hs] at hu
      cases hu
      by_cases hb : cs.bestScore ≤ score
      · exact hnew _ hb
      · exact hold _ hb he
    · by_cases hnil : cs.entries = []
      · rw [update_new_empty hf hs hnil] at hu
        cases hu
      · obtain ⟨worst, rest, hent⟩ := List.exists_cons_of_ne_nil hnil
        by_cases hw : worst.1 < score
        · rw [update_new_evict hf hs hent hw] at hu
          cases hu
          by_cases hb : cs.bestScore ≤ score
          · exact hnew _ hb
          · refine hold _ hb ?_
            have he' := he
            rw [hent] at he'
            rcases List.mem_cons.1 he' with rfl | he'
            · rw [heb] at hw
              exact absurd (le_of_lt hw) hb
            · exact he'
        · rw [update_new_reject hf hs hent hw] at hu
          cases hu
          refine hsame (le_trans (not_lt.1 hw) ?_)
          exact hinv.best worst (hent ▸ List.mem_cons_self _ _)

theorem best_low_update {gt : String → String} {cs cs' : CandidateSet} {tree : String}
    {score : Dbl} {b : Bool} (hinv : cs.Inv)
    (hL : cs.bestScore = -DBL_MAX ∧ ∀ e ∈ cs.entries, e.1 < -DBL_MAX)
    (hu : cs.update gt tree score = some (b, cs')) :
    (score < -DBL_MAX → cs'.bestScore = -DBL_MAX ∧ ∀ e ∈ cs'.entries, e.1 < -DBL_MAX) ∧
    (-DBL_MAX ≤ score → ∃ e ∈ cs'.entries, e.1 = cs'.bestScore) := by
  obtain ⟨hb0, hlow⟩ := hL
  have hins : ∀ L : List (Dbl × CandidateTree), (∀ e ∈ L, e ∈ cs.entries) →
      (score < -DBL_MAX → max cs.bestScore score = -DBL_MAX ∧
        ∀ e ∈ mmInsert score (⟨tree, gt tree, score⟩ : CandidateTree) L, e.1 < -DBL_MAX) ∧
      (-DBL_MAX ≤ score →
        ∃ e ∈ mmInsert score (⟨tree, gt tree, score⟩ : CandidateTree) L,
          e.1 = max cs.bestScore score) := by
    intro L hsub
    constructor
    · intro hlt
      refine ⟨by rw [hb0]; exact max_eq_left (le_of_lt hlt), ?_⟩
      intro e he
      rcases (mem_mmInsert _ _ _ _).1 he with rfl | he
      · exact hlt
      · exact hlow e (hsub e he)
    · intro hge
      refine ⟨_, (mem_mmInsert _ _ _ _).2 (Or.inl rfl), ?_⟩
      rw [hb0]
      exact (max_eq_right hge).symm
  have hkeep : ∀ x : Dbl, score ≤ x → x < -DBL_MAX →
      (score < -DBL_MAX → max cs.bestScore score = -DBL_MAX ∧
        ∀ e ∈ cs.entries, e.1 < -DBL_MAX) ∧
      (-DBL_MAX ≤ score → ∃ e ∈ cs.entries, e.1 = max cs.bestScore score) := by
    intro x h1 h2
    constructor
    · intro hlt
      exact ⟨by rw [hb0]; exact max_eq_left (le_of_lt hlt), hlow⟩
    · intro hge
      exact absurd (lt_of_le_of_lt (le_trans hge h1) h2) (lt_irrefl _)
  cases hf : mapFind (gt tree) cs.topologies with
  | some old =>
    obtain ⟨e0, he0, _, hev0⟩ := (hinv.index (gt tree) old).1 hf
    by_cases hle : old ≤ score
    · rw [update_existing_ge hf hle] at hu
      cases hu
      exact hins _ (fun e he => List.mem_of_mem_eraseP he)
    · rw [update_existing_lt hf (not_le.1 hle)] at hu
      cases hu
      exact hkeep old (le_of_lt (not_le.1 hle)) (hev0 ▸ hlow e0 he0)
  | none =>
    by_cases hs : sizeLessThan cs.entries.length cs.limit = true
    · rw [update_new_room hf hs] at hu
      cases hu
      exact hins _ (fun e he => he)
    · by_cases hnil : cs.entries = []
      · rw [update_new_empty hf hs hnil] at hu
        cases hu
      · obtain ⟨worst, rest, hent⟩ := List.exists_cons_of_ne_nil hnil
        have hwm : worst ∈ cs.entries := by
          rw [hent]
          exact List.mem_cons_self _ _
        by_cases hw : worst.1 < score
        · rw [update_new_evict hf hs hent hw] at hu
          cases hu
          refine hins _ (fun e he => ?_)
          rw [hent]
          exact List.mem_cons_of_mem _ he
        · rw [update_new_reject hf hs hent hw] at hu
          cases hu
          exact hkeep worst.1 (not_lt.1 hw) (hlow worst hwm)

theorem best_attained_updates {gt : String → String} (ops : List (String × Dbl)) :
    ∀ {cs cs' : CandidateSet}, cs.Inv →
      ((cs.bestScore = -DBL_MAX ∧ ∀ e ∈ cs.entries, e.1 < -DBL_MAX) ∨
        ∃ e ∈ cs.entries, e.1 = cs.bestScore) →
      cs.updates gt ops = some cs' →
      ((∃ e ∈ cs.entries, e.1 = cs.bestScore) ∨ ∃ op ∈ ops, -DBL_MAX ≤ op.2) →
      ∃ e ∈ cs'.entries, e.1 = cs'.bestScore := by
  induction ops with
  | nil =>
    intro cs cs' _ _ hu h
    simp only [CandidateSet.updates, Option.some.injEq] at hu
    subst hu
    rcases h with h | ⟨op, hop, _⟩
    · exact h
    · cases hop
  | cons op rest ih =>
    intro cs cs' hinv hJ hu h
    obtain ⟨tree, score⟩ := op
    simp only [CandidateSet.updates] at hu
    split at hu
    · cases hu
    · rename_i b cs1 hstep
      have hinv1 := inv_update hinv hstep
      have hstored : (∃ e ∈ cs.entries, e.1 = cs.bestScore) →
          ∃ e ∈ cs'.entries, e.1 = cs'.bestScore := by
        intro hR
        have hR1 := best_stored_update hinv hR hstep
        exact ih hinv1 (Or.inr hR1) hu (Or.inl hR1)
      rcases hJ with hL | hR
      · by_cases hs : -DBL_MAX ≤ score
        · have hR1 := (best_low_update hinv hL hstep).2 hs
          exact ih hinv1 (Or.inr hR1) hu (Or.inl hR1)
        · have hL1 := (best_low_update hinv hL hstep).1 (not_le.1 hs)
          rcases h with hR | ⟨op, hop, hge⟩
          · exact hstored hR
          · rcases List.mem_cons.1 hop with rfl | hop
            · exact absurd hge hs
            · exact ih hinv1 (Or.inl hL1) hu (Or.inr ⟨op, hop, hge⟩)
      · exact hstored hR

theorem takeWhile_eq_filter_of_desc (m : Dbl) (r : List (Dbl × CandidateTree))
    (hs : r.Pairwise (fun a b => b.2.score ≤ a.2.score))
    (hle : ∀ e ∈ r, e.2.score ≤ m) :
    r.takeWhile (fun e => e.2.score == m) = r.filter (fun e => e.2.score == m) := by
  induction r with
  | nil => rfl
  | cons a as ih =>
    rw [List.pairwise_cons] at hs
    by_cases ha : a.2.score = m
    · have hp : (a.2.score == m) = true := by simpa using ha
      rw [List.takeWhile_cons, List.filter_cons]
      simp only [hp, if_true, ih hs.2 (fun e he => hle e (List.mem_cons_of_mem _ he))]
    · have hp : (a.2.score == m) = false := by simpa using ha
      rw [List.takeWhile_cons, List.filter_cons]
      simp only [hp, Bool.false_eq_true, if_false]
      symm
      rw [List.filter_eq_nil_iff]
      intro e he hem
      have h1 : e.2.score ≤ a.2.score := hs.1 e he
      have h2 : a.2.score ≤ m := hle a (List.mem_cons_self _ _)
      rw [beq_iff_eq.1 hem] at h1
      exact ha (le_antisymm h2 h1)

theorem getBestTree_eq_filter {cs : CandidateSet} (hinv : cs.Inv) :
    cs.getBestTree
      = ((cs.entries.filter (fun e => e.2.score == cs.bestScore)).reverse).map
          (fun e => e.2.tree) := by
  unfold CandidateSet.getBestTree
  rw [takeWhile_eq_filter_of_desc, List.filter_reverse]
  · rw [List.pairwise_reverse]
    refine hinv.sorted.imp_of_mem ?_
    intro a b ha hb hab
    rw [← hinv.keyScore a ha, ← hinv.keyScore b hb]
    exact hab
  · intro e he
    rw [← hinv.keyScore e (List.mem_reverse.1 he)]
    exact hinv.best e (List.mem_reverse.1 he)

/-! ## Walking the pool from its best end -/

theorem walkBest_eq_take (l : List (Dbl × CandidateTree)) :
    ∀ cnt : Int, walkBest cnt l = l.take cnt.toNat := by
  induction l with
  | nil => intro cnt; simp [walkBest]
  | cons e es ih =>
    intro cnt
    simp only [walkBest]
    split
    · rename_i hpos
      have h : cnt.toNat = (cnt - 1).toNat + 1 := by omega
      rw [h, List.take_succ_cons, ih]
    · rename_i hneg
      have h : cnt.toNat = 0 := by omega
      rw [h, List.take_zero]

theorem castInt_of_le {n : Nat} (h : (n : Int) ≤ INT_MAX) : castInt n = (n : Int) := by
  unfold INT_MAX at h
  unfold castInt
  omega

theorem pickRank_eq (l : List (Dbl × CandidateTree)) :
    ∀ (id : Int) (e : Dbl × CandidateTree), 0 ≤ id → l[id.toNat]? = some e →
      pickRank id l = e.2.tree := by
  induction l with
  | nil => intro id e _ h; simp at h
  | cons a as ih =>
    intro id e h0 h
    simp only [pickRank]
    by_cases hid : id = 0
    · subst hid
      simp at h
      simp [h]
    · have hpos : id.toNat = (id - 1).toNat + 1 := by omega
      rw [hpos, List.getElem?_cons_succ] at h
      simp only [hid, if_false]
      exact ih (id - 1) e (by omega) h

theorem ranked_sorted {cs : CandidateSet} (hs : cs.entries.Pairwise (fun a b => a.1 ≤ b.1)) :
    cs.entries.reverse.Pairwise (fun a b => b.1 ≤ a.1) :=
  List.pairwise_reverse.2 hs

theorem traced_ranked {gt : String → String} {limit max_candidates : Int} {aln : Bool}
    {cs0 cs : CandidateSet} {ops : List (String × Dbl)}
    (hc : CandidateSet.create limit max_candidates aln = some cs0)
    (hu : cs0.updates gt ops = some cs) :
    ∃ ts, (TracedSet.ofPool cs0).updates gt ops = some ts ∧ ts.pool = cs ∧
      cs.entries.reverse = ts.entries.reverse.map (fun e => (e.1, e.2.1)) ∧
      ts.entries.reverse.Pairwise (fun a b => StampLt b a) := by
  obtain ⟨ts, hts, hp, hsorted⟩ := traced_run_sorted hc hu
  refine ⟨ts, hts, hp, ?_, List.pairwise_reverse.2 hsorted⟩
  rw [← hp]
  show (ts.entries.map (fun e => (e.1, e.2.1))).reverse = _
  rw [List.map_reverse]

/-! ## The stack of parent trees -/

theorem foldl_push (l st : List String) :
    l.foldl (fun stack tree => tree :: stack) st = l.reverse ++ st := by
  induction l generalizing st with
  | nil => rfl
  | cons a as ih => rw [List.foldl_cons, ih, List.reverse_cons, List.append_assoc]; rfl

theorem initParentTrees_eq {cs : CandidateSet} (hp : cs.parentTrees = []) :
    cs.initParentTrees
      = { cs with
          parentTrees := ((cs.entries.reverse.take cs.max_candidates.toNat).map
            (fun e => e.2.tree)).reverse } := by
  unfold CandidateSet.initParentTrees
  rw [hp, foldl_push, walkBest_eq_take]
  simp

theorem isEmpty_eq_false_of_ne {α : Type} {l : List α} (h : l ≠ []) : l.isEmpty = false := by
  cases l with
  | nil => exact absurd rfl h
  | cons a as => rfl

theorem getNextCandTree_empty_pool {cs : CandidateSet} (h : cs.entries = []) :
    cs.getNextCandTree = none := by
  unfold CandidateSet.getNextCandTree
  rw [h]
  rfl

theorem getNextCandTree_loaded {cs : CandidateSet} {tree : String} {rest : List String}
    (hne : cs.entries ≠ []) (hp : cs.parentTrees = tree :: rest) :
    cs.getNextCandTree = some (tree, { cs with parentTrees := rest }) := by
  unfold CandidateSet.getNextCandTree
  rw [isEmpty_eq_false_of_ne hne, hp]
  simp [hp]

theorem getNextCandTree_refill {cs : CandidateSet} (hne : cs.entries ≠ [])
    (hp : cs.parentTrees = []) :
    cs.getNextCandTree = cs.initParentTrees.getNextCandTree := by
  have hinit := initParentTrees_eq hp
  cases hsnap : ((cs.entries.reverse.take cs.max_candidates.toNat).map
      (fun e => e.2.tree)).reverse with
  | nil =>
    rw [hsnap] at hinit
    have : cs.initParentTrees = cs := by
      rw [hinit]
      cases cs
      simp only at hp
      simp [hp]
    rw [this]
  | cons t rest =>
    rw [hsnap] at hinit
    have hl : cs.initParentTrees.parentTrees = t :: rest := by rw [hinit]
    have hne' : cs.initParentTrees.entries ≠ [] := by rw [hinit]; exact hne
    rw [getNextCandTree_loaded hne' hl]
    unfold CandidateSet.getNextCandTree
    rw [isEmpty_eq_false_of_ne hne, hp]
    simp only [List.isEmpty_nil, if_true]
    rw [hl]
    simp

theorem upperBound_le_length {V : Type} (k : Dbl) (l : List (Dbl × V)) :
    upperBound k l ≤ l.length := by
  induction l with
  | nil => exact Nat.le_refl _
  | cons e es ih =>
    simp only [upperBound, List.length_cons]
    split <;> omega

theorem reached_parentTrees {gt : String → String} {limit max_candidates : Int} {aln : Bool}
    {cs0 cs : CandidateSet} {ops : List (String × Dbl)}
    (hc : CandidateSet.create limit max_candidates aln = some cs0)
    (hu : cs0.updates gt ops = some cs) : cs.parentTrees = [] := by
  have h00 := create_eq hc
  exact updates_induction gt (fun c => c.parentTrees = [])
    (fun c tree score b c' hp hstep => (update_config hstep).2.2.1.trans hp)
    ops cs0 cs (by rw [h00]) hu

/-! ## Submissions of one topology -/

theorem holdsBest_append_lt {gt : String → String} {calls : List (String × Dbl)}
    {e : Dbl × CandidateTree} {tree : String} {score : Dbl} (h : HoldsBest gt calls e)
    (hlt : gt tree = e.2.topology → score < e.1) :
    HoldsBest gt (calls ++ [(tree, score)]) e := by
  obtain ⟨h1, pre, post, hsplit, hkey, hpost⟩ := h
  refine ⟨?_, pre, post ++ [(tree, score)], ?_, hkey, ?_⟩
  · intro c hc hk
    rcases List.mem_append.1 hc with hc | hc
    · exact h1 c hc hk
    · rw [List.mem_singleton] at hc
      subst hc
      exact le_of_lt (hlt hk)
  · rw [hsplit, List.append_assoc, List.cons_append]
  · intro c hc hk
    rcases List.mem_append.1 hc with hc | hc
    · exact hpost c hc hk
    · rw [List.mem_singleton] at hc
      subst hc
      exact hlt hk

theorem holdsBest_new {gt : String → String} {calls : List (String × Dbl)}
    {tree : String} {score : Dbl} (h : ∀ c ∈ calls, gt c.1 = gt tree → c.2 ≤ score) :
    HoldsBest gt (calls ++ [(tree, score)]) (score, ⟨tree, gt tree, score⟩) := by
  refine ⟨?_, calls, [], rfl, rfl, by simp⟩
  intro c hc hk
  rcases List.mem_append.1 hc with hc | hc
  · exact h c hc hk
  · rw [List.mem_singleton] at hc
    subst hc
    exact le_refl _

theorem retained_update {gt : String → String} {cs cs' : CandidateSet} {tree : String}
    {score : Dbl} {b : Bool} {calls : List (String × Dbl)} (hinv : cs.Inv)
    (hq : ∀ e ∈ cs.entries, HoldsBest gt calls e) (hp : LeftOut gt cs calls)
    (hu : cs.update gt tree score = some (b, cs')) :
    (∀ e ∈ cs'.entries, HoldsBest gt (calls ++ [(tree, score)]) e) ∧
      LeftOut gt cs' (calls ++ [(tree, score)]) := by
  cases hf : mapFind (gt tree) cs.topologies with
  | some old =>
    obtain ⟨ek, hek, hekt, hekv⟩ := (hinv.index _ old).1 hf
    by_cases hle : old ≤ score
    · rw [update_existing_ge hf hle] at hu
      cases hu
      have hcalls : ∀ c ∈ calls, gt c.1 = gt tree → c.2 ≤ score := fun c hc hk =>
        le_trans ((hq ek hek).1 c hc (hk.trans hekt.symm)) (hekv ▸ hle)
      constructor
      · intro e he
        rcases (mem_mmInsert _ _ _ _).1 he with rfl | he
        · exact holdsBest_new hcalls
        · have hne := eraseP_topology_ne (gt tree) cs.entries hinv.nodupTopo e he
          exact holdsBest_append_lt (hq e (List.mem_of_mem_eraseP he))
            (fun hk => absurd hk.symm hne)
      · intro c hc
        rcases List.mem_append.1 hc with hc | hc
        · rcases hp c hc with ⟨e, he, het⟩ | ⟨hfull, hall⟩
          · by_cases hk : e.2.topology = gt tree
            · exact Or.inl ⟨(score, ⟨tree, gt tree, score⟩),
                (mem_mmInsert _ _ _ _).2 (Or.inl rfl), hk.symm.trans het⟩
            · exact Or.inl ⟨e, (mem_mmInsert _ _ _ _).2
                (Or.inr ((mem_eraseP_topology _ _ e hk).2 he)), het⟩
          · refine Or.inr ⟨?_, ?_⟩
            · show sizeLessThan (mmInsert _ _ _).length cs.limit = false
              rw [length_mmInsert, length_eraseP_topology hinv hf]
              exact hfull
            · intro e he
              rcases (mem_mmInsert _ _ _ _).1 he with rfl | he
              · exact le_trans (hall ek hek) (hekv ▸ hle)
              · exact hall e (List.mem_of_mem_eraseP he)
        · rw [List.mem_singleton] at hc
          subst hc
          exact Or.inl ⟨(score, ⟨tree, gt tree, score⟩),
            (mem_mmInsert _ _ _ _).2 (Or.inl rfl), rfl⟩
    · rw [update_existing_lt hf (not_le.1 hle)] at hu
      cases hu
      constructor
      · intro e he
        refine holdsBest_append_lt (hq e he) (fun hk => ?_)
        have hfe := (hinv.index (gt tree) e.1).2 ⟨e, he, hk.symm, rfl⟩
        rw [hf] at hfe
        cases hfe
        exact not_le.1 hle
      · intro c hc
        rcases List.mem_append.1 hc with hc | hc
        · exact hp c hc
        · rw [List.mem_singleton] at hc
          subst hc
          exact Or.inl ⟨ek, hek, hekt⟩
  | none =>
    have hns := topology_not_stored hinv hf
    by_cases hs : sizeLessThan cs.entries.length cs.limit = true
    · rw [update_new_room hf hs] at hu
      cases hu
      have hcalls : ∀ c ∈ calls, gt c.1 = gt tree → c.2 ≤ score := by
        intro c hc hk
        rcases hp c hc with ⟨e, he, het⟩ | ⟨hfull, _⟩
        · exact absurd (het.trans hk) (hns e he)
        · rw [hs] at hfull
          cases hfull
      constructor
      · intro e he
        rcases (mem_mmInsert _ _ _ _).1 he with rfl | he
        · exact holdsBest_new hcalls
        · exact holdsBest_append_lt (hq e he) (fun hk => absurd hk.symm (hns e he))
      · intro c hc
        rcases List.mem_append.1 hc with hc | hc
        · rcases hp c hc with ⟨e, he, het⟩ | ⟨hfull, _⟩
          · exact Or.inl ⟨e, (mem_mmInsert _ _ _ _).2 (Or.inr he), het⟩
          · rw [hs] at hfull
            cases hfull
        · rw [List.mem_singleton] at hc
          subst hc
          exact Or.inl ⟨(score, ⟨tree, gt tree, score⟩),
            (mem_mmInsert _ _ _ _).2 (Or.inl rfl), rfl⟩
    · by_cases hnil : cs.entries = []
      · rw [update_new_empty hf hs hnil] at hu
        cases hu
      · obtain ⟨worst, rest, hent⟩ := List.exists_cons_of_ne_nil hnil
        have hsrt := hinv.sorted
        rw [hent, List.pairwise_cons] at hsrt
        have hwm : worst ∈ cs.entries := by
          rw [hent]
          exact List.mem_cons_self _ _
        have hrm : ∀ e ∈ rest, e ∈ cs.entries := by
          intro e he
          rw [hent]
          exact List.mem_cons_of_mem _ he
        have hfull : sizeLessThan cs.entries.length cs.limit = false := by simpa using hs
        by_cases hw : worst.1 < score
        · rw [update_new_evict hf hs hent hw] at hu
          cases hu
          have hlen : (mmInsert score (⟨tree, gt tree, score⟩ : CandidateTree) rest).length
              = cs.entries.length := by
            rw [length_mmInsert, hent, List.length_cons]
          have hcalls : ∀ c ∈ calls, gt c.1 = gt tree → c.2 ≤ score := by
            intro c hc hk
            rcases hp c hc with ⟨e, he, het⟩ | ⟨_, hall⟩
            · exact absurd (het.trans hk) (hns e he)
            · exact le_of_lt (lt_of_le_of_lt (hall worst hwm) hw)
          constructor
          · intro e he
            rcases (mem_mmInsert _ _ _ _).1 he with rfl | he
            · exact holdsBest_new hcalls
            · exact holdsBest_append_lt (hq e (hrm e he))
                (fun hk => absurd hk.symm (hns e (hrm e he)))
          · intro c hc
            rcases List.mem_append.1 hc with hc | hc
            · have hbelow : c.2 ≤ worst.1 →
                  sizeLessThan (mmInsert score (⟨tree, gt tree, score⟩ : CandidateTree)
                    rest).length cs.limit = false ∧
                  ∀ e ∈ mmInsert score (⟨tree, gt tree, score⟩ : CandidateTree) rest,
                    c.2 ≤ e.1 := by
                intro hcw
                refine ⟨by rw [hlen]; exact hfull, ?_⟩
                intro e he
                rcases (mem_mmInsert _ _ _ _).1 he with rfl | he
                · exact le_of_lt (lt_of_le_of_lt hcw hw)
                · exact le_trans hcw (hsrt.1 e he)
              rcases hp c hc with ⟨e, he, het⟩ | ⟨_, hall⟩
              · rw [hent] at he
                rcases List.mem_cons.1 he with rfl | he
                · exact Or.inr (hbelow ((hq e hwm).1 c hc het.symm))
                · exact Or.inl ⟨e, (mem_mmInsert _ _ _ _).2 (Or.inr he), het⟩
              · exact Or.inr (hbelow (hall worst hwm))
            · rw [List.mem_singleton] at hc
              subst hc
              exact Or.inl ⟨(score, ⟨tree, gt tree, score⟩),
                (mem_mmInsert _ _ _ _).2 (Or.inl rfl), rfl⟩
        · rw [update_new_reject hf hs hent hw] at hu
          cases hu
          constructor
          · intro e he
            exact holdsBest_append_lt (hq e he) (fun hk => absurd hk.symm (hns e he))
          · intro c hc
            rcases List.mem_append.1 hc with hc | hc
            · exact hp c hc
            · rw [List.mem_singleton] at hc
              subst hc
              refine Or.inr ⟨hfull, ?_⟩
              intro e he
              have he' : e ∈ cs.entries := he
              rw [hent] at he'
              rcases List.mem_cons.1 he' with rfl | he'
              · exact not_lt.1 hw
              · exact le_trans (not_lt.1 hw) (hsrt.1 e he')

theorem retained_updates {gt : String → String} (ops : List (String × Dbl)) :
    ∀ (cs cs' : CandidateSet) (calls : List (String × Dbl)), cs.Inv →
      (∀ e ∈ cs.entries, HoldsBest gt calls e) → LeftOut gt cs calls →
      cs.updates gt ops = some cs' →
      (∀ e ∈ cs'.entries, HoldsBest gt (calls ++ ops) e) ∧ LeftOut gt cs' (calls ++ ops) := by
  induction ops with
  | nil =>
    intro cs cs' calls _ hq hp hu
    simp only [CandidateSet.updates, Option.some.injEq] at hu
    subst hu
    rw [List.append_nil]
    exact ⟨hq, hp⟩
  | cons op rest ih =>
    intro cs cs' calls hinv hq hp hu
    obtain ⟨tree, score⟩ := op
    simp only [CandidateSet.updates] at hu
    split at hu
    · cases hu
    · rename_i b cs1 h1
      obtain ⟨hq1, hp1⟩ := retained_update hinv hq hp h1
      have := ih cs1 cs' (calls ++ [(tree, score)]) (inv_update hinv h1) hq1 hp1 hu
      rwa [List.append_assoc, List.singleton_append] at this

/-! ## Repeating an `update` -/

theorem finite_ge_lowest (x : Dbl) (h : Dbl.IsFinite x) : -DBL_MAX ≤ x := by
  have e : DBL_MAX = 2047 * 2 ^ 52 - 1 := by decide
  have h1 : -(2047 * 2 ^ 52 : Int) < (x : Int) := h.1
  have key : -(2047 * 2 ^ 52 - 1 : Int) ≤ (x : Int) := by omega
  rw [e]
  exact key

/-! ## The PoMo state space -/

theorem intResult_eq {x : Int} (h1 : INT_MIN ≤ x) (h2 : x ≤ INT_MAX) :
    intResult x = some x := by
  unfold intResult
  rw [if_pos ⟨h1, h2⟩]

theorem polyBound_eq {k N : Int} (hN : 0 ≤ N - 1) (hk : 0 ≤ k * (N - 1))
    (hb : 4 + k * (N - 1) ≤ INT_MAX) (hn : N - 1 ≤ INT_MAX) :
    polyBound k N = some (4 + k * (N - 1)) := by
  unfold INT_MAX at hb hn
  unfold polyBound
  rw [intResult_eq (by unfold INT_MIN; omega) (by unfold INT_MAX; omega)]
  simp only
  rw [intResult_eq (by unfold INT_MIN; omega) (by unfold INT_MAX; omega)]
  simp only
  rw [intResult_eq (by unfold INT_MIN; omega) (by unfold INT_MAX; omega)]

theorem polyIndex_eq {k N state : Int} (hN : 0 ≤ N - 1) (hk : 0 ≤ k * (N - 1))
    (hb : 4 + k * (N - 1) ≤ INT_MAX) (hn : N - 1 ≤ INT_MAX) (h0 : 0 ≤ state)
    (h1 : state ≤ INT_MAX) :
    polyIndex k N state = some (state - 3 - k * (N - 1)) := by
  unfold INT_MAX at hb hn h1
  unfold polyIndex
  rw [intResult_eq (by unfold INT_MIN; omega) (by unfold INT_MAX; omega)]
  simp only
  rw [intResult_eq (by unfold INT_MIN; omega) (by unfold INT_MAX; omega)]
  simp only
  rw [intResult_eq (by unfold INT_MIN; omega) (by unfold INT_MAX; omega)]
  simp only
  rw [intResult_eq (by unfold INT_MIN; omega) (by unfold INT_MAX; omega)]

theorem decomposeState_eq {N state : Int} (hN : 2 ≤ N) (hb : 4 + 6 * (N - 1) ≤ INT_MAX)
    (h0 : 0 ≤ state) (h1 : state ≤ INT_MAX) :
    ModelPoMo.decomposeState N state = some (
      if state < 4 then .ok (N, state, -1)
      else if state < 4 + (N - 1) then .ok (state - 3, 0, 1)
      else if state < 4 + 2 * (N - 1) then .ok (state - 3 - (N - 1), 0, 2)
      else if state < 4 + 3 * (N - 1) then .ok (state - 3 - 2 * (N - 1), 0, 3)
      else if state < 4 + 4 * (N - 1) then .ok (state - 3 - 3 * (N - 1), 1, 2)
      else if state < 4 + 5 * (N - 1) then .ok (state - 3 - 4 * (N - 1), 1, 3)
      else if state < 4 + 6 * (N - 1) then .ok (state - 3 - 5 * (N - 1), 2, 3)
      else .error "State exceeds limit") := by
  have hb' := hb
  have h1' := h1
  unfold INT_MAX at hb' h1'
  unfold ModelPoMo.decomposeState
  rw [polyBound_eq (by omega) (by omega) (by unfold INT_MAX; omega) (by unfold INT_MAX; omega),
    polyBound_eq (by omega) (by omega) (by unfold INT_MAX; omega) (by unfold INT_MAX; omega),
    polyBound_eq (by omega) (by omega) (by unfold INT_MAX; omega) (by unfold INT_MAX; omega),
    polyBound_eq (by omega) (by omega) (by unfold INT_MAX; omega) (by unfold INT_MAX; omega),
    polyBound_eq (by omega) (by omega) (by unfold INT_MAX; omega) (by unfold INT_MAX; omega),
    polyIndex_eq (by omega) (by omega) (by unfold INT_MAX; omega) (by unfold INT_MAX; omega) h0 h1,
    polyIndex_eq (by omega) (by omega) (by unfold INT_MAX; omega) (by unfold INT_MAX; omega) h0 h1,
    polyIndex_eq (by omega) (by omega) (by unfold INT_MAX; omega) (by unfold INT_MAX; omega) h0 h1,
    polyIndex_eq (by omega) (by omega) (by unfold INT_MAX; omega) (by unfold INT_MAX; omega) h0 h1,
    @intResult_eq (N - 1) (by unfold INT_MIN; omega) (by unfold INT_MAX; omega),
    @intResult_eq (state - 3) (by unfold INT_MIN; omega) (by unfold INT_MAX; omega)]
  simp only [Option.bind, Option.map]
  rw [@intResult_eq (4 + (N - 1)) (by unfold INT_MIN; omega) (by unfold INT_MAX; omega),
    @intResult_eq (state - 3 - (N - 1)) (by unfold INT_MIN; omega) (by unfold INT_MAX; omega)]
  simp only
  split_ifs <;> rfl

theorem decomposeState_left_inverse {N : Int} (hN : 2 ≤ N) (hb : 4 + 6 * (N - 1) ≤ INT_MAX) :
    ∃ code : Int × Int × Int → Int, ∀ state : Int, 0 ≤ state → state < 4 + 6 * (N - 1) →
      ∀ t, ModelPoMo.decomposeState N state = some (.ok t) → code t = state := by
  refine ⟨fun t =>
    if t.2.2 = -1 then t.2.1
    else if t.2.1 = 0 then
      (if t.2.2 = 1 then t.1 + 3 else if t.2.2 = 2 then t.1 + 3 + (N - 1)
        else t.1 + 3 + 2 * (N - 1))
    else if t.2.1 = 1 then
      (if t.2.2 = 2 then t.1 + 3 + 3 * (N - 1) else t.1 + 3 + 4 * (N - 1))
    else t.1 + 3 + 5 * (N - 1), ?_⟩
  intro state h0 h1 t h
  have hb' := hb
  unfold INT_MAX at hb'
  rw [decomposeState_eq hN hb h0 (by unfold INT_MAX; omega), Option.some.injEq] at h
  split_ifs at h <;> cases h <;> norm_num <;> omega

theorem decomposeState_ranges {N state : Int} (hN : 2 ≤ N)
    (hb : 4 + 6 * (N - 1) ≤ INT_MAX) (h0 : 0 ≤ state) (h1 : state < 4 + 6 * (N - 1)) :
    ∃ i nt1 nt2, ModelPoMo.decomposeState N state = some (.ok (i, nt1, nt2)) ∧
      (state < 4 → i = N ∧ nt1 = state ∧ nt2 = -1) ∧
      (4 ≤ state → 1 ≤ i ∧ i ≤ N - 1 ∧ 0 ≤ nt1 ∧ nt1 < nt2 ∧ nt2 ≤ 3) := by
  have hb' := hb
  unfold INT_MAX at hb'
  rw [decomposeState_eq hN hb h0 (by unfold INT_MAX; omega)]
  split_ifs
  · exact ⟨N, state, -1, rfl, fun _ => ⟨rfl, rfl, rfl⟩, fun h => by omega⟩
  all_goals
    refine ⟨_, _, _, rfl, fun h => by omega, fun _ => ⟨by omega, by omega,
      by decide, by decide, by decide⟩⟩

theorem decomposeState_injective {N state state' : Int} (hN : 2 ≤ N)
    (hb : 4 + 6 * (N - 1) ≤ INT_MAX) (h0 : 0 ≤ state) (h1 : state < 4 + 6 * (N - 1))
    (h0' : 0 ≤ state') (h1' : state' < 4 + 6 * (N - 1))
    (heq : ModelPoMo.decomposeState N state' = ModelPoMo.decomposeState N state) :
    state' = state := by
  obtain ⟨i, nt1, nt2, hd, _, _⟩ := decomposeState_ranges hN hb h0 h1
  obtain ⟨code, hcode⟩ := decomposeState_left_inverse hN hb
  rw [hd] at heq
  rw [← hcode state' h0' h1' _ heq, ← hcode state h0 h1 _ hd]

/-! ## The pool whose scores are numbers -/

/-- Scores given by their ranks: after any sequence of `update` calls on a
freshly constructed pool, `bestScore` is the maximum of `-DBL_MAX` and all
scores passed to `update` (those of calls that returned false included); hence,
when some score passed is not below `-DBL_MAX` (not all are minus infinity),
`bestScore` is the maximum of the scores passed. -/
theorem bestScore_is_maximum (gt : String → String) (limit max_candidates : Int)
    (aln : Bool) (cs0 cs : CandidateSet) (ops : List (String × Dbl))
    (hc : CandidateSet.create limit max_candidates aln = some cs0)
    (hu : cs0.updates gt ops = some cs) :
    cs.bestScore = (ops.map Prod.snd).foldl max (-DBL_MAX) ∧
    ((∃ op ∈ ops, -DBL_MAX ≤ op.2) → IsMaxOf cs.bestScore (ops.map Prod.snd)) := by
  have hb := updates_bestScore ops hu
  have h0 : cs0.bestScore = -DBL_MAX := by rw [create_eq hc]
  rw [h0] at hb
  refine ⟨hb, ?_⟩
  rintro ⟨op, hop, hge⟩
  rw [hb]
  exact foldl_max_isMaxOf_of_exists _ _
    ⟨op.2, List.mem_map_of_mem Prod.snd hop, hge⟩

/-- Scores given by their ranks: in every state reached from the empty pool by
`update` calls, `getBestTree` returns the empty list when the pool is empty;
when some score passed is not below `-DBL_MAX` (not all are minus infinity), it
returns the tree texts of exactly the entries whose stored score is the maximum
score `m` present in `entries`, each once, in decreasing order of the number of
the `update` call that inserted the entry (most recently inserted first). -/
theorem getBestTree_correct (gt : String → String) (limit max_candidates : Int)
    (aln : Bool) (cs0 cs : CandidateSet) (ops : List (String × Dbl))
    (hc : CandidateSet.create limit max_candidates aln = some cs0)
    (hu : cs0.updates gt ops = some cs) :
    (cs.entries = [] → cs.getBestTree = []) ∧
    ((∃ op ∈ ops, -DBL_MAX ≤ op.2) →
      ∀ m, IsMaxOf m (cs.entries.map (fun e => e.2.score)) →
        cs.getBestTree
          = ((cs.entries.filter (fun e => e.2.score == m)).reverse).map
              (fun e => e.2.tree) ∧
        ∃ ts, (TracedSet.ofPool cs0).updates gt ops = some ts ∧ ts.pool = cs ∧
          cs.getBestTree
            = ((ts.entries.filter (fun e => e.2.1.score == m)).reverse).map
                (fun e => e.2.1.tree) ∧
          ((ts.entries.filter (fun e => e.2.1.score == m)).reverse.map
            (fun e => e.2.2)).Pairwise (fun a b => b < a)) := by
  obtain ⟨hinv, _, _⟩ := reached_inv hc hu
  constructor
  · intro hnil
    simp [CandidateSet.getBestTree, hnil]
  · intro hge m hm
    obtain ⟨e, he, heb⟩ := best_attained_updates ops (inv_create hc)
      (Or.inl (by rw [create_eq hc]; exact ⟨rfl, fun e he => by cases he⟩)) hu (Or.inr hge)
    have hmb : m = cs.bestScore := by
      obtain ⟨hmem, hall⟩ := hm
      obtain ⟨e', he', hem'⟩ := List.mem_map.1 hmem
      have h1 : m ≤ cs.bestScore := by
        rw [← hem', ← hinv.keyScore e' he']
        exact hinv.best e' he'
      have h2 : cs.bestScore ≤ m := by
        rw [← heb, hinv.keyScore e he]
        exact hall _ (List.mem_map_of_mem (fun e : Dbl × CandidateTree => e.2.score) he)
      exact le_antisymm h1 h2
    have hplain := getBestTree_eq_filter hinv
    rw [← hmb] at hplain
    refine ⟨hplain, ?_⟩
    obtain ⟨ts, hts, hp, hsorted⟩ := traced_run_sorted hc hu
    have hent : cs.entries = ts.entries.map (fun e => (e.1, e.2.1)) := by
      rw [← hp]
      rfl
    refine ⟨ts, hts, hp, ?_, ?_⟩
    · rw [hplain, hent, List.filter_map, ← List.map_reverse, List.map_map]
      rfl
    · rw [List.map_reverse, List.pairwise_reverse, List.pairwise_map]
      refine (hsorted.sublist (List.filter_sublist _)).imp_of_mem ?_
      intro a b ha hb hab
      have hka : a.1 = m := by
        have h1 := hinv.keyScore (a.1, a.2.1)
          (hent ▸ List.mem_map_of_mem (fun e : Dbl × (CandidateTree × Nat) => (e.1, e.2.1))
            (List.mem_filter.1 ha).1)
        exact h1.trans (beq_iff_eq.1 (List.mem_filter.1 ha).2)
      have hkb : b.1 = m := by
        have h1 := hinv.keyScore (b.1, b.2.1)
          (hent ▸ List.mem_map_of_mem (fun e : Dbl × (CandidateTree × Nat) => (e.1, e.2.1))
            (List.mem_filter.1 hb).1)
        exact h1.trans (beq_iff_eq.1 (List.mem_filter.1 hb).2)
      rcases hab with h | h
      · rw [hka, hkb] at h
        exact absurd h (lt_irrefl _)
      · exact h.2

/-- Scores given by their ranks: in every state reached from the empty pool by
`update` calls of which some score is not below `-DBL_MAX` (not all are minus
infinity), the pool is not empty, `bestScore` is the maximum score present in
`entries`, and it is the maximum of the scores passed to `update`: the highest
score ever passed is the score of a stored entry. -/
theorem best_never_lost (gt : String → String) (limit max_candidates : Int)
    (aln : Bool) (cs0 cs : CandidateSet) (ops : List (String × Dbl))
    (hc : CandidateSet.create limit max_candidates aln = some cs0)
    (hu : cs0.updates gt ops = some cs)
    (hge : ∃ op ∈ ops, -DBL_MAX ≤ op.2) :
    cs.entries ≠ [] ∧
    IsMaxOf cs.bestScore (cs.entries.map (fun e => e.2.score)) ∧
    IsMaxOf cs.bestScore (ops.map Prod.snd) ∧
    ∃ e ∈ cs.entries, e.2.score = cs.bestScore ∧ IsMaxOf e.2.score (ops.map Prod.snd) := by
  obtain ⟨hinv, _, _⟩ := reached_inv hc hu
  obtain ⟨e, he, heb⟩ := best_attained_updates ops (inv_create hc)
    (Or.inl (by rw [create_eq hc]; exact ⟨rfl, fun e he => by cases he⟩)) hu (Or.inr hge)
  have hmax : IsMaxOf cs.bestScore (ops.map Prod.snd) :=
    (bestScore_is_maximum gt limit max_candidates aln cs0 cs ops hc hu).2 hge
  have hes : e.2.score = cs.bestScore := (hinv.keyScore e he) ▸ heb
  refine ⟨List.ne_nil_of_mem he, ⟨?_, ?_⟩, hmax, e, he, hes, hes ▸ hmax⟩
  · rw [← hes]
    exact List.mem_map_of_mem (fun e : Dbl × CandidateTree => e.2.score) he
  · intro x hx
    obtain ⟨e', he', rfl⟩ := List.mem_map.1 hx
    rw [← hinv.keyScore e' he']
    exact hinv.best e' he'

/-- Scores given by their ranks: in every state reached by `update` calls on a
pool constructed with `0 ≤ limit`, `update(tree, score)` returns true if and
only if the topology key of `tree` is not in the index and either `size(entries)
< limit` or `score` is strictly greater than the minimum score in `entries`;
with `1 ≤ limit` the call always completes; it returns false whenever the key is
present; and it returns false for a new topology at capacity whose score equals
the worst score. -/
theorem update_return_value (gt : String → String) (limit max_candidates : Int)
    (aln : Bool) (cs0 cs : CandidateSet) (ops : List (String × Dbl))
    (tree : String) (score : Dbl)
    (hc : CandidateSet.create limit max_candidates aln = some cs0)
    (hu : cs0.updates gt ops = some cs) (h0 : 0 ≤ limit) (h1 : limit ≤ INT_MAX) :
    ((∃ cs', cs.update gt tree score = some (true, cs')) ↔
      (mapFind (gt tree) cs.topologies = none ∧
        ((cs.entries.length : Int) < limit ∨
          ∃ m, IsMinOf m (cs.entries.map Prod.fst) ∧ m < score))) ∧
    (1 ≤ limit → ∃ b cs', cs.update gt tree score = some (b, cs')) ∧
    (∀ old, mapFind (gt tree) cs.topologies = some old →
      ∃ cs', cs.update gt tree score = some (false, cs')) ∧
    (mapFind (gt tree) cs.topologies = none → (cs.entries.length : Int) = limit →
      IsMinOf score (cs.entries.map Prod.fst) →
      ∃ cs', cs.update gt tree score = some (false, cs')) := by
  obtain ⟨hinv, hlim, _⟩ := reached_inv hc hu
  have hsz : ∀ n : Nat, sizeLessThan n cs.limit = true ↔ (n : Int) < limit := by
    intro n
    rw [hlim]
    exact sizeLessThan_iff h0 h1
  have hdup : ∀ old, mapFind (gt tree) cs.topologies = some old →
      ∃ cs', cs.update gt tree score = some (false, cs') := by
    intro old hf
    by_cases hle : old ≤ score
    · exact ⟨_, update_existing_ge hf hle⟩
    · exact ⟨_, update_existing_lt hf (not_le.1 hle)⟩
  refine ⟨?_, ?_, hdup, ?_⟩
  · cases hf : mapFind (gt tree) cs.topologies with
    | some old =>
      obtain ⟨c, hc'⟩ := hdup old hf
      constructor
      · rintro ⟨cs', h⟩
        rw [hc'] at h
        cases h
      · rintro ⟨h, _⟩
        cases h
    | none =>
      by_cases hlt : sizeLessThan cs.entries.length cs.limit = true
      · exact ⟨fun _ => ⟨rfl, Or.inl ((hsz _).1 hlt)⟩, fun _ => ⟨_, update_new_room hf hlt⟩⟩
      · cases hent : cs.entries with
        | nil =>
          constructor
          · rintro ⟨cs', h⟩
            rw [update_new_empty hf hlt hent] at h
            cases h
          · rintro ⟨_, h | ⟨m, hm, _⟩⟩
            · rw [hent] at hlt
              exact absurd ((hsz _).2 h) hlt
            · exact absurd hm.1 (by simp)
        | cons worst rest =>
          have hlen : ¬ (((worst :: rest).length : Nat) : Int) < limit := by
            rw [← hent, ← hsz]
            exact hlt
          by_cases hw : worst.1 < score
          · refine ⟨fun _ => ⟨rfl, Or.inr ⟨worst.1, ?_, hw⟩⟩,
              fun _ => ⟨_, update_new_evict hf hlt hent hw⟩⟩
            rw [← hent]
            exact (isMinOf_head hinv.sorted hent _).2 rfl
          · constructor
            · rintro ⟨cs', h⟩
              rw [update_new_reject hf hlt hent hw] at h
              cases h
            · rintro ⟨_, h | ⟨m, hm, hms⟩⟩
              · exact absurd h hlen
              · rw [← hent] at hm
                rw [(isMinOf_head hinv.sorted hent m).1 hm] at hms
                exact absurd hms hw
  · intro hl
    exact update_defined gt cs tree score (hlim ▸ hl) (hlim ▸ h1)
  · intro hf hlen hmin
    have hlt : ¬ sizeLessThan cs.entries.length cs.limit = true := by
      rw [hsz]
      omega
    cases hent : cs.entries with
    | nil =>
      rw [hent] at hmin
      exact absurd hmin.1 (by simp)
    | cons worst rest =>
      have hsw : score = worst.1 := (isMinOf_head hinv.sorted hent score).1 hmin
      have hw : ¬ worst.1 < score := hsw ▸ lt_irrefl _
      exact ⟨_, update_new_reject hf hlt hent hw⟩

/-- Scores given by their ranks: in a state reached by `update` calls with
`size(entries) = limit ≥ 1`, an `update` with a topology key that is not in the
index and a score above the minimum score `m` returns true and leaves the old
entries minus the first one (`worst`, of score `m`; among the entries of score
`m` it is the one inserted by the earliest `update` call) plus the new entry;
the key of `worst` is no longer in the index, the new key maps to `score`, all
other index records are unchanged, and the size is still `limit`. -/
theorem eviction_at_capacity (gt : String → String) (limit max_candidates : Int)
    (aln : Bool) (cs0 cs : CandidateSet) (ops : List (String × Dbl))
    (tree : String) (score m : Dbl)
    (hc : CandidateSet.create limit max_candidates aln = some cs0)
    (hu : cs0.updates gt ops = some cs) (h1 : 1 ≤ limit) (h2 : limit ≤ INT_MAX)
    (hsize : (cs.entries.length : Int) = limit)
    (hf : mapFind (gt tree) cs.topologies = none)
    (hmin : IsMinOf m (cs.entries.map Prod.fst)) (hlt : m < score) :
    ∃ worst rest cs',
      cs.entries = worst :: rest ∧ worst.1 = m ∧
      cs.update gt tree score = some (true, cs') ∧
      cs'.entries = mmInsert score ⟨tree, gt tree, score⟩ rest ∧
      cs'.entries.Perm ((score, ⟨tree, gt tree, score⟩) :: rest) ∧
      (∃ ts n restT, (TracedSet.ofPool cs0).updates gt ops = some ts ∧ ts.pool = cs ∧
        ts.entries = (worst.1, (worst.2, n)) :: restT ∧
        ∀ e ∈ restT, e.1 = m → n < e.2.2) ∧
      mapFind worst.2.topology cs'.topologies = none ∧
      mapFind (gt tree) cs'.topologies = some score ∧
      (∀ k, k ≠ worst.2.topology → k ≠ gt tree →
        mapFind k cs'.topologies = mapFind k cs.topologies) ∧
      (cs'.entries.length : Int) = limit := by
  obtain ⟨hinv, hlim, _⟩ := reached_inv hc hu
  have hs : ¬ sizeLessThan cs.entries.length cs.limit = true := by
    rw [hlim, sizeLessThan_iff (by omega) h2]
    omega
  cases hent : cs.entries with
  | nil =>
    rw [hent] at hmin
    exact absurd hmin.1 (by simp)
  | cons worst rest =>
    have hwm : worst.1 = m := ((isMinOf_head hinv.sorted hent m).1 hmin).symm
    have hne : worst.2.topology ≠ gt tree :=
      topology_not_stored hinv hf worst (hent ▸ List.mem_cons_self _ _)
    refine ⟨worst, rest, _, rfl, hwm, update_new_evict hf hs hent (hwm ▸ hlt), rfl,
      mmInsert_perm _ _ _, ?_, ?_, ?_, ?_, ?_⟩
    · obtain ⟨ts, hts, hp, hsorted⟩ := traced_run_sorted hc hu
      have hmap : ts.entries.map (fun e => (e.1, e.2.1)) = worst :: rest := by
        rw [← hent, ← hp]
        rfl
      cases hte : ts.entries with
      | nil =>
        rw [hte] at hmap
        cases hmap
      | cons w restT =>
        rw [hte, List.map_cons] at hmap
        have hw : (w.1, w.2.1) = worst := (List.cons.inj hmap).1
        rw [hte, List.pairwise_cons] at hsorted
        refine ⟨ts, w.2.2, restT, hts, hp, ?_, ?_⟩
        · rw [← hw, hte]
        · intro e he hem
          rcases hsorted.1 e he with h | h
          · have : w.1 = m := by rw [← hwm, ← hw]
            rw [this, hem] at h
            exact absurd h (lt_irrefl _)
          · exact h.2
    · show mapFind worst.2.topology
        (mapSet (gt tree) score (mapErase worst.2.topology cs.topologies)) = none
      rw [mapFind_mapSet, if_neg hne, mapFind_mapErase _ _ _ hinv.nodupKeys, if_pos rfl]
    · show mapFind (gt tree)
        (mapSet (gt tree) score (mapErase worst.2.topology cs.topologies)) = some score
      rw [mapFind_mapSet, if_pos rfl]
    · intro k hk1 hk2
      show mapFind k
        (mapSet (gt tree) score (mapErase worst.2.topology cs.topologies)) = _
      rw [mapFind_mapSet, if_neg hk2, mapFind_mapErase _ _ _ hinv.nodupKeys, if_neg hk1]
    · show ((mmInsert score (⟨tree, gt tree, score⟩ : CandidateTree) rest).length : Int) = limit
      rw [length_mmInsert, ← hsize, hent]
      rfl

/-- Scores given by their ranks: for `limit ≥ 1` and `update` calls on the empty
pool whose trees have pairwise distinct topology keys, the calls all complete
and the scores stored afterwards, in ascending order, are the `min n limit`
largest of the `n` submitted scores: the last `min n limit` elements of the
submitted scores sorted in ascending order (an equality of lists, hence of
multisets). -/
theorem pool_keeps_best (gt : String → String) (limit max_candidates : Int)
    (aln : Bool) (cs0 : CandidateSet) (ops : List (String × Dbl))
    (hc : CandidateSet.create limit max_candidates aln = some cs0)
    (h1 : 1 ≤ limit) (h2 : limit ≤ INT_MAX)
    (hnd : (ops.map (fun op => gt op.1)).Nodup) :
    ∃ cs, cs0.updates gt ops = some cs ∧
      cs.entries.length = min ops.length limit.toNat ∧
      cs.entries.map Prod.fst
        = ((ops.map Prod.snd).insertionSort (fun a b => a ≤ b)).drop
            (ops.length - min ops.length limit.toNat) := by
  have h00 := create_eq hc
  obtain ⟨cs, hu⟩ := updates_defined gt ops cs0 (by rw [h00]; exact h1) (by rw [h00]; exact h2)
  obtain ⟨hinv, hlim, _⟩ := reached_inv hc hu
  have hk0 : KeepsBest cs0 [] := by
    rw [h00]
    refine ⟨[], by simp, by simp, ?_⟩
    show ((0 : Nat) : Int) = min ((0 : Nat) : Int) limit
    omega
  have hk := keepsBest_updates gt ops cs0 cs [] (inv_create hc) (by rw [h00]; exact h1)
    (by rw [h00]; exact h2) hnd (by rw [h00]; simp) hk0 hu
  rw [List.nil_append] at hk
  have hlen : cs.entries.length = min ops.length limit.toNat := by
    obtain ⟨_, _, _, hl⟩ := hk
    rw [hlim, List.length_map] at hl
    omega
  refine ⟨cs, hu, hlen, ?_⟩
  have := keepsBest_eq_drop hinv.sorted hk
  rw [List.length_map, hlen] at this
  exact this

/-- Scores given by their ranks: for `numBest ≥ 0`, on a pool whose multimap is
sorted by key and whose keys are the stored scores, `getBestScores(numBest)`
returns the scores of the first `numBest` entries from the best end: a list of
length `min(numBest, size)` in non-increasing order which, with the list `rest`
of the other stored scores, makes up the stored scores, no score of `rest`
exceeding a returned one (the returned scores are the largest stored). -/
theorem getBestScores_correct (cs : CandidateSet) (numBest : Int)
    (hs : cs.entries.Pairwise (fun a b => a.1 ≤ b.1))
    (hk : ∀ e ∈ cs.entries, e.1 = e.2.score) (h0 : 0 ≤ numBest) :
    cs.getBestScores numBest
      = (cs.entries.reverse.take numBest.toNat).map (fun e => e.2.score) ∧
    ((cs.getBestScores numBest).length : Int) = min numBest (cs.entries.length : Int) ∧
    (cs.getBestScores numBest).Pairwise (fun a b => b ≤ a) ∧
    ∃ rest : List Dbl,
      (cs.getBestScores numBest ++ rest).Perm (cs.entries.map (fun e => e.2.score)) ∧
      ∀ r ∈ rest, ∀ x ∈ cs.getBestScores numBest, r ≤ x := by
  have hget : cs.getBestScores numBest
      = (cs.entries.reverse.take numBest.toNat).map Prod.fst := by
    unfold CandidateSet.getBestScores
    rw [walkBest_eq_take]
  have hkeys : cs.entries.map (fun e => e.2.score) = cs.entries.map Prod.fst :=
    List.map_congr_left (fun e he => (hk e he).symm)
  have hsplit := List.take_append_drop numBest.toNat cs.entries.reverse
  have hrev := ranked_sorted hs
  rw [← hsplit, List.pairwise_append] at hrev
  refine ⟨?_, ?_, ?_, (cs.entries.reverse.drop numBest.toNat).map Prod.fst, ?_, ?_⟩
  · rw [hget]
    refine List.map_congr_left (fun e he => ?_)
    exact hk e (List.mem_reverse.1 (List.mem_of_mem_take he))
  · rw [hget, List.length_map, List.length_take, List.length_reverse]
    omega
  · rw [hget, List.pairwise_map]
    exact hrev.1
  · rw [hget, hkeys, ← List.map_append, hsplit]
    exact (List.reverse_perm cs.entries).map Prod.fst
  · intro r hr x hx
    rw [hget] at hx
    obtain ⟨a, ha, rfl⟩ := List.mem_map.1 hr
    obtain ⟨b, hb, rfl⟩ := List.mem_map.1 hx
    exact hrev.2.2 b hb a ha

/-- Scores given by their ranks: on a pool constructed with `1 ≤ limit`, every
sequence `ops` of `update` calls completes, and in the state reached, for every
topology key `k` of the index with stored score `v`: `v` is the maximum of the
scores submitted in `ops` with a tree of key `k` (all of them, also those made
before `k` was evicted or rejected); exactly one entry `e` has the key `k`, it
is stored under `v` with `score = v`, and its tree text is that of a submission
`(e.tree, v)` of key `k` after which every submission of `k` has a score
strictly below `v` (the latest submission attaining the maximum). -/
theorem better_variant_kept (gt : String → String) (limit max_candidates : Int)
    (aln : Bool) (cs0 : CandidateSet) (ops : List (String × Dbl))
    (hc : CandidateSet.create limit max_candidates aln = some cs0)
    (h1 : 1 ≤ limit) (h2 : limit ≤ INT_MAX) :
    ∃ cs, cs0.updates gt ops = some cs ∧
      ∀ k v, mapFind k cs.topologies = some v →
        IsMaxOf v ((ops.filter (fun c => gt c.1 == k)).map Prod.snd) ∧
        ∃ e, cs.entries.filter (fun x => x.2.topology == k) = [e] ∧
          e.1 = v ∧ e.2.score = v ∧
          ∃ pre post, ops = pre ++ (e.2.tree, v) :: post ∧ gt e.2.tree = k ∧
            ∀ c ∈ post, gt c.1 = k → c.2 < v := by
  have h00 := create_eq hc
  obtain ⟨cs, hu⟩ := updates_defined gt ops cs0 (by rw [h00]; exact h1) (by rw [h00]; exact h2)
  obtain ⟨hinv, _, _⟩ := reached_inv hc hu
  have key := retained_updates ops cs0 cs [] (inv_create hc)
    (by rw [h00]; intro e he; cases he) (by intro c hc; cases hc) hu
  rw [List.nil_append] at key
  refine ⟨cs, hu, ?_⟩
  intro k v hf
  obtain ⟨e, he, het, hev⟩ := (hinv.index k v).1 hf
  obtain ⟨hq1, pre, post, hsplit, hkey, hpost⟩ := key.1 e he
  subst het
  subst hev
  refine ⟨⟨?_, ?_⟩, e, filter_topology_singleton cs.entries hinv.nodupTopo e he, rfl,
    (hinv.keyScore e he).symm, pre, post, hsplit, hkey, hpost⟩
  · refine List.mem_map.2 ⟨(e.2.tree, e.1), List.mem_filter.2 ⟨?_, by simpa using hkey⟩, rfl⟩
    rw [hsplit]
    exact List.mem_append_right _ (List.mem_cons_self _ _)
  · intro x hx
    obtain ⟨c, hcm, rfl⟩ := List.mem_map.1 hx
    obtain ⟨hc1, hc2⟩ := List.mem_filter.1 hcm
    exact hq1 c hc1 (by simpa using hc2)

/-! ## Scores that are numbers -/

theorem equiv_num (a b : Dbl) : (Double.num a).equiv (Double.num b) = decide (a = b) := by
  unfold Double.equiv Double.less
  by_cases h : a = b
  · subst h
    simp
  · rcases lt_or_gt_of_ne h with h1 | h1
    · simp [h, h1]
    · have h2 : ¬ a < b := not_lt.2 (le_of_lt h1)
      simp [h, h1, h2]

theorem keysOrdered_num (l : List Dbl) : keysOrdered (l.map Double.num) = true := by
  unfold keysOrdered
  simp only [List.all_eq_true, List.mem_map]
  rintro _ ⟨a, _, rfl⟩ _ ⟨b, _, rfl⟩ _ ⟨c, _, rfl⟩
  rw [equiv_num, equiv_num, equiv_num]
  by_cases h1 : a = b
  · by_cases h2 : b = c
    · simp [h1, h2]
    · simp [h1, h2]
  · simp [h1]

theorem mmScan_toFp (k : Dbl) (v : CandidateTree) (l : List (Dbl × CandidateTree)) :
    Fp.mmScan (Double.num k) v.toFp (l.map (fun e => (Double.num e.1, e.2.toFp)))
      = (mmInsert k v l).map (fun e => (Double.num e.1, e.2.toFp)) := by
  induction l with
  | nil => rfl
  | cons e es ih =>
    simp only [List.map_cons, Fp.mmScan, mmInsert, Double.less]
    by_cases h : k < e.1
    · simp [h]
    · simp [h, ih]

theorem mmInsert_toFp (k : Dbl) (v : CandidateTree) (l : List (Dbl × CandidateTree)) :
    Fp.mmInsert (Double.num k) v.toFp (l.map (fun e => (Double.num e.1, e.2.toFp)))
      = some ((mmInsert k v l).map (fun e => (Double.num e.1, e.2.toFp))) := by
  unfold Fp.mmInsert
  have h : Double.num k :: (l.map (fun e => (Double.num e.1, e.2.toFp))).map Prod.fst
      = (k :: l.map Prod.fst).map Double.num := by
    simp [List.map_map, Function.comp_def]
  rw [h, keysOrdered_num, if_pos rfl, mmScan_toFp]

theorem mapFind_toFp (k : String) (m : List (String × Dbl)) :
    Fp.mapFind k (m.map (fun r => (r.1, Double.num r.2))) = (mapFind k m).map Double.num := by
  induction m with
  | nil => rfl
  | cons e es ih =>
    simp only [List.map_cons, Fp.mapFind, mapFind]
    split
    · rfl
    · exact ih

theorem mapSet_toFp (k : String) (v : Dbl) (m : List (String × Dbl)) :
    Fp.mapSet k (Double.num v) (m.map (fun r => (r.1, Double.num r.2)))
      = (mapSet k v m).map (fun r => (r.1, Double.num r.2)) := by
  induction m with
  | nil => rfl
  | cons e es ih =>
    simp only [List.map_cons, Fp.mapSet, mapSet]
    split
    · rfl
    · rw [ih, List.map_cons]

theorem mapErase_toFp (k : String) (m : List (String × Dbl)) :
    Fp.mapErase k (m.map (fun r => (r.1, Double.num r.2)))
      = (mapErase k m).map (fun r => (r.1, Double.num r.2)) := by
  induction m with
  | nil => rfl
  | cons e es ih =>
    simp only [List.map_cons, Fp.mapErase, mapErase]
    split
    · rfl
    · rw [ih, List.map_cons]

theorem eraseP_toFp (topo : String) (l : List (Dbl × CandidateTree)) :
    (l.map (fun e => (Double.num e.1, e.2.toFp))).eraseP (fun e => e.2.topology == topo)
      = (l.eraseP (fun e => e.2.topology == topo)).map
          (fun e => (Double.num e.1, e.2.toFp)) := by
  induction l with
  | nil => rfl
  | cons e es ih =>
    rw [List.map_cons, List.eraseP_cons, List.eraseP_cons]
    simp only [CandidateTree.toFp] at ih ⊢
    by_cases h : e.2.topology = topo
    · have hb : (e.2.topology == topo) = true := by simpa using h
      simp only [hb, cond_true]
    · have hb : (e.2.topology == topo) = false := by simpa using h
      simp only [hb, cond_false, List.map_cons, ih]

theorem raiseBest_toFp (cs : CandidateSet) (score : Dbl) :
    (if (CandidateSet.toFp cs).bestScore.less (Double.num score) then
        { cs.toFp with bestScore := Double.num score } else cs.toFp)
      = ({ cs with bestScore := max cs.bestScore score } : CandidateSet).toFp := by
  show (if decide (cs.bestScore < score) = true then _ else _) = _
  by_cases hb : cs.bestScore < score
  · rw [max_eq_right (le_of_lt hb)]
    simp only [hb, decide_True, if_true]
    rfl
  · rw [max_eq_left (not_lt.1 hb)]
    simp only [hb, decide_False, Bool.false_eq_true, if_false]

theorem update_toFp (gt : String → String) (cs : CandidateSet) (tree : String) (score : Dbl) :
    cs.toFp.update gt tree (Double.num score)
      = (cs.update gt tree score).map (fun r => (r.1, r.2.toFp)) := by
  have hcand : ({ tree := tree, topology := gt tree, score := Double.num score } :
      Fp.CandidateTree) = (⟨tree, gt tree, score⟩ : CandidateTree).toFp := rfl
  rw [update_eq]
  unfold Fp.CandidateSet.update
  simp only []
  rw [raiseBest_toFp, hcand]
  simp only [CandidateSet.toFp]
  rw [mapFind_toFp]
  cases hf : mapFind (gt tree) cs.topologies with
  | some old =>
    simp only [Option.map, Double.lessEq, decide_eq_true_eq]
    by_cases hle : old ≤ score
    · simp only [hle, if_true, eraseP_toFp, mmInsert_toFp, mapSet_toFp]
    · simp only [hle, if_false]
  | none =>
    simp only [Option.map, List.length_map]
    by_cases hs : sizeLessThan cs.entries.length cs.limit = true
    · simp only [hs, if_true, mmInsert_toFp, mapSet_toFp]
    · simp only [hs, if_false]
      cases hent : cs.entries with
      | nil => rfl
      | cons worst rest =>
        simp only [List.map_cons, Double.less, decide_eq_true_eq]
        by_cases hw : worst.1 < score
        · simp only [hw, if_true, mmInsert_toFp, mapSet_toFp, mapErase_toFp,
            Bool.false_eq_true, if_false]
          rfl
        · simp only [hw, if_false, Bool.false_eq_true]
          rfl

theorem updates_toFp (gt : String → String) (ops : List (String × Dbl)) :
    ∀ cs : CandidateSet, cs.toFp.updates gt (numOps ops)
      = (cs.updates gt ops).map CandidateSet.toFp := by
  induction ops with
  | nil => exact fun cs => rfl
  | cons op rest ih =>
    intro cs
    obtain ⟨tree, score⟩ := op
    show Fp.CandidateSet.updates gt cs.toFp ((tree, Double.num score) :: numOps rest) = _
    simp only [Fp.CandidateSet.updates, CandidateSet.updates, update_toFp]
    cases cs.update gt tree score with
    | none => rfl
    | some r => exact ih r.2

theorem create_toFp (limit max_candidates : Int) (aln : Bool) :
    Fp.CandidateSet.create limit max_candidates aln
      = (CandidateSet.create limit max_candidates aln).map CandidateSet.toFp := by
  unfold Fp.CandidateSet.create CandidateSet.create
  split <;> rfl

theorem reached_toFp {gt : String → String} {limit max_candidates : Int} {aln : Bool}
    {fs0 fs : Fp.CandidateSet} {ops : List (String × Dbl)}
    (hc : Fp.CandidateSet.create limit max_candidates aln = some fs0)
    (hu : fs0.updates gt (numOps ops) = some fs) :
    ∃ cs0 cs, CandidateSet.create limit max_candidates aln = some cs0 ∧
      cs0.updates gt ops = some cs ∧ fs0 = cs0.toFp ∧ fs = cs.toFp := by
  rw [create_toFp] at hc
  cases h0 : CandidateSet.create limit max_candidates aln with
  | none =>
    rw [h0] at hc
    cases hc
  | some cs0 =>
    rw [h0] at hc
    simp only [Option.map, Option.some.injEq] at hc
    subst hc
    rw [updates_toFp] at hu
    cases h1 : cs0.updates gt ops with
    | none =>
      rw [h1] at hu
      cases hu
    | some cs =>
      rw [h1] at hu
      simp only [Option.map, Option.some.injEq] at hu
      exact ⟨cs0, cs, rfl, h1, rfl, hu.symm⟩

theorem toFp_injective {cs cs' : CandidateSet} (h : cs.toFp = cs'.toFp) : cs = cs' := by
  have hnum : Function.Injective Double.num := fun a b hab => Double.num.inj hab
  have htree : Function.Injective CandidateTree.toFp := by
    intro a b hab
    cases a
    cases b
    simp only [CandidateTree.toFp, Fp.CandidateTree.mk.injEq, Double.num.injEq] at hab
    simp [hab]
  have hent : Function.Injective
      (fun e : Dbl × CandidateTree => (Double.num e.1, e.2.toFp)) := by
    intro a b hab
    simp only [Prod.mk.injEq] at hab
    exact Prod.ext (hnum hab.1) (htree hab.2)
  have htop : Function.Injective (fun r : String × Dbl => (r.1, Double.num r.2)) := by
    intro a b hab
    simp only [Prod.mk.injEq] at hab
    exact Prod.ext hab.1 (hnum hab.2)
  cases cs
  cases cs'
  simp only [CandidateSet.toFp, Fp.CandidateSet.mk.injEq] at h
  obtain ⟨h1, h2, h3, h4, h5, h6, h7⟩ := h
  simp only [CandidateSet.mk.injEq]
  exact ⟨(List.map_injective_iff.2 hent) h1, h2, h3, hnum h4,
    (List.map_injective_iff.2 htop) h5, h6, h7⟩

theorem walkBest_toFp (l : List (Dbl × CandidateTree)) :
    ∀ cnt : Int, Fp.walkBest cnt (l.map (fun e => (Double.num e.1, e.2.toFp)))
      = (walkBest cnt l).map (fun e => (Double.num e.1, e.2.toFp)) := by
  induction l with
  | nil => exact fun _ => rfl
  | cons e es ih =>
    intro cnt
    simp only [List.map_cons, Fp.walkBest, walkBest]
    split
    · rw [ih, List.map_cons]
    · rfl

theorem pickRank_toFp (l : List (Dbl × CandidateTree)) :
    ∀ id : Int, Fp.pickRank id (l.map (fun e => (Double.num e.1, e.2.toFp)))
      = pickRank id l := by
  induction l with
  | nil => exact fun _ => rfl
  | cons e es ih =>
    intro id
    simp only [List.map_cons, Fp.pickRank, pickRank]
    split
    · rfl
    · exact ih _

theorem getBestTree_toFp (cs : CandidateSet) : cs.toFp.getBestTree = cs.getBestTree := by
  unfold Fp.CandidateSet.getBestTree CandidateSet.getBestTree
  simp only [CandidateSet.toFp]
  rw [← List.map_reverse, List.takeWhile_map, List.map_map]
  rfl

theorem getBestTrees_toFp (cs : CandidateSet) (numTree : Int) :
    cs.toFp.getBestTrees numTree = cs.getBestTrees numTree := by
  unfold Fp.CandidateSet.getBestTrees CandidateSet.getBestTrees
  simp only [CandidateSet.toFp]
  split
  · rw [← List.map_reverse, walkBest_toFp, List.map_map]
    rfl
  · rfl

theorem getBestScores_toFp (cs : CandidateSet) (numBest : Int) :
    cs.toFp.getBestScores numBest = (cs.getBestScores numBest).map Double.num := by
  unfold Fp.CandidateSet.getBestScores CandidateSet.getBestScores
  simp only [CandidateSet.toFp]
  rw [← List.map_reverse, walkBest_toFp, List.map_map, List.map_map]
  rfl

theorem getRandCandTree_toFp (cs : CandidateSet) (random_int : Int → Int) :
    cs.toFp.getRandCandTree random_int = cs.getRandCandTree random_int := by
  unfold Fp.CandidateSet.getRandCandTree CandidateSet.getRandCandTree
  simp only [CandidateSet.toFp, List.length_map]
  have he : (cs.entries.map (fun e => (Double.num e.1, e.2.toFp))).isEmpty
      = cs.entries.isEmpty := by
    cases cs.entries <;> rfl
  rw [he, ← List.map_reverse, pickRank_toFp]

theorem less_irrefl (a : Double) : a.less a = false := by
  cases a with
  | nan => rfl
  | num r => simp [Double.less]

theorem less_asymm {a b : Double} (h : a.less b = true) : b.less a = false := by
  cases a with
  | nan => cases b <;> simp [Double.less] at h
  | num x =>
    cases b with
    | nan => simp [Double.less] at h
    | num y =>
      simp only [Double.less, decide_eq_true_eq] at h
      simp only [Double.less, decide_eq_false_iff_not]
      exact not_lt.2 (le_of_lt h)

theorem fp_update_bestScore {gt : String → String} {c c' : Fp.CandidateSet} {tree : String}
    {score : Double} {b : Bool} (hu : c.update gt tree score = some (b, c')) :
    c'.bestScore = if c.bestScore.less score then score else c.bestScore := by
  unfold Fp.CandidateSet.update at hu
  simp only [] at hu
  generalize hc1 : (if c.bestScore.less score = true then
    ({ c with bestScore := score } : Fp.CandidateSet) else c) = c1 at hu
  have hb : c1.bestScore = if c.bestScore.less score then score else c.bestScore := by
    rw [← hc1]
    split <;> rfl
  rw [← hb]
  split at hu
  · split at hu
    · split at hu
      · cases hu
      · cases hu
        rfl
    · cases hu
      rfl
  · split at hu
    · split at hu
      · cases hu
      · cases hu
        rfl
    · split at hu
      · cases hu
      · split at hu
        · split at hu
          · cases hu
          · cases hu
            rfl
        · cases hu
          rfl

theorem fp_walkBest_eq_take (l : List (Double × Fp.CandidateTree)) :
    ∀ cnt : Int, Fp.walkBest cnt l = l.take cnt.toNat := by
  induction l with
  | nil => intro cnt; simp [Fp.walkBest]
  | cons e es ih =>
    intro cnt
    simp only [Fp.walkBest]
    split
    · have h : cnt.toNat = (cnt - 1).toNat + 1 := by omega
      rw [h, List.take_succ_cons, ih]
    · have h : cnt.toNat = 0 := by omega
      rw [h, List.take_zero]

theorem fp_pickRank_eq (l : List (Double × Fp.CandidateTree)) :
    ∀ (id : Int) (e : Double × Fp.CandidateTree), 0 ≤ id → l[id.toNat]? = some e →
      Fp.pickRank id l = e.2.tree := by
  induction l with
  | nil => intro id e _ h; simp at h
  | cons a as ih =>
    intro id e h0 h
    simp only [Fp.pickRank]
    by_cases hid : id = 0
    · subst hid
      simp at h
      simp [h]
    · have hpos : id.toNat = (id - 1).toNat + 1 := by omega
      rw [hpos, List.getElem?_cons_succ] at h
      simp only [hid, if_false]
      exact ih (id - 1) e (by omega) h

theorem run_of_toFp {gt : String → String} {limit max_candidates : Int} {aln : Bool}
    {cs0 cs : CandidateSet} {ops : List (String × Dbl)}
    (hc : Fp.CandidateSet.create limit max_candidates aln = some cs0.toFp)
    (hu : cs0.toFp.updates gt (numOps ops) = some cs.toFp) :
    CandidateSet.create limit max_candidates aln = some cs0 ∧ cs0.updates gt ops = some cs := by
  obtain ⟨c0, c, h0, h1, e0, e1⟩ := reached_toFp hc hu
  rw [toFp_injective e0, toFp_injective e1]
  exact ⟨h0, h1⟩

theorem create_of_toFp {limit max_candidates : Int} {aln : Bool} {cs0 : CandidateSet}
    (hc : Fp.CandidateSet.create limit max_candidates aln = some cs0.toFp) :
    CandidateSet.create limit max_candidates aln = some cs0 :=
  (@run_of_toFp id limit max_candidates aln cs0 cs0 [] hc rfl).1

theorem update_some_toFp {gt : String → String} {cs cs' : CandidateSet} {tree : String}
    {score : Dbl} {b : Bool} (h : cs.update gt tree score = some (b, cs')) :
    cs.toFp.update gt tree (Double.num score) = some (b, cs'.toFp) := by
  rw [update_toFp, h]
  rfl

theorem update_of_toFp {gt : String → String} {cs : CandidateSet} {tree : String}
    {score : Dbl} {b : Bool} {fs' : Fp.CandidateSet}
    (h : cs.toFp.update gt tree (Double.num score) = some (b, fs')) :
    ∃ cs', cs.update gt tree score = some (b, cs') ∧ fs' = cs'.toFp := by
  rw [update_toFp] at h
  cases hu : cs.update gt tree score with
  | none =>
    rw [hu] at h
    cases h
  | some r =>
    rw [hu] at h
    simp only [Option.map, Option.some.injEq, Prod.mk.injEq] at h
    exact ⟨r.2, by rw [← h.1], h.2.symm⟩

theorem updates_some_toFp {gt : String → String} {cs cs' : CandidateSet}
    {ops : List (String × Dbl)} (h : cs.updates gt ops = some cs') :
    cs.toFp.updates gt (numOps ops) = some cs'.toFp := by
  rw [updates_toFp, h]
  rfl

theorem mapFind_toFp_none {k : String} {cs : CandidateSet} :
    Fp.mapFind k cs.toFp.topologies = none ↔ mapFind k cs.topologies = none := by
  show Fp.mapFind k (cs.topologies.map (fun r => (r.1, Double.num r.2))) = none ↔ _
  rw [mapFind_toFp]
  cases mapFind k cs.topologies <;> simp

theorem mapFind_toFp_some {k : String} {cs : CandidateSet} {x : Double} :
    Fp.mapFind k cs.toFp.topologies = some x ↔
      ∃ v, x = Double.num v ∧ mapFind k cs.topologies = some v := by
  show Fp.mapFind k (cs.topologies.map (fun r => (r.1, Double.num r.2))) = some x ↔ _
  rw [mapFind_toFp]
  cases mapFind k cs.topologies with
  | none => simp
  | some v =>
    simp only [Option.map, Option.some.injEq]
    constructor
    · intro h
      exact ⟨v, h.symm, rfl⟩
    · rintro ⟨w, hw, hv⟩
      rw [hw, hv]

theorem length_toFp (cs : CandidateSet) : cs.toFp.entries.length = cs.entries.length := by
  show (cs.entries.map _).length = _
  rw [List.length_map]

/-! ## Calls with a NaN score -/

theorem fp_mmScan_perm {V : Type} (k : Double) (v : V) (l : List (Double × V)) :
    (Fp.mmScan k v l).Perm ((k, v) :: l) := by
  induction l with
  | nil => simp [Fp.mmScan]
  | cons e es ih =>
    simp only [Fp.mmScan]
    split
    · exact List.Perm.refl _
    · exact (List.Perm.cons e ih).trans (List.Perm.swap _ _ _)

theorem fp_mem_mmScan {V : Type} (k : Double) (v : V) (l : List (Double × V))
    (e : Double × V) : e ∈ Fp.mmScan k v l ↔ e = (k, v) ∨ e ∈ l := by
  rw [(fp_mmScan_perm k v l).mem_iff, List.mem_cons]

theorem fp_mapFind_mapSet (k k' : String) (v : Double) (m : List (String × Double)) :
    Fp.mapFind k' (Fp.mapSet k v m) = if k' = k then some v else Fp.mapFind k' m := by
  induction m with
  | nil =>
    simp only [Fp.mapSet, Fp.mapFind]
    by_cases h : k = k'
    · simp [h]
    · have h' : ¬ k' = k := fun e => h e.symm
      simp [h, h']
  | cons e es ih =>
    simp only [Fp.mapSet]
    by_cases h1 : e.1 = k
    · simp only [h1, if_true, Fp.mapFind]
      by_cases h2 : k = k'
      · simp [h2]
      · have h2' : ¬ k' = k := fun e => h2 e.symm
        simp [h2, h2']
    · simp only [h1, if_false, Fp.mapFind]
      by_cases h2 : e.1 = k'
      · have h3 : ¬ k' = k := fun e' => h1 (h2.trans e')
        simp [h2, h3]
      · simp only [h2, if_false]
        exact ih

theorem fp_mapFind_mapErase_ne (k k' : String) (m : List (String × Double)) (h : k' ≠ k) :
    Fp.mapFind k' (Fp.mapErase k m) = Fp.mapFind k' m := by
  induction m with
  | nil => rfl
  | cons e es ih =>
    simp only [Fp.mapErase]
    by_cases h1 : e.1 = k
    · have h2 : ¬ e.1 = k' := fun e' => h (e'.symm.trans h1)
      simp only [h1, if_true, Fp.mapFind]
      rw [← h1, if_neg h2]
    · simp only [h1, if_false, Fp.mapFind]
      split
      · rfl
      · exact ih

theorem fp_update_cases {gt : String → String} {fs fs' : Fp.CandidateSet} {tree : String}
    {score : Double} {b : Bool} (hu : fs.update gt tree score = some (b, fs')) :
    (∃ old, Fp.mapFind (gt tree) fs.topologies = some old ∧ old.lessEq score = true ∧
      b = false ∧
      fs'.entries = Fp.mmScan score ⟨tree, gt tree, score⟩
        (fs.entries.eraseP (fun e => e.2.topology == gt tree)) ∧
      fs'.topologies = Fp.mapSet (gt tree) score fs.topologies) ∨
    (∃ old, Fp.mapFind (gt tree) fs.topologies = some old ∧ old.lessEq score = false ∧
      b = false ∧ fs'.entries = fs.entries ∧ fs'.topologies = fs.topologies) ∨
    (Fp.mapFind (gt tree) fs.topologies = none ∧
      sizeLessThan fs.entries.length fs.limit = true ∧ b = true ∧
      fs'.entries = Fp.mmScan score ⟨tree, gt tree, score⟩ fs.entries ∧
      fs'.topologies = Fp.mapSet (gt tree) score fs.topologies) ∨
    (Fp.mapFind (gt tree) fs.topologies = none ∧
      sizeLessThan fs.entries.length fs.limit = false ∧
      ∃ worst rest, fs.entries = worst :: rest ∧ worst.1.less score = true ∧ b = true ∧
        fs'.entries = Fp.mmScan score ⟨tree, gt tree, score⟩ rest ∧
        fs'.topologies = Fp.mapSet (gt tree) score
          (Fp.mapErase worst.2.topology fs.topologies)) ∨
    (Fp.mapFind (gt tree) fs.topologies = none ∧
      sizeLessThan fs.entries.length fs.limit = false ∧
      ∃ worst rest, fs.entries = worst :: rest ∧ worst.1.less score = false ∧ b = false ∧
        fs'.entries = fs.entries ∧ fs'.topologies = fs.topologies) := by
  unfold Fp.CandidateSet.update at hu
  simp only [] at hu
  generalize hc1 : (if fs.bestScore.less score = true then
    ({ fs with bestScore := score } : Fp.CandidateSet) else fs) = c1 at hu
  have he : c1.entries = fs.entries := by
    rw [← hc1]
    split <;> rfl
  have ht : c1.topologies = fs.topologies := by
    rw [← hc1]
    split <;> rfl
  have hl : c1.limit = fs.limit := by
    rw [← hc1]
    split <;> rfl
  rw [he, ht, hl] at hu
  cases hf : Fp.mapFind (gt tree) fs.topologies with
  | some old =>
    rw [hf] at hu
    simp only [] at hu
    by_cases hle : old.lessEq score = true
    · rw [if_pos hle] at hu
      unfold Fp.mmInsert at hu
      by_cases hk : keysOrdered (score :: List.map Prod.fst
          (List.eraseP (fun e => e.2.topology == gt tree) fs.entries)) = true
      · rw [if_pos hk] at hu
        simp only [Option.some.injEq, Prod.mk.injEq] at hu
        obtain ⟨hb, hfs⟩ := hu
        subst hfs
        exact Or.inl ⟨old, rfl, hle, hb.symm, rfl, rfl⟩
      · rw [if_neg hk] at hu
        cases hu
    · rw [if_neg hle] at hu
      simp only [Option.some.injEq, Prod.mk.injEq] at hu
      obtain ⟨hb, hfs⟩ := hu
      subst hfs
      exact Or.inr (Or.inl ⟨old, rfl, by simpa using hle, hb.symm, he, ht⟩)
  | none =>
    rw [hf] at hu
    simp only [] at hu
    by_cases hs : sizeLessThan fs.entries.length fs.limit = true
    · rw [if_pos hs] at hu
      unfold Fp.mmInsert at hu
      by_cases hk : keysOrdered (score :: List.map Prod.fst fs.entries) = true
      · rw [if_pos hk] at hu
        simp only [Option.some.injEq, Prod.mk.injEq] at hu
        obtain ⟨hb, hfs⟩ := hu
        subst hfs
        exact Or.inr (Or.inr (Or.inl ⟨rfl, hs, hb.symm, rfl, rfl⟩))
      · rw [if_neg hk] at hu
        cases hu
    · rw [if_neg hs] at hu
      have hs' : sizeLessThan fs.entries.length fs.limit = false := by simpa using hs
      cases hent : fs.entries with
      | nil =>
        rw [hent] at hu
        cases hu
      | cons worst rest =>
        rw [hent] at hu
        simp only [] at hu
        by_cases hw : worst.1.less score = true
        · rw [if_pos hw] at hu
          unfold Fp.mmInsert at hu
          by_cases hk : keysOrdered (score :: List.map Prod.fst rest) = true
          · rw [if_pos hk] at hu
            simp only [Option.some.injEq, Prod.mk.injEq] at hu
            obtain ⟨hb, hfs⟩ := hu
            subst hfs
            exact Or.inr (Or.inr (Or.inr (Or.inl
              ⟨rfl, hent ▸ hs', worst, rest, rfl, hw, hb.symm, rfl, rfl⟩)))
          · rw [if_neg hk] at hu
            cases hu
        · rw [if_neg hw] at hu
          simp only [Option.some.injEq, Prod.mk.injEq] at hu
          obtain ⟨hb, hfs⟩ := hu
          subst hfs
          exact Or.inr (Or.inr (Or.inr (Or.inr
            ⟨rfl, hent ▸ hs', worst, rest, rfl, by simpa using hw, hb.symm,
              he.trans hent, ht⟩)))

theorem fp_eraseP_topology_ne (topo : String) (l : List (Double × Fp.CandidateTree))
    (nd : (l.map (fun e => e.2.topology)).Nodup) :
    ∀ e ∈ l.eraseP (fun e => e.2.topology == topo), e.2.topology ≠ topo := by
  induction l with
  | nil => simp
  | cons a as ih =>
    rw [List.map_cons, List.nodup_cons] at nd
    intro e he
    rw [List.eraseP_cons] at he
    by_cases ha : a.2.topology = topo
    · simp only [ha, beq_self_eq_true, cond_true] at he
      intro h
      exact nd.1 (ha ▸ h ▸
        List.mem_map_of_mem (fun e : Double × Fp.CandidateTree => e.2.topology) he)
    · have hp : (a.2.topology == topo) = false := by simpa using ha
      simp only [hp, cond_false] at he
      rcases List.mem_cons.1 he with rfl | he
      · exact ha
      · exact ih nd.2 e he

theorem fp_nodup_mmScan (k : Double) (v : Fp.CandidateTree)
    (l : List (Double × Fp.CandidateTree))
    (nd : (l.map (fun e => e.2.topology)).Nodup)
    (hn : ∀ e ∈ l, e.2.topology ≠ v.topology) :
    ((Fp.mmScan k v l).map (fun e => e.2.topology)).Nodup := by
  have hp := (fp_mmScan_perm k v l).map (fun e : Double × Fp.CandidateTree => e.2.topology)
  rw [hp.nodup_iff, List.map_cons, List.nodup_cons]
  refine ⟨?_, nd⟩
  intro hm
  obtain ⟨e, he, ht⟩ := List.mem_map.1 hm
  exact hn e he ht

theorem fp_linked_create {limit max_candidates : Int} {aln : Bool} {fs : Fp.CandidateSet}
    (h : Fp.CandidateSet.create limit max_candidates aln = some fs) : fs.Linked := by
  unfold Fp.CandidateSet.create at h
  split at h
  · cases h
    exact ⟨by simp, by simp⟩
  · cases h

theorem fp_linked_update {gt : String → String} {fs fs' : Fp.CandidateSet} {tree : String}
    {score : Double} {b : Bool} (h : fs.Linked)
    (hu : fs.update gt tree score = some (b, fs')) : fs'.Linked := by
  have hnew : Fp.mapFind (gt tree) fs.topologies = none →
      ∀ e ∈ fs.entries, e.2.topology ≠ gt tree := by
    intro hf e he ht
    have := h.2 e he
    rw [ht, hf] at this
    cases this
  rcases fp_update_cases hu with
    ⟨old, hf, hle, hb, he, ht⟩ | ⟨old, hf, hle, hb, he, ht⟩ | ⟨hf, hs, hb, he, ht⟩ |
    ⟨hf, hs, worst, rest, hent, hw, hb, he, ht⟩ | ⟨hf, hs, worst, rest, hent, hw, hb, he, ht⟩
  · have hne := fp_eraseP_topology_ne (gt tree) fs.entries h.1
    refine ⟨?_, ?_⟩
    · rw [he]
      exact fp_nodup_mmScan _ _ _
        ((List.eraseP_sublist _).map _ |>.nodup h.1) hne
    · intro e hm
      rw [he, fp_mem_mmScan] at hm
      rw [ht, fp_mapFind_mapSet]
      rcases hm with rfl | hm
      · simp
      · rw [if_neg (hne e hm)]
        exact h.2 e (List.mem_of_mem_eraseP hm)
  · exact ⟨he ▸ h.1, fun e hm => by rw [ht]; exact h.2 e (he ▸ hm)⟩
  · refine ⟨?_, ?_⟩
    · rw [he]
      exact fp_nodup_mmScan _ _ _ h.1 (hnew hf)
    · intro e hm
      rw [he, fp_mem_mmScan] at hm
      rw [ht, fp_mapFind_mapSet]
      rcases hm with rfl | hm
      · simp
      · rw [if_neg (hnew hf e hm)]
        exact h.2 e hm
  · have nd := h.1
    rw [hent, List.map_cons, List.nodup_cons] at nd
    have hrest : ∀ e ∈ rest, e ∈ fs.entries := fun e hm => by
      rw [hent]
      exact List.mem_cons_of_mem _ hm
    refine ⟨?_, ?_⟩
    · rw [he]
      exact fp_nodup_mmScan _ _ _ nd.2 (fun e hm => hnew hf e (hrest e hm))
    · intro e hm
      rw [he, fp_mem_mmScan] at hm
      rw [ht, fp_mapFind_mapSet]
      rcases hm with rfl | hm
      · simp
      · rw [if_neg (hnew hf e (hrest e hm))]
        have hwne : e.2.topology ≠ worst.2.topology := by
          intro heq
          exact nd.1 (heq ▸
            List.mem_map_of_mem (fun e : Double × Fp.CandidateTree => e.2.topology) hm)
        rw [fp_mapFind_mapErase_ne _ _ _ hwne]
        exact h.2 e (hrest e hm)
  · exact ⟨he ▸ h.1, fun e hm => by rw [ht]; exact h.2 e (he ▸ hm)⟩

theorem fp_linked_updates {gt : String → String} (ops : List (String × Double)) :
    ∀ {fs fs' : Fp.CandidateSet}, fs.Linked → fs.updates gt ops = some fs' → fs'.Linked := by
  induction ops with
  | nil =>
    intro fs fs' h hu
    simp only [Fp.CandidateSet.updates, Option.some.injEq] at hu
    exact hu ▸ h
  | cons op rest ih =>
    intro fs fs' h hu
    obtain ⟨tree, score⟩ := op
    simp only [Fp.CandidateSet.updates] at hu
    cases h1 : fs.update gt tree score with
    | none =>
      rw [h1] at hu
      cases hu
    | some r =>
      rw [h1] at hu
      exact ih (fp_linked_update h h1) hu

theorem less_nan (a : Double) : a.less Double.nan = false := by
  cases a <;> rfl

theorem nan_less (a : Double) : Double.nan.less a = false := by
  cases a <;> rfl

theorem lessEq_nan (a : Double) : a.lessEq Double.nan = false := by
  cases a <;> rfl

theorem nan_lessEq (a : Double) : Double.nan.lessEq a = false := by
  cases a <;> rfl

/-- A stored NaN stays: the entry at `begin()` is dropped only when its key
is below the new score, and an entry is replaced only when the score of its
topology is at most the new score; neither comparison holds for NaN. -/
theorem fp_nan_stays {gt : String → String} {fs fs' : Fp.CandidateSet} {tree : String}
    {score : Double} {b : Bool} (h : fs.Linked)
    (hn : ∃ e ∈ fs.entries, e.1 = Double.nan)
    (hu : fs.update gt tree score = some (b, fs')) :
    ∃ e ∈ fs'.entries, e.1 = Double.nan := by
  obtain ⟨e, hm, hnan⟩ := hn
  rcases fp_update_cases hu with
    ⟨old, hf, hle, hb, he, ht⟩ | ⟨old, hf, hle, hb, he, ht⟩ | ⟨hf, hs, hb, he, ht⟩ |
    ⟨hf, hs, worst, rest, hent, hw, hb, he, ht⟩ | ⟨hf, hs, worst, rest, hent, hw, hb, he, ht⟩
  · refine ⟨e, ?_, hnan⟩
    rw [he, fp_mem_mmScan]
    right
    have hne : e.2.topology ≠ gt tree := by
      intro heq
      have := h.2 e hm
      rw [heq, hf, hnan] at this
      cases this
      rw [nan_lessEq] at hle
      cases hle
    exact (List.mem_eraseP_of_neg (by simpa using hne)).2 hm
  · exact ⟨e, he ▸ hm, hnan⟩
  · refine ⟨e, ?_, hnan⟩
    rw [he, fp_mem_mmScan]
    exact Or.inr hm
  · refine ⟨e, ?_, hnan⟩
    rw [he, fp_mem_mmScan]
    right
    rw [hent] at hm
    rcases List.mem_cons.1 hm with rfl | hm
    · rw [hnan, nan_less] at hw
      cases hw
    · exact hm
  · exact ⟨e, he ▸ hm, hnan⟩

theorem fp_nan_stays_updates {gt : String → String} (ops : List (String × Double)) :
    ∀ {fs fs' : Fp.CandidateSet}, fs.Linked → (∃ e ∈ fs.entries, e.1 = Double.nan) →
      fs.updates gt ops = some fs' → ∃ e ∈ fs'.entries, e.1 = Double.nan := by
  induction ops with
  | nil =>
    intro fs fs' _ hn hu
    simp only [Fp.CandidateSet.updates, Option.some.injEq] at hu
    exact hu ▸ hn
  | cons op rest ih =>
    intro fs fs' h hn hu
    obtain ⟨tree, score⟩ := op
    simp only [Fp.CandidateSet.updates] at hu
    cases h1 : fs.update gt tree score with
    | none =>
      rw [h1] at hu
      cases hu
    | some r =>
      rw [h1] at hu
      exact ih (fp_linked_update h h1) (fp_nan_stays h hn h1) hu

/-- A call with a NaN score either stores the NaN or changes nothing. -/
theorem fp_update_nan {gt : String → String} {fs fs' : Fp.CandidateSet} {tree : String}
    {b : Bool} (hu : fs.update gt tree Double.nan = some (b, fs')) :
    (b = false ∧ fs' = fs) ∨ (b = true ∧ ∃ e ∈ fs'.entries, e.1 = Double.nan) := by
  have hcases := fp_update_cases hu
  unfold Fp.CandidateSet.update at hu
  simp only [less_nan, lessEq_nan, Bool.false_eq_true, if_false] at hu
  rcases hcases with
    ⟨old, hf, hle, hb, he, ht⟩ | ⟨old, hf, hle, hb, he, ht⟩ | ⟨hf, hs, hb, he, ht⟩ |
    ⟨hf, hs, worst, rest, hent, hw, hb, he, ht⟩ | ⟨hf, hs, worst, rest, hent, hw, hb, he, ht⟩
  · rw [lessEq_nan] at hle
    cases hle
  · rw [hf] at hu
    simp only [Option.some.injEq, Prod.mk.injEq] at hu
    exact Or.inl ⟨hu.1.symm, hu.2.symm⟩
  · refine Or.inr ⟨hb, (Double.nan, ⟨tree, gt tree, Double.nan⟩), ?_, rfl⟩
    rw [he, fp_mem_mmScan]
    exact Or.inl rfl
  · rw [less_nan] at hw
    cases hw
  · rw [hf] at hu
    simp only [hs, Bool.false_eq_true, if_false] at hu
    rw [hent] at hu
    simp only [Option.some.injEq, Prod.mk.injEq] at hu
    exact Or.inl ⟨hu.1.symm, hu.2.symm⟩

theorem toFp_no_nan (cs : CandidateSet) : ¬ ∃ e ∈ cs.toFp.entries, e.1 = Double.nan := by
  rintro ⟨e, hm, hn⟩
  simp only [CandidateSet.toFp, List.mem_map] at hm
  obtain ⟨a, _, rfl⟩ := hm
  cases hn

theorem ranksOf_numOps (ops : List (String × Dbl)) : ranksOf (numOps ops) = ops := by
  induction ops with
  | nil => rfl
  | cons op rest ih =>
    obtain ⟨tree, s⟩ := op
    simp only [numOps, List.map_cons, ranksOf]
    exact congrArg _ ih

theorem numOps_ranksOf (fops : List (String × Double))
    (h : ∀ op ∈ fops, op.2 ≠ Double.nan) : numOps (ranksOf fops) = fops := by
  induction fops with
  | nil => rfl
  | cons op rest ih =>
    obtain ⟨tree, s⟩ := op
    cases s with
    | nan => exact absurd rfl (h (tree, Double.nan) (List.mem_cons_self _ _))
    | num r =>
      simp only [ranksOf, numOps, List.map_cons]
      exact congrArg _ (ih (fun op hm => h op (List.mem_cons_of_mem _ hm)))

/-- A run that ends in a pool without NaN stored none: its calls with a NaN
score changed nothing, and the pool is the one the other calls build. -/
theorem updates_of_toFp {gt : String → String} (fops : List (String × Double)) :
    ∀ {c cs : CandidateSet}, c.toFp.Linked →
      c.toFp.updates gt fops = some cs.toFp → c.updates gt (ranksOf fops) = some cs := by
  induction fops with
  | nil =>
    intro c cs _ hu
    simp only [Fp.CandidateSet.updates, Option.some.injEq] at hu
    simp only [ranksOf, CandidateSet.updates]
    exact congrArg some (toFp_injective hu)
  | cons op rest ih =>
    intro c cs hl hu
    obtain ⟨tree, s⟩ := op
    simp only [Fp.CandidateSet.updates] at hu
    cases h1 : c.toFp.update gt tree s with
    | none =>
      rw [h1] at hu
      cases hu
    | some r =>
      rw [h1] at hu
      obtain ⟨b, fs1⟩ := r
      simp only [] at hu
      cases s with
      | nan =>
        simp only [ranksOf]
        rcases fp_update_nan h1 with ⟨_, hfs⟩ | ⟨_, hn⟩
        · rw [hfs] at hu
          exact ih hl hu
        · exact absurd (fp_nan_stays_updates rest (fp_linked_update hl h1) hn hu)
            (toFp_no_nan cs)
      | num x =>
        obtain ⟨c1, hc1, hfs⟩ := update_of_toFp h1
        simp only [ranksOf, CandidateSet.updates, hc1]
        rw [hfs] at hu
        exact ih (hfs ▸ fp_linked_update hl h1) hu

theorem run_of_toFp_any {gt : String → String} {limit max_candidates : Int} {aln : Bool}
    {cs0 cs : CandidateSet} {fops : List (String × Double)}
    (hc : Fp.CandidateSet.create limit max_candidates aln = some cs0.toFp)
    (hu : cs0.toFp.updates gt fops = some cs.toFp) :
    CandidateSet.create limit max_candidates aln = some cs0 ∧
      cs0.updates gt (ranksOf fops) = some cs :=
  ⟨create_of_toFp hc, updates_of_toFp fops (fp_linked_create hc) hu⟩

theorem fp_updates_bestScore {gt : String → String} (fops : List (String × Double)) :
    ∀ {fs fs' : Fp.CandidateSet} {b : Dbl}, fs.bestScore = Double.num b →
      fs.updates gt fops = some fs' →
      fs'.bestScore = Double.num (((ranksOf fops).map Prod.snd).foldl max b) := by
  induction fops with
  | nil =>
    intro fs fs' b hb hu
    simp only [Fp.CandidateSet.updates, Option.some.injEq] at hu
    rw [← hu, hb]
    rfl
  | cons op rest ih =>
    intro fs fs' b hb hu
    obtain ⟨tree, s⟩ := op
    simp only [Fp.CandidateSet.updates] at hu
    cases h1 : fs.update gt tree s with
    | none =>
      rw [h1] at hu
      cases hu
    | some r =>
      rw [h1] at hu
      obtain ⟨flag, fs1⟩ := r
      have hb1 := fp_update_bestScore h1
      cases s with
      | nan =>
        rw [less_nan] at hb1
        simp only [Bool.false_eq_true, if_false] at hb1
        simp only [ranksOf]
        exact ih (hb1.trans hb) hu
      | num x =>
        simp only [ranksOf, List.map_cons, List.foldl_cons]
        refine ih ?_ hu
        rw [hb1, hb]
        show (if decide (b < x) = true then Double.num x else Double.num b)
          = Double.num (max b x)
        by_cases h : b < x
        · simp [h, max_eq_right (le_of_lt h)]
        · simp [h, max_eq_left (not_lt.1 h)]

theorem fp_getBestScores_eq (fs : Fp.CandidateSet) (numBest : Int) :
    fs.getBestScores numBest = (fs.entries.reverse.take numBest.toNat).map Prod.fst := by
  unfold Fp.CandidateSet.getBestScores
  rw [fp_walkBest_eq_take]

theorem reversed_toFp (cs : CandidateSet) :
    cs.toFp.entries.reverse
      = cs.entries.reverse.map (fun e => (Double.num e.1, e.2.toFp)) := by
  show (cs.entries.map (fun e => (Double.num e.1, e.2.toFp))).reverse = _
  rw [List.map_reverse]


/-- A run from a pool without NaN ends in a pool without NaN, the one its calls
with a number score build, or in a pool that stores a NaN. -/
theorem updates_number_or_nan {gt : String → String} (fops : List (String × Double)) :
    ∀ {c : CandidateSet} {fs : Fp.CandidateSet}, c.toFp.Linked →
      c.toFp.updates gt fops = some fs →
      (∃ cs, fs = cs.toFp ∧ c.updates gt (ranksOf fops) = some cs) ∨
        ∃ e ∈ fs.entries, e.1 = Double.nan := by
  induction fops with
  | nil =>
    intro c fs _ hu
    simp only [Fp.CandidateSet.updates, Option.some.injEq] at hu
    exact Or.inl ⟨c, hu.symm, rfl⟩
  | cons op rest ih =>
    intro c fs hl hu
    obtain ⟨tree, s⟩ := op
    simp only [Fp.CandidateSet.updates] at hu
    cases h1 : c.toFp.update gt tree s with
    | none =>
      rw [h1] at hu
      cases hu
    | some r =>
      rw [h1] at hu
      obtain ⟨b, fs1⟩ := r
      simp only [] at hu
      cases s with
      | nan =>
        simp only [ranksOf]
        rcases fp_update_nan h1 with ⟨_, hfs⟩ | ⟨_, hn⟩
        · rw [hfs] at hu
          exact ih hl hu
        · exact Or.inr (fp_nan_stays_updates rest (fp_linked_update hl h1) hn hu)
      | num x =>
        obtain ⟨c1, hc1, hfs⟩ := update_of_toFp h1
        simp only [ranksOf, CandidateSet.updates, hc1]
        rw [hfs] at hu
        exact ih (hfs ▸ fp_linked_update hl h1) hu

/-! ## The claims -/

/-- C2: in every state reached from the empty pool by `update` calls, a key of
the topology index has exactly one entry of that topology, whose key in the
multimap and whose stored score are the indexed score; every entry has its
topology in the index, with its score; and `treeTopologyExist k` holds exactly
when some entry has topology `k`. -/
theorem topology_index_consistent (gt : String → String) (limit max_candidates : Int)
    (aln : Bool) (cs0 cs : CandidateSet) (ops : List (String × Dbl))
    (hc : CandidateSet.create limit max_candidates aln = some cs0)
    (hu : cs0.updates gt ops = some cs) :
    (∀ k v, mapFind k cs.topologies = some v →
      ∃ e, cs.entries.filter (fun x => x.2.topology == k) = [e] ∧ e.1 = v ∧ e.2.score = v) ∧
    (∀ k, (cs.topologies.filter (fun r => r.1 == k)).length ≤ 1) ∧
    (∀ e ∈ cs.entries, mapFind e.2.topology cs.topologies = some e.2.score) ∧
    (∀ k, cs.treeTopologyExist k = true ↔ ∃ e ∈ cs.entries, e.2.topology = k) := by
  have h := inv_updates ops (inv_create hc) hu
  refine ⟨?_, ?_, ?_, ?_⟩
  · intro k v hf
    obtain ⟨e, he, het, hev⟩ := (h.index k v).1 hf
    refine ⟨e, ?_, hev, (h.keyScore e he) ▸ hev⟩
    rw [← het]
    exact filter_topology_singleton cs.entries h.nodupTopo e he
  · intro k
    have hnd := h.nodupKeys
    have hcount : (cs.topologies.filter (fun r => r.1 == k)).length
        = (cs.topologies.map Prod.fst).count k := by
      rw [List.count, List.countP_map, List.countP_eq_length_filter]
      rfl
    rw [hcount]
    exact List.nodup_iff_count_le_one.1 hnd k
  · intro e he
    rw [← h.keyScore e he]
    exact (h.index e.2.topology e.1).2 ⟨e, he, rfl, rfl⟩
  · intro k
    unfold CandidateSet.treeTopologyExist
    rw [Option.isSome_iff_exists]
    constructor
    · rintro ⟨v, hv⟩
      obtain ⟨e, he, het, _⟩ := (h.index k v).1 hv
      exact ⟨e, he, het⟩
    · rintro ⟨e, he, het⟩
      exact ⟨e.1, (h.index k e.1).2 ⟨e, he, het, rfl⟩⟩

/-- C2, a run: the pool of limit 3 after six `update` calls, one of them an
eviction and one a replacement. -/
theorem topology_index_consistent_witness :
    CandidateSet.create 3 2 true = some pool0 ∧
    pool0.updates firstChar
        [("A", d1_0), ("B", d2_0), ("C", d0_5), ("D", d3_0), ("E", d0_4), ("A2", d1_5)]
      = some poolA2BD ∧
    (∀ k v, mapFind k poolA2BD.topologies = some v →
      ∃ e, poolA2BD.entries.filter (fun x => x.2.topology == k) = [e] ∧
        e.1 = v ∧ e.2.score = v) :=
  ⟨by decide, by decide,
    (topology_index_consistent firstChar 3 2 true pool0 poolA2BD
      [("A", d1_0), ("B", d2_0), ("C", d0_5), ("D", d3_0), ("E", d0_4), ("A2", d1_5)]
      (by decide) (by decide)).1⟩

/-- C3 (the claim as written fails): a fresh pool whose only `update` call
carries the score NaN keeps `bestScore = -DBL_MAX` (`NaN > bestScore` is
false), a value that was never passed to `update`, while the pool stores the
NaN score; and a fresh pool whose only `update` call carries minus infinity
keeps `bestScore = -DBL_MAX`, which is not the maximum of the scores passed
(that maximum is minus infinity). -/
theorem bestScore_nan :
    ((Fp.CandidateSet.create 3 2 true).bind
        (fun cs => cs.updates firstChar [("A", Double.nan)])).map
      (fun cs => (cs.bestScore, cs.entries.map Prod.fst))
      = some (Double.num (-DBL_MAX), [Double.nan]) ∧
    ((Fp.CandidateSet.create 3 2 true).bind
        (fun cs => cs.updates firstChar [("A", Double.num (-DBL_INF))])).map
      (fun cs => cs.bestScore) = some (Double.num (-DBL_MAX)) ∧
    ¬ IsMaxOf (-DBL_MAX) [-DBL_INF] ∧ IsMaxOf (-DBL_INF) [-DBL_INF] ∧
    Dbl.IsDouble (-DBL_INF) := by
  decide

/-- C3: after any sequence `fops` of `update` calls that completes on a freshly
constructed pool, whatever the scores, `bestScore` is the maximum of `-DBL_MAX`
and all scores passed to `update` that are not NaN (those of calls that
returned false included; `ranksOf fops` are the calls whose score is not NaN);
hence, when some score passed is a number not below `-DBL_MAX`, `bestScore` is
the maximum of the scores passed that are not NaN.  When no score passed is NaN
these are all the scores passed.  Across any single `update` call, whatever its
score, `bestScore` does not decrease and does not end below the score
passed. -/
theorem bestScore_of_numbers (gt : String → String) (limit max_candidates : Int)
    (aln : Bool) (fs0 fs : Fp.CandidateSet) (fops : List (String × Double))
    (hc : Fp.CandidateSet.create limit max_candidates aln = some fs0)
    (hu : fs0.updates gt fops = some fs) :
    fs.bestScore = Double.num (((ranksOf fops).map Prod.snd).foldl max (-DBL_MAX)) ∧
    ((∃ op ∈ ranksOf fops, -DBL_MAX ≤ op.2) →
      ∃ m, fs.bestScore = Double.num m ∧ IsMaxOf m ((ranksOf fops).map Prod.snd)) ∧
    ((∀ op ∈ fops, op.2 ≠ Double.nan) →
      fops.map Prod.snd = ((ranksOf fops).map Prod.snd).map Double.num) ∧
    (∀ (c c' : Fp.CandidateSet) (tree : String) (score : Double) (b : Bool),
      c.update gt tree score = some (b, c') →
        c'.bestScore.less c.bestScore = false ∧ c'.bestScore.less score = false) := by
  have h0 : fs0.bestScore = Double.num (-DBL_MAX) := by
    unfold Fp.CandidateSet.create at hc
    split at hc
    · cases hc
      rfl
    · cases hc
  have hb := fp_updates_bestScore fops h0 hu
  refine ⟨hb, ?_, ?_, ?_⟩
  · rintro ⟨op, hop, hge⟩
    exact ⟨_, hb, foldl_max_isMaxOf_of_exists _ _
      ⟨op.2, List.mem_map_of_mem Prod.snd hop, hge⟩⟩
  · intro hnum
    have h := congrArg (List.map Prod.snd) (numOps_ranksOf fops hnum)
    rw [← h]
    simp only [numOps, List.map_map]
    rfl
  · intro c c' tree score b hstep
    rw [fp_update_bestScore hstep]
    by_cases h : c.bestScore.less score = true
    · simp only [h, if_true]
      exact ⟨less_asymm h, less_irrefl _⟩
    · simp only [h, if_false]
      exact ⟨less_irrefl _, by simpa using h⟩

/-- C3, a run: six `update` calls, one of them with a NaN score (rejected, its
topology being stored) and the last rejected at capacity. -/
theorem bestScore_of_numbers_witness :
    Fp.CandidateSet.create 3 2 true = some pool0.toFp ∧
    pool0.toFp.updates firstChar
        [("A", Double.num d1_0), ("A2", Double.nan), ("B", Double.num d2_0),
          ("C", Double.num d0_5), ("D", Double.num d3_0), ("E", Double.num d0_4)]
      = some poolABD.toFp ∧
    poolABD.toFp.bestScore = Double.num d3_0 ∧
    ∃ m, poolABD.toFp.bestScore = Double.num m ∧
      IsMaxOf m ((ranksOf
        [("A", Double.num d1_0), ("A2", Double.nan), ("B", Double.num d2_0),
          ("C", Double.num d0_5), ("D", Double.num d3_0), ("E", Double.num d0_4)]).map
        Prod.snd) :=
  ⟨by decide, by decide, by decide,
    (bestScore_of_numbers firstChar 3 2 true pool0.toFp poolABD.toFp
      [("A", Double.num d1_0), ("A2", Double.nan), ("B", Double.num d2_0),
        ("C", Double.num d0_5), ("D", Double.num d3_0), ("E", Double.num d0_4)]
      (by decide) (by decide)).2.1 ⟨("A", d1_0), by decide, by decide⟩⟩

/-- C4 (the claim as written fails): in the pool of `limit = 2` that holds
A:NaN and B:1.0, `update("C", 3.0)` returns false although the key of C is not
in the index and 3.0 is above the stored score 1.0 (`begin()` is the NaN entry
and `NaN < 3.0` is false); and in the pool constructed with `limit = -1` that
holds A:1.0, `update("B", 0.5)` returns true although `size < limit` is false
and 0.5 is not above the only score 1.0. -/
theorem update_return_value_nan :
    (((Fp.CandidateSet.create 2 2 true).bind
        (fun cs => cs.updates firstChar [("A", Double.nan), ("B", Double.num d1_0)])).bind
      (fun cs => (cs.update firstChar "C" (Double.num d3_0)).map
        (fun r => (r.1, Fp.mapFind (firstChar "C") cs.topologies, cs.entries.map Prod.fst,
          (Double.num d1_0).less (Double.num d3_0)))))
      = some (false, none, [Double.nan, Double.num d1_0], true) ∧
    (((Fp.CandidateSet.create (-1) (-1) true).bind
        (fun cs => cs.updates firstChar [("A", Double.num d1_0)])).bind
      (fun cs => (cs.update firstChar "B" (Double.num d0_5)).map
        (fun r => (r.1, Fp.mapFind (firstChar "B") cs.topologies,
          decide ((cs.entries.length : Int) < cs.limit), cs.entries.map Prod.fst,
          (Double.num d1_0).less (Double.num d0_5)))))
      = some (true, none, false, [Double.num d1_0], false) := by
  decide

/-- C4: in every state that stores no NaN (the state `cs.toFp`, of ranks `cs`),
reached by `update` calls `fops`, of any scores, on a pool constructed with
`0 ≤ limit`, `update(tree, score)` with a score that is a number returns true
if and only if the topology key of `tree` is not in the index and either
`size(entries) < limit` or `score` is strictly greater than the minimum score
in `entries`; with `1 ≤ limit` the call always completes; it returns false
whenever the key is present; and it returns false for a new topology at
capacity whose score equals the worst score.  A call with the score NaN that
completes returns true if and only if the key is not in the index and
`size(entries) < limit` (NaN is greater than no score).  In every state `fs`,
whatever it stores, a call that completes with the key of its tree in the index
returns false, whatever the score. -/
theorem update_return_value_numbers (gt : String → String) (limit max_candidates : Int)
    (aln : Bool) (cs0 cs : CandidateSet) (fops : List (String × Double))
    (tree : String) (score : Dbl)
    (hc : Fp.CandidateSet.create limit max_candidates aln = some cs0.toFp)
    (hu : cs0.toFp.updates gt fops = some cs.toFp)
    (h0 : 0 ≤ limit) (h1 : limit ≤ INT_MAX) :
    ((∃ fs', cs.toFp.update gt tree (Double.num score) = some (true, fs')) ↔
      (Fp.mapFind (gt tree) cs.toFp.topologies = none ∧
        ((cs.toFp.entries.length : Int) < limit ∨
          ∃ m, IsMinOf m (cs.entries.map Prod.fst) ∧ m < score))) ∧
    (1 ≤ limit → ∃ b fs', cs.toFp.update gt tree (Double.num score) = some (b, fs')) ∧
    (∀ old, Fp.mapFind (gt tree) cs.toFp.topologies = some old →
      ∃ fs', cs.toFp.update gt tree (Double.num score) = some (false, fs')) ∧
    (Fp.mapFind (gt tree) cs.toFp.topologies = none →
      (cs.toFp.entries.length : Int) = limit →
      IsMinOf score (cs.entries.map Prod.fst) →
      ∃ fs', cs.toFp.update gt tree (Double.num score) = some (false, fs')) ∧
    (∀ (b : Bool) (fs' : Fp.CandidateSet),
      cs.toFp.update gt tree Double.nan = some (b, fs') →
        (b = true ↔ (Fp.mapFind (gt tree) cs.toFp.topologies = none ∧
          (cs.toFp.entries.length : Int) < limit))) ∧
    (∀ (fs fs' : Fp.CandidateSet) (s old : Double) (b : Bool),
      Fp.mapFind (gt tree) fs.topologies = some old →
      fs.update gt tree s = some (b, fs') → b = false) := by
  obtain ⟨hc', hu'⟩ := run_of_toFp_any hc hu
  obtain ⟨q1, q2, q3, q4⟩ :=
    update_return_value gt limit max_candidates aln cs0 cs (ranksOf fops) tree score
      hc' hu' h0 h1
  obtain ⟨_, hlim, _⟩ := reached_inv hc' hu'
  have hex : ∀ b : Bool, (∃ cs', cs.update gt tree score = some (b, cs')) →
      ∃ fs', cs.toFp.update gt tree (Double.num score) = some (b, fs') :=
    fun b ⟨cs', h⟩ => ⟨cs'.toFp, update_some_toFp h⟩
  have hsz : sizeLessThan cs.toFp.entries.length cs.toFp.limit = true ↔
      (cs.toFp.entries.length : Int) < limit := by
    show sizeLessThan cs.toFp.entries.length cs.limit = true ↔ _
    rw [hlim]
    exact sizeLessThan_iff h0 h1
  refine ⟨?_, ?_, ?_, ?_, ?_, ?_⟩
  · rw [length_toFp, mapFind_toFp_none, ← q1]
    constructor
    · rintro ⟨fs', h⟩
      obtain ⟨cs', h', _⟩ := update_of_toFp h
      exact ⟨cs', h'⟩
    · exact hex true
  · intro hl
    obtain ⟨b, cs', h⟩ := q2 hl
    exact ⟨b, cs'.toFp, update_some_toFp h⟩
  · intro old hf
    obtain ⟨v, _, hv⟩ := mapFind_toFp_some.1 hf
    exact hex false (q3 v hv)
  · rw [length_toFp, mapFind_toFp_none]
    intro hf hlen hmin
    exact hex false (q4 hf hlen hmin)
  · intro b fs' hstep
    rcases fp_update_cases hstep with
      ⟨old, hf, hle, hb, he, ht⟩ | ⟨old, hf, hle, hb, he, ht⟩ | ⟨hf, hs, hb, he, ht⟩ |
      ⟨hf, hs, worst, rest, hent, hw, hb, he, ht⟩ |
      ⟨hf, hs, worst, rest, hent, hw, hb, he, ht⟩
    · rw [lessEq_nan] at hle
      cases hle
    · rw [hb, hf]
      simp
    · rw [hb]
      exact ⟨fun _ => ⟨hf, hsz.1 hs⟩, fun _ => rfl⟩
    · rw [less_nan] at hw
      cases hw
    · rw [hb]
      constructor
      · intro h
        cases h
      · rintro ⟨_, hlt⟩
        rw [hsz.2 hlt] at hs
        cases hs
  · intro fs fs' s old b hold hstep
    rcases fp_update_cases hstep with
      ⟨_, _, _, hb, _, _⟩ | ⟨_, _, _, hb, _, _⟩ | ⟨hf, _, _, _, _⟩ |
      ⟨hf, _, _, _, _, _, _, _, _⟩ | ⟨hf, _, _, _, _, _, _, _, _⟩
    · exact hb
    · exact hb
    · rw [hf] at hold
      cases hold
    · rw [hf] at hold
      cases hold
    · rw [hf] at hold
      cases hold

/-- C4, a run: in the full pool {A:1.0, B:2.0, D:3.0} of limit 3 the call
`update("F", 1.0)`, a new topology whose score equals the worst score, returns
false, and `update("F", 1.5)` returns true. -/
theorem update_return_value_numbers_witness :
    Fp.CandidateSet.create 3 2 true = some pool0.toFp ∧
    pool0.toFp.updates firstChar
        [("A", Double.num d1_0), ("B", Double.num d2_0), ("C", Double.num d0_5),
          ("D", Double.num d3_0)] = some poolABD.toFp ∧
    (0 : Int) ≤ 3 ∧ (3 : Int) ≤ INT_MAX ∧
    ((∃ fs', poolABD.toFp.update firstChar "F" (Double.num d1_5) = some (true, fs')) ↔
      (Fp.mapFind (firstChar "F") poolABD.toFp.topologies = none ∧
        ((poolABD.toFp.entries.length : Int) < 3 ∨
          ∃ m, IsMinOf m (poolABD.entries.map Prod.fst) ∧ m < d1_5))) ∧
    (poolABD.toFp.update firstChar "F" (Double.num d1_5)).map Prod.fst = some true ∧
    (poolABD.toFp.update firstChar "F" (Double.num d1_0)).map Prod.fst = some false ∧
    (poolABD.toFp.update firstChar "F" Double.nan).map Prod.fst = some false :=
  ⟨by decide, by decide, by decide, by decide,
    (update_return_value_numbers firstChar 3 2 true pool0 poolABD
      [("A", Double.num d1_0), ("B", Double.num d2_0), ("C", Double.num d0_5),
        ("D", Double.num d3_0)] "F" d1_5
      (by decide) (by decide) (by decide) (by decide)).1,
    by decide, by decide, by decide⟩

/-- C5 (the claim as written fails): in the pool of `limit = 2` that holds A:NaN
and B:1.0 the size is `limit`, the key of C is not in the index and 3.0 is above
the stored score 1.0, yet `update("C", 3.0)` evicts nothing: it returns false
and leaves the entries as they are (`begin()` is the NaN entry and `NaN < 3.0`
is false). -/
theorem eviction_nan :
    ((Fp.CandidateSet.create 2 2 true).bind
        (fun cs => cs.updates firstChar [("A", Double.nan), ("B", Double.num d1_0)])).map
      (fun cs => (cs.entries.length, cs.limit, Fp.mapFind (firstChar "C") cs.topologies,
        cs.entries.map (fun e => (e.2.tree, e.1))))
      = some (2, 2, none, [("A", Double.nan), ("B", Double.num d1_0)]) ∧
    ((Fp.CandidateSet.create 2 2 true).bind
        (fun cs => cs.updates firstChar [("A", Double.nan), ("B", Double.num d1_0)])).bind
      (fun cs => (cs.update firstChar "C" (Double.num d3_0)).map
        (fun r => (r.1, r.2.entries.map (fun e => (e.2.tree, e.1)))))
      = some (false, [("A", Double.nan), ("B", Double.num d1_0)]) ∧
    (Double.num d1_0).less (Double.num d3_0) = true := by
  decide

/-- C5: in a state that stores no NaN (the state `cs.toFp`, of ranks `cs`),
reached by `update` calls `fops` of any scores, with `size(entries) = limit ≥ 1`,
an `update` with a topology key that is not in the index and a score above the
minimum score `m` returns true and leaves the old entries minus the first one
(`worst`, of score `m`; among the entries of score `m` it is the one inserted
by the earliest `update` call) plus the new entry; the key of `worst` is no
longer in the index, the new key maps to `score`, all other index records are
unchanged, and the size is still `limit`.  The state after the call is
`cs'.toFp`.  The calls are numbered in `ts` along `ranksOf fops`, the calls
whose score is not NaN (the others store nothing). -/
theorem eviction_numbers (gt : String → String) (limit max_candidates : Int)
    (aln : Bool) (cs0 cs : CandidateSet) (fops : List (String × Double))
    (tree : String) (score m : Dbl)
    (hc : Fp.CandidateSet.create limit max_candidates aln = some cs0.toFp)
    (hu : cs0.toFp.updates gt fops = some cs.toFp)
    (h1 : 1 ≤ limit) (h2 : limit ≤ INT_MAX)
    (hsize : (cs.toFp.entries.length : Int) = limit)
    (hf : Fp.mapFind (gt tree) cs.toFp.topologies = none)
    (hmin : IsMinOf m (cs.entries.map Prod.fst)) (hlt : m < score) :
    ∃ (worst : Dbl × CandidateTree) (rest : List (Dbl × CandidateTree))
      (cs' : CandidateSet),
      cs.entries = worst :: rest ∧ worst.1 = m ∧
      cs.toFp.update gt tree (Double.num score) = some (true, cs'.toFp) ∧
      cs'.entries = mmInsert score ⟨tree, gt tree, score⟩ rest ∧
      cs'.entries.Perm ((score, ⟨tree, gt tree, score⟩) :: rest) ∧
      (∃ ts n restT, (TracedSet.ofPool cs0).updates gt (ranksOf fops) = some ts ∧
        ts.pool = cs ∧ ts.entries = (worst.1, (worst.2, n)) :: restT ∧
        ∀ e ∈ restT, e.1 = m → n < e.2.2) ∧
      Fp.mapFind worst.2.topology cs'.toFp.topologies = none ∧
      Fp.mapFind (gt tree) cs'.toFp.topologies = some (Double.num score) ∧
      (∀ k, k ≠ worst.2.topology → k ≠ gt tree →
        Fp.mapFind k cs'.toFp.topologies = Fp.mapFind k cs.toFp.topologies) ∧
      (cs'.toFp.entries.length : Int) = limit := by
  obtain ⟨hc', hu'⟩ := run_of_toFp_any hc hu
  rw [length_toFp] at hsize
  obtain ⟨worst, rest, cs', q1, q2, q3, q4, q5, q6, q7, q8, q9, q10⟩ :=
    eviction_at_capacity gt limit max_candidates aln cs0 cs (ranksOf fops) tree score m
      hc' hu' h1 h2 hsize (mapFind_toFp_none.1 hf) hmin hlt
  refine ⟨worst, rest, cs', q1, q2, update_some_toFp q3, q4, q5, q6,
    mapFind_toFp_none.2 q7, mapFind_toFp_some.2 ⟨score, rfl, q8⟩, ?_, ?_⟩
  · intro k hk1 hk2
    show Fp.mapFind k (cs'.topologies.map (fun r => (r.1, Double.num r.2)))
      = Fp.mapFind k (cs.topologies.map (fun r => (r.1, Double.num r.2)))
    rw [mapFind_toFp, mapFind_toFp, q9 k hk1 hk2]
  · rw [length_toFp]
    exact q10

/-- C5, the run of the specification: `limit = 3`, the updates A:1.0, B:2.0,
C:0.5, then D:3.0, which evicts C. -/
theorem eviction_numbers_witness :
    Fp.CandidateSet.create 3 2 true = some pool0.toFp ∧
    pool0.toFp.updates firstChar
        [("A", Double.num d1_0), ("B", Double.num d2_0), ("C", Double.num d0_5)]
      = some poolABC.toFp ∧
    poolABC.toFp.update firstChar "D" (Double.num d3_0) = some (true, poolABD.toFp) ∧
    Fp.mapFind "C" poolABD.toFp.topologies = none ∧
    ∃ (worst : Dbl × CandidateTree) (rest : List (Dbl × CandidateTree))
      (cs' : CandidateSet),
      poolABC.entries = worst :: rest ∧ worst.1 = d0_5 ∧
      poolABC.toFp.update firstChar "D" (Double.num d3_0) = some (true, cs'.toFp) ∧
      cs'.entries = mmInsert d3_0 ⟨"D", firstChar "D", d3_0⟩ rest ∧
      cs'.entries.Perm ((d3_0, ⟨"D", firstChar "D", d3_0⟩) :: rest) ∧
      (∃ ts n restT, (TracedSet.ofPool pool0).updates firstChar
          (ranksOf [("A", Double.num d1_0), ("B", Double.num d2_0),
            ("C", Double.num d0_5)]) = some ts ∧
        ts.pool = poolABC ∧ ts.entries = (worst.1, (worst.2, n)) :: restT ∧
        ∀ e ∈ restT, e.1 = d0_5 → n < e.2.2) ∧
      Fp.mapFind worst.2.topology cs'.toFp.topologies = none ∧
      Fp.mapFind (firstChar "D") cs'.toFp.topologies = some (Double.num d3_0) ∧
      (∀ k, k ≠ worst.2.topology → k ≠ firstChar "D" →
        Fp.mapFind k cs'.toFp.topologies = Fp.mapFind k poolABC.toFp.topologies) ∧
      (cs'.toFp.entries.length : Int) = 3 :=
  ⟨by decide, by decide, by decide, by decide,
    eviction_numbers firstChar 3 2 true pool0 poolABC
      [("A", Double.num d1_0), ("B", Double.num d2_0), ("C", Double.num d0_5)]
      "D" d3_0 d0_5
      (by decide) (by decide) (by decide) (by decide) (by decide) (by decide) (by decide)
      (by decide)⟩

/-- C7: an `update` is rejected, returning false and changing nothing but
`bestScore` (entries, their order and the topology index stay exactly as they
were), when (a) the topology key is in the index with a score above `score`, or
(b) the key is not in the index, `size(entries) = limit ≥ 1`, and `score` is at
most the minimum score in `entries`.  The state is any pool whose multimap is
sorted by key and whose `limit` is a C `int`. -/
theorem rejected_update_unchanged (gt : String → String) (cs : CandidateSet)
    (tree : String) (score : Dbl)
    (hs : cs.entries.Pairwise (fun a b => a.1 ≤ b.1)) (h2 : cs.limit ≤ INT_MAX)
    (hrej : (∃ old, mapFind (gt tree) cs.topologies = some old ∧ score < old) ∨
      (mapFind (gt tree) cs.topologies = none ∧ 1 ≤ cs.limit ∧
        (cs.entries.length : Int) = cs.limit ∧
        ∃ m, IsMinOf m (cs.entries.map Prod.fst) ∧ score ≤ m)) :
    ∃ cs', cs.update gt tree score = some (false, cs') ∧
      cs'.entries = cs.entries ∧ cs'.topologies = cs.topologies ∧
      cs' = { cs with bestScore := max cs.bestScore score } := by
  rcases hrej with ⟨old, hf, hlt⟩ | ⟨hf, h1, hlen, m, hmin, hle⟩
  · exact ⟨_, update_existing_lt hf hlt, rfl, rfl, rfl⟩
  · have hsz : ¬ sizeLessThan cs.entries.length cs.limit = true := by
      rw [sizeLessThan_iff (by omega) h2]
      omega
    have hne : cs.entries ≠ [] := by
      intro hnil
      rw [hnil] at hmin
      exact absurd hmin.1 (by simp)
    obtain ⟨worst, rest, hent⟩ := List.exists_cons_of_ne_nil hne
    have hm : m = worst.1 := (isMinOf_head hs hent m).1 hmin
    exact ⟨_, update_new_reject hf hsz hent (not_lt.2 (hm ▸ hle)), rfl, rfl, rfl⟩

/-- C7, the run of the specification: with entries {A:1.0, B:2.0, D:3.0} and
`limit = 3`, `update("E", 0.4)` is rejected. -/
theorem rejected_update_unchanged_witness :
    poolABD.update firstChar "E" d0_4 = some (false, poolABD) ∧
    ∃ cs', poolABD.update firstChar "E" d0_4 = some (false, cs') ∧
      cs'.entries = poolABD.entries ∧ cs'.topologies = poolABD.topologies ∧
      cs' = { poolABD with bestScore := max poolABD.bestScore d0_4 } :=
  ⟨by decide,
    rejected_update_unchanged firstChar poolABD "E" d0_4 (by decide) (by decide)
      (Or.inr ⟨by decide, by decide, by decide, d1_0, by decide, by decide⟩)⟩

/-- C9 (the claim as written fails): with `limit = 2` and the trees A:NaN, B:1.0,
C:3.0 of pairwise distinct topology keys, the pool ends with the scores NaN and
1.0 and has dropped 3.0, although 3.0 is above 1.0: the stored scores are not
the two largest submitted. -/
theorem pool_keeps_best_nan :
    ((Fp.CandidateSet.create 2 2 true).bind
        (fun cs => cs.updates firstChar
          [("A", Double.nan), ("B", Double.num d1_0), ("C", Double.num d3_0)])).map
      (fun cs => cs.entries.map Prod.fst) = some [Double.nan, Double.num d1_0] ∧
    ([("A", Double.nan), ("B", Double.num d1_0), ("C", Double.num d3_0)].map
      (fun op => firstChar op.1)).Nodup ∧
    (Double.num d1_0).less (Double.num d3_0) = true := by
  decide

/-- C9: for `limit ≥ 1` and `update` calls `fops` on the empty pool of which
those with a score that is not NaN (`ranksOf fops`, `n` calls) have trees of
pairwise distinct topology keys: when no score is NaN the calls all complete
and store no NaN; and whenever the calls end in a state that stores no NaN (the
state `cs.toFp`, of ranks `cs`), the scores stored, in ascending order, are the
`min n limit` largest of the `n` submitted scores that are not NaN: the last
`min n limit` elements of these scores sorted in ascending order (an equality
of lists, hence of multisets). -/
theorem pool_keeps_best_numbers (gt : String → String) (limit max_candidates : Int)
    (aln : Bool) (cs0 : CandidateSet) (fops : List (String × Double))
    (hc : Fp.CandidateSet.create limit max_candidates aln = some cs0.toFp)
    (h1 : 1 ≤ limit) (h2 : limit ≤ INT_MAX)
    (hnd : ((ranksOf fops).map (fun op => gt op.1)).Nodup) :
    ((∀ op ∈ fops, op.2 ≠ Double.nan) →
      ∃ cs : CandidateSet, cs0.toFp.updates gt fops = some cs.toFp) ∧
    ∀ cs : CandidateSet, cs0.toFp.updates gt fops = some cs.toFp →
      cs.toFp.entries.length = min (ranksOf fops).length limit.toNat ∧
      cs.toFp.entries.map Prod.fst
        = ((((ranksOf fops).map Prod.snd).insertionSort (fun a b => a ≤ b)).drop
            ((ranksOf fops).length - min (ranksOf fops).length limit.toNat)).map
            Double.num := by
  obtain ⟨cs1, hu1, hlen, hkeys⟩ :=
    pool_keeps_best gt limit max_candidates aln cs0 (ranksOf fops) (create_of_toFp hc)
      h1 h2 hnd
  constructor
  · intro hnum
    refine ⟨cs1, ?_⟩
    have h := updates_some_toFp hu1
    rw [numOps_ranksOf fops hnum] at h
    exact h
  · intro cs hu
    have hu' := (run_of_toFp_any hc hu).2
    rw [hu1] at hu'
    cases hu'
    refine ⟨?_, ?_⟩
    · rw [length_toFp]
      exact hlen
    · rw [← hkeys]
      show (cs1.entries.map (fun e => (Double.num e.1, e.2.toFp))).map Prod.fst = _
      rw [List.map_map, List.map_map]
      rfl

/-- C9, a run: `limit = 3` and five trees of distinct topologies; the pool keeps
the scores 1.0, 2.0 and 3.0. -/
theorem pool_keeps_best_numbers_witness :
    Fp.CandidateSet.create 3 2 true = some pool0.toFp ∧
    (1 : Int) ≤ 3 ∧ (3 : Int) ≤ INT_MAX ∧
    pool0.toFp.updates firstChar
        [("A", Double.num d1_0), ("B", Double.num d2_0), ("C", Double.num d0_5),
          ("D", Double.num d3_0), ("E", Double.num d0_4)]
      = some poolABD.toFp ∧
    poolABD.toFp.entries.map Prod.fst
      = [Double.num d1_0, Double.num d2_0, Double.num d3_0] ∧
    (((ranksOf [("A", Double.num d1_0), ("B", Double.num d2_0), ("C", Double.num d0_5),
          ("D", Double.num d3_0), ("E", Double.num d0_4)]).map
        Prod.snd).insertionSort (fun a b => a ≤ b)) = [d0_4, d0_5, d1_0, d2_0, d3_0] ∧
    poolABD.toFp.entries.length
      = min (ranksOf [("A", Double.num d1_0), ("B", Double.num d2_0),
          ("C", Double.num d0_5), ("D", Double.num d3_0),
          ("E", Double.num d0_4)]).length (3 : Int).toNat ∧
    poolABD.toFp.entries.map Prod.fst
      = ((((ranksOf [("A", Double.num d1_0), ("B", Double.num d2_0),
            ("C", Double.num d0_5), ("D", Double.num d3_0),
            ("E", Double.num d0_4)]).map Prod.snd).insertionSort
              (fun a b => a ≤ b)).drop
          ((ranksOf [("A", Double.num d1_0), ("B", Double.num d2_0),
              ("C", Double.num d0_5), ("D", Double.num d3_0),
              ("E", Double.num d0_4)]).length
            - min (ranksOf [("A", Double.num d1_0), ("B", Double.num d2_0),
                ("C", Double.num d0_5), ("D", Double.num d3_0),
                ("E", Double.num d0_4)]).length (3 : Int).toNat)).map Double.num :=
  ⟨by decide, by decide, by decide, by decide, by decide, by decide,
    (pool_keeps_best_numbers firstChar 3 2 true pool0
      [("A", Double.num d1_0), ("B", Double.num d2_0), ("C", Double.num d0_5),
        ("D", Double.num d3_0), ("E", Double.num d0_4)]
      (by decide) (by decide) (by decide) (by decide)).2 poolABD (by decide)⟩

/-- C10 (the claim as written fails): after `update("B", 1.0)` and
`update("A", NaN)` on a fresh pool of limit 3 the pool holds B:1.0 and A:NaN,
`rbegin()` is the NaN entry, `NaN == bestScore` is false and `getBestTree`
returns the empty list although B is stored with the score 1.0 = `bestScore`;
and after the single call `update("A", -inf)` the pool holds A, whose score is
the maximum present, yet `getBestTree` returns the empty list (`bestScore` is
still `-DBL_MAX`). -/
theorem getBestTree_nan :
    ((Fp.CandidateSet.create 3 2 true).bind
        (fun cs => cs.updates firstChar [("B", Double.num d1_0), ("A", Double.nan)])).map
      (fun cs => (cs.getBestTree, cs.entries.map (fun e => (e.2.tree, e.2.score)),
        cs.bestScore))
      = some ([], [("B", Double.num d1_0), ("A", Double.nan)], Double.num d1_0) ∧
    ((Fp.CandidateSet.create 3 2 true).bind
        (fun cs => cs.updates firstChar [("A", Double.num (-DBL_INF))])).map
      (fun cs => (cs.getBestTree, cs.entries.map (fun e => (e.2.tree, e.2.score)),
        cs.bestScore))
      = some ([], [("A", Double.num (-DBL_INF))], Double.num (-DBL_MAX)) ∧
    IsMaxOf (-DBL_INF) [-DBL_INF] ∧ Dbl.IsDouble (-DBL_INF) := by
  decide

/-- C10: `getBestTree` returns the empty list when the pool is empty, whatever
the pool `fs`.  In every state that stores no NaN (the state `cs.toFp`, of ranks
`cs`), reached from the empty pool by `update` calls `fops` of any scores, some
of which is a number not below `-DBL_MAX` (the scores passed are not all NaN or
minus infinity), it returns the tree texts of exactly the entries whose stored
score is the maximum score `m` present in `entries`, each once, in decreasing
order of the number of the `update` call that inserted the entry (most recently
inserted first; `ts` is the pool with these numbers, counted along
`ranksOf fops`, the calls whose score is not NaN). -/
theorem getBestTree_numbers (gt : String → String) (limit max_candidates : Int)
    (aln : Bool) (cs0 cs : CandidateSet) (fops : List (String × Double))
    (hc : Fp.CandidateSet.create limit max_candidates aln = some cs0.toFp)
    (hu : cs0.toFp.updates gt fops = some cs.toFp) :
    (∀ fs : Fp.CandidateSet, fs.entries = [] → fs.getBestTree = []) ∧
    ((∃ op ∈ ranksOf fops, -DBL_MAX ≤ op.2) →
      ∀ m, IsMaxOf m (cs.entries.map (fun e => e.2.score)) →
        cs.toFp.getBestTree
          = ((cs.entries.filter (fun e => e.2.score == m)).reverse).map
              (fun e => e.2.tree) ∧
        ∃ ts, (TracedSet.ofPool cs0).updates gt (ranksOf fops) = some ts ∧ ts.pool = cs ∧
          cs.toFp.getBestTree
            = ((ts.entries.filter (fun e => e.2.1.score == m)).reverse).map
                (fun e => e.2.1.tree) ∧
          ((ts.entries.filter (fun e => e.2.1.score == m)).reverse.map
            (fun e => e.2.2)).Pairwise (fun a b => b < a)) := by
  obtain ⟨hc', hu'⟩ := run_of_toFp_any hc hu
  obtain ⟨_, q2⟩ :=
    getBestTree_correct gt limit max_candidates aln cs0 cs (ranksOf fops) hc' hu'
  rw [getBestTree_toFp]
  refine ⟨?_, q2⟩
  intro fs hnil
  simp [Fp.CandidateSet.getBestTree, hnil]

/-- C10, a run with ties: after A:1.0, B:1.0, C:1.0 and A2:1.0 (which replaces
A) the three entries share the maximum score and `getBestTree` lists them most
recently inserted first; the call D:NaN in between is rejected. -/
theorem getBestTree_numbers_witness :
    Fp.CandidateSet.create 3 2 true = some pool0.toFp ∧
    pool0.toFp.updates firstChar
        [("A", Double.num d1_0), ("B", Double.num d1_0), ("C", Double.num d1_0),
          ("D", Double.nan), ("A2", Double.num d1_0)] = some poolTies.toFp ∧
    IsMaxOf d1_0 (poolTies.entries.map (fun e => e.2.score)) ∧
    poolTies.toFp.getBestTree = ["A2", "C", "B"] ∧
    ((TracedSet.ofPool pool0).updates firstChar
        (ranksOf [("A", Double.num d1_0), ("B", Double.num d1_0), ("C", Double.num d1_0),
          ("D", Double.nan), ("A2", Double.num d1_0)])).map
      (fun ts => ts.entries.map (fun e => (e.2.1.tree, e.2.2)))
      = some [("B", 1), ("C", 2), ("A2", 3)] ∧
    poolTies.toFp.getBestTree
      = ((poolTies.entries.filter (fun e => e.2.score == d1_0)).reverse).map
          (fun e => e.2.tree) :=
  ⟨by decide, by decide, by decide, by decide, by decide,
    ((getBestTree_numbers firstChar 3 2 true pool0 poolTies
      [("A", Double.num d1_0), ("B", Double.num d1_0), ("C", Double.num d1_0),
        ("D", Double.nan), ("A2", Double.num d1_0)]
      (by decide) (by decide)).2 ⟨("A", d1_0), by decide, by decide⟩ d1_0 (by decide)).1⟩

/-- C11 (the claim as written fails): after A:NaN, B:1.0 and C:3.0 on a fresh
pool of limit 2 the pool holds the scores NaN and 1.0 and `bestScore` is 3.0,
the score of no stored entry (C was rejected: `begin()` is the NaN entry); and
after the single call `update("A", -inf)` the pool is not empty, the maximum
score present is minus infinity and `bestScore` is `-DBL_MAX`. -/
theorem best_never_lost_nan :
    ((Fp.CandidateSet.create 2 2 true).bind
        (fun cs => cs.updates firstChar
          [("A", Double.nan), ("B", Double.num d1_0), ("C", Double.num d3_0)])).map
      (fun cs => (cs.entries.map (fun e => e.2.score), cs.bestScore))
      = some ([Double.nan, Double.num d1_0], Double.num d3_0) ∧
    ((Fp.CandidateSet.create 3 2 true).bind
        (fun cs => cs.updates firstChar [("A", Double.num (-DBL_INF))])).map
      (fun cs => (cs.entries.map (fun e => e.2.score), cs.bestScore))
      = some ([Double.num (-DBL_INF)], Double.num (-DBL_MAX)) ∧
    IsMaxOf (-DBL_INF) [-DBL_INF] ∧ -DBL_INF ≠ -DBL_MAX ∧ Dbl.IsDouble (-DBL_INF) := by
  decide

/-- C11: in every state that stores no NaN (the state `cs.toFp`, of ranks
`cs`), reached from the empty pool by `update` calls `fops` of any scores, some
of which is a number not below `-DBL_MAX` (the scores passed are not all NaN or
minus infinity), the pool is not empty, `bestScore` is the maximum score present
in `entries`, and it is the maximum of the scores passed to `update` that are
not NaN (`ranksOf fops`): the highest score ever passed is the score of a stored
entry. -/
theorem best_never_lost_numbers (gt : String → String) (limit max_candidates : Int)
    (aln : Bool) (cs0 cs : CandidateSet) (fops : List (String × Double))
    (hc : Fp.CandidateSet.create limit max_candidates aln = some cs0.toFp)
    (hu : cs0.toFp.updates gt fops = some cs.toFp)
    (hge : ∃ op ∈ ranksOf fops, -DBL_MAX ≤ op.2) :
    cs.toFp.entries ≠ [] ∧
    cs.toFp.bestScore = Double.num cs.bestScore ∧
    IsMaxOf cs.bestScore (cs.entries.map (fun e => e.2.score)) ∧
    IsMaxOf cs.bestScore ((ranksOf fops).map Prod.snd) ∧
    ∃ e ∈ cs.entries, (Double.num e.1, e.2.toFp) ∈ cs.toFp.entries ∧
      e.2.toFp.score = cs.toFp.bestScore ∧
      IsMaxOf e.2.score ((ranksOf fops).map Prod.snd) := by
  obtain ⟨hc', hu'⟩ := run_of_toFp_any hc hu
  obtain ⟨q0, q1, q2, e, he, hes, hemax⟩ :=
    best_never_lost gt limit max_candidates aln cs0 cs (ranksOf fops) hc' hu' hge
  refine ⟨?_, rfl, q1, q2, e, he, ?_, ?_, hemax⟩
  · intro hnil
    have hl := length_toFp cs
    rw [hnil] at hl
    exact q0 (List.length_eq_zero.1 hl.symm)
  · exact List.mem_map_of_mem (fun e : Dbl × CandidateTree => (Double.num e.1, e.2.toFp)) he
  · show Double.num e.2.score = Double.num cs.bestScore
    rw [hes]

/-- C11, a run: after A:-inf, B:2.0, C:0.5, D:3.0 (which evicts A), the
rejected E:0.4 and the rejected F:NaN, the best score 3.0 is the score of the
stored entry D. -/
theorem best_never_lost_numbers_witness :
    Fp.CandidateSet.create 3 2 true = some pool0.toFp ∧
    pool0.toFp.updates firstChar
        [("A", Double.num (-DBL_INF)), ("B", Double.num d2_0), ("C", Double.num d0_5),
          ("D", Double.num d3_0), ("E", Double.num d0_4), ("F", Double.nan)]
      = some poolBCD.toFp ∧
    poolBCD.toFp.bestScore = Double.num d3_0 ∧
    IsMaxOf poolBCD.bestScore (poolBCD.entries.map (fun e => e.2.score)) :=
  ⟨by decide, by decide, by decide,
    (best_never_lost_numbers firstChar 3 2 true pool0 poolBCD
      [("A", Double.num (-DBL_INF)), ("B", Double.num d2_0), ("C", Double.num d0_5),
        ("D", Double.num d3_0), ("E", Double.num d0_4), ("F", Double.nan)]
      (by decide) (by decide) ⟨("B", d2_0), by decide, by decide⟩).2.2.1⟩

/-- C13 (the claim as written fails): on the pool that holds A:1.0 and B:NaN
(inserted in this order) `getBestScores(2)` is `[NaN, 1.0]`, and on the pool that
holds B:NaN and A:1.0 (inserted in this order) it is `[1.0, NaN]`; neither list
is in non-increasing order, `1.0 <= NaN` and `NaN <= 1.0` being false. -/
theorem getBestScores_nan :
    ((Fp.CandidateSet.create 3 2 true).bind
        (fun cs => cs.updates firstChar [("A", Double.num d1_0), ("B", Double.nan)])).map
      (fun cs => cs.getBestScores 2) = some [Double.nan, Double.num d1_0] ∧
    ((Fp.CandidateSet.create 3 2 true).bind
        (fun cs => cs.updates firstChar [("B", Double.nan), ("A", Double.num d1_0)])).map
      (fun cs => cs.getBestScores 2) = some [Double.num d1_0, Double.nan] ∧
    (Double.num d1_0).lessEq Double.nan = false ∧
    Double.nan.lessEq (Double.num d1_0) = false := by
  decide

/-- C13: for `numBest ≥ 0`, on a pool `fs`, whatever its scores,
`getBestScores(numBest)` returns the keys of the first `numBest` entries of the
multimap walked from `rbegin()`, a list of length `min(numBest, size)`.  When
`fs` stores no NaN (`fs` is `cs.toFp`, of ranks `cs`), its multimap is sorted by
key and its keys are the stored scores, the list returned is made of numbers,
in non-increasing order, which with the list `rest` of the other stored scores
make up the stored scores, no score of `rest` exceeding a returned one (the
returned scores are the largest stored). -/
theorem getBestScores_numbers (fs : Fp.CandidateSet) (numBest : Int) (h0 : 0 ≤ numBest) :
    fs.getBestScores numBest = (fs.entries.reverse.take numBest.toNat).map Prod.fst ∧
    ((fs.getBestScores numBest).length : Int) = min numBest (fs.entries.length : Int) ∧
    (∀ cs : CandidateSet, fs = cs.toFp →
      cs.entries.Pairwise (fun a b => a.1 ≤ b.1) →
      (∀ e ∈ cs.entries, e.1 = e.2.score) →
      fs.getBestScores numBest
        = (fs.entries.reverse.take numBest.toNat).map (fun e => e.2.score) ∧
      ∃ scores : List Dbl, fs.getBestScores numBest = scores.map Double.num ∧
        scores.Pairwise (fun a b => b ≤ a) ∧
        ∃ rest : List Dbl,
          (scores ++ rest).Perm (cs.entries.map (fun e => e.2.score)) ∧
          ∀ r ∈ rest, ∀ x ∈ scores, r ≤ x) := by
  have hget := fp_getBestScores_eq fs numBest
  refine ⟨hget, ?_, ?_⟩
  · rw [hget, List.length_map, List.length_take, List.length_reverse]
    omega
  · intro cs hfs hs hk
    subst hfs
    obtain ⟨q1, _, q3, q4⟩ := getBestScores_correct cs numBest hs hk h0
    have hnum := getBestScores_toFp cs numBest
    refine ⟨?_, cs.getBestScores numBest, hnum, q3, q4⟩
    rw [hnum, q1, reversed_toFp, ← List.map_take, List.map_map, List.map_map]
    rfl

/-- C13, a run: on the entries {A:1.0, B:2.0, D:3.0}, `getBestScores(2)` is
`[3.0, 2.0]`. -/
theorem getBestScores_numbers_witness :
    (0 : Int) ≤ 2 ∧
    poolABD.toFp.getBestScores 2 = [Double.num d3_0, Double.num d2_0] ∧
    ((poolABD.toFp.getBestScores 2).length : Int)
      = min 2 (poolABD.toFp.entries.length : Int) ∧
    poolABD.toFp.getBestScores 2
      = (poolABD.toFp.entries.reverse.take (2 : Int).toNat).map (fun e => e.2.score) :=
  ⟨by decide, by decide,
    (getBestScores_numbers poolABD.toFp 2 (by decide)).2.1,
    ((getBestScores_numbers poolABD.toFp 2 (by decide)).2.2 poolABD rfl
      (by decide) (by decide)).1⟩

/-- C14 (the claim as written fails): after `update("A", 1.0)` and
`update("B", NaN)` on a fresh pool of limit 3, `rbegin()` is the NaN entry B,
and for the index 0 `getRandCandTree` returns B, which does not have the highest
score (A has 1.0 and `1.0 < NaN` is false). -/
theorem getRandCandTree_nan :
    ((Fp.CandidateSet.create 3 2 true).bind
        (fun cs => cs.updates firstChar [("A", Double.num d1_0), ("B", Double.nan)])).map
      (fun cs => (cs.getRandCandTree (fun _ => 0),
        cs.entries.map (fun e => (e.2.tree, e.2.score))))
      = some ("B", [("A", Double.num d1_0), ("B", Double.nan)]) ∧
    (Double.num d1_0).less Double.nan = false := by
  decide

/-- C14: `getRandCandTree` returns the empty string on an empty pool.  On a
non-empty pool with `max_candidates ≥ 1`, whatever the scores, when the call of
the random source returns `k` with `0 ≤ k < min(max_candidates, size)`, the
result is the tree text of the entry `e` at index `k` of the multimap walked
from `rbegin()`, one of its first `min(max_candidates, size)` entries; the index
returned is `k` itself, so every one of these indices is returned for exactly
one value of `k`.  In a state that stores no NaN, reached by `update` calls
`fops` of any scores (the state has the ranks `cs`), this index is the rank from
the best end: the entries walked from `rbegin()` are in decreasing order of
score and, among equal scores, of the number of the `update` call that inserted
the entry (counted along `ranksOf fops`, the calls whose score is not NaN). -/
theorem getRandCandTree_numbers (gt : String → String) (fs : Fp.CandidateSet)
    (random_int : Int → Int) :
    (fs.entries = [] → fs.getRandCandTree random_int = "") ∧
    (fs.entries ≠ [] → 1 ≤ fs.max_candidates →
      ∀ k : Int, random_int (min fs.max_candidates (castInt fs.entries.length)) = k →
        0 ≤ k → k < min fs.max_candidates (fs.entries.length : Int) →
        ∃ e, fs.entries.reverse[k.toNat]? = some e ∧
          fs.getRandCandTree random_int = e.2.tree ∧
          e ∈ fs.entries.reverse.take
            (min fs.max_candidates (fs.entries.length : Int)).toNat) ∧
    (∀ (limit max_candidates : Int) (aln : Bool) (cs0 cs : CandidateSet)
        (fops : List (String × Double)),
      Fp.CandidateSet.create limit max_candidates aln = some cs0.toFp →
      cs0.toFp.updates gt fops = some cs.toFp → fs = cs.toFp →
      fs.entries.reverse = cs.entries.reverse.map (fun e => (Double.num e.1, e.2.toFp)) ∧
      cs.entries.reverse.Pairwise (fun a b => b.1 ≤ a.1) ∧
      ∃ ts, (TracedSet.ofPool cs0).updates gt (ranksOf fops) = some ts ∧ ts.pool = cs ∧
        cs.entries.reverse = ts.entries.reverse.map (fun e => (e.1, e.2.1)) ∧
        ts.entries.reverse.Pairwise (fun a b => StampLt b a)) := by
  refine ⟨?_, ?_, ?_⟩
  · intro hnil
    simp [Fp.CandidateSet.getRandCandTree, hnil]
  · intro hne hmc k hk h0 hlt
    have hidx : k.toNat < fs.entries.reverse.length := by
      rw [List.length_reverse]
      omega
    have hget : fs.entries.reverse[k.toNat]? = some (fs.entries.reverse[k.toNat]) :=
      List.getElem?_eq_getElem hidx
    refine ⟨fs.entries.reverse[k.toNat], hget, ?_, ?_⟩
    · unfold Fp.CandidateSet.getRandCandTree
      rw [isEmpty_eq_false_of_ne hne, hk]
      exact fp_pickRank_eq _ k _ h0 hget
    · rw [List.mem_iff_getElem?]
      refine ⟨k.toNat, ?_⟩
      rw [List.getElem?_take_of_lt (by omega)]
      exact hget
  · intro limit max_candidates aln cs0 cs fops hc hu hfs
    obtain ⟨hc', hu'⟩ := run_of_toFp_any hc hu
    obtain ⟨hinv, _, _⟩ := reached_inv hc' hu'
    refine ⟨?_, ranked_sorted hinv.sorted, traced_ranked hc' hu'⟩
    rw [hfs]
    exact reversed_toFp cs

/-- C14, a run: on the entries {A:1.0, B:2.0, D:3.0} with `max_candidates = 2`,
the random values 0 and 1 select D and B. -/
theorem getRandCandTree_numbers_witness :
    poolABD.toFp.getRandCandTree (fun _ => 0) = "D" ∧
    poolABD.toFp.getRandCandTree (fun _ => 1) = "B" ∧
    pool0.toFp.getRandCandTree (fun _ => 0) = "" ∧
    ∃ e, poolABD.toFp.entries.reverse[(1 : Int).toNat]? = some e ∧
      poolABD.toFp.getRandCandTree (fun _ => 1) = e.2.tree ∧
      e ∈ poolABD.toFp.entries.reverse.take
        (min poolABD.toFp.max_candidates (poolABD.toFp.entries.length : Int)).toNat :=
  ⟨by decide, by decide, by decide,
    (getRandCandTree_numbers firstChar poolABD.toFp (fun _ => 1)).2.1
      (by decide) (by decide) 1 rfl (by decide) (by decide)⟩

/-- C17 (the code at the failing input): a pool constructed with `limit = 3` and
`max_candidates = 0` that holds the tree A is not empty, yet `getNextCandTree`
fails on it: `initParentTrees` pushes nothing and `parentTrees.top()` is
evaluated on the empty stack. -/
theorem getNextCandTree_zero_max_candidates :
    ((CandidateSet.create 3 0 true).bind
        (fun cs => cs.updates firstChar [("A", d1_0)])).map
      (fun cs => (cs.entries.map (fun e => e.2.tree), cs.initParentTrees.parentTrees,
        cs.getNextCandTree))
      = some (["A"], [], none) := by
  decide

/-- C18 (the code at the failing input): in the pool that holds the one tree
A:1.0, `replaceTree("A2", 1.5)` (A2 has the topology of A) returns true and
leaves no entry at all, while the index maps the key to 1.5: the entry of the
key is the first one visited from `rbegin()`, it is erased and nothing is
inserted.  In the pool {A:1.0, B:2.0, D:3.0} of limit 3 the same call keeps the
old entry A:1.0 and adds A2:1.5: four entries, two of them with the key of A. -/
theorem replaceTree_not_one_for_one :
    CandidateSet.create 3 2 true = some pool0 ∧
    pool0.updates firstChar [("A", d1_0)] = some poolA ∧
    poolA.replaceTree firstChar "A2" d1_5
      = some (true, ⟨[], 3, 2, d1_0, [("A", d1_5)], [], true⟩) ∧
    pool0.updates firstChar [("A", d1_0), ("B", d2_0), ("C", d0_5), ("D", d3_0)]
      = some poolABD ∧
    poolABD.replaceTree firstChar "A2" d1_5
      = some (true,
          ⟨[(d1_0, ⟨"A", "A", d1_0⟩), (d1_5, ⟨"A2", "A", d1_5⟩), (d2_0, ⟨"B", "B", d2_0⟩),
            (d3_0, ⟨"D", "D", d3_0⟩)],
            3, 2, d3_0, [("A", d1_5), ("B", d2_0), ("D", d3_0)], [], true⟩) := by
  decide

/-- C20 (the code at the failing input): the constructor accepts `limit = 0`
with `max_candidates = 0`, and the first `update` on that pool is undefined:
`size() < limit` is false and `begin()->first` is evaluated on the empty
multimap. -/
theorem update_undefined_zero_limit :
    CandidateSet.create 0 0 true = some ⟨[], 0, 0, -DBL_MAX, [], [], true⟩ ∧
    (⟨[], 0, 0, -DBL_MAX, [], [], true⟩ : CandidateSet).update firstChar "A" d1_0 = none ∧
    ((CandidateSet.create 0 0 true).bind
      (fun cs => cs.updates firstChar [("A", d1_0)])) = none := by
  decide

/-- C21 (the claim as written fails): the constructor sets `bestScore` to
`-DBL_MAX`, the lowest finite `double`; minus infinity is a `double` below it,
so `bestScore` is not the lowest representable score. -/
theorem create_bestScore_not_lowest :
    CandidateSet.create 3 2 true = some pool0 ∧
    Dbl.IsDouble (-DBL_INF) ∧ -DBL_INF < pool0.bestScore := by
  decide

/-- C21: `CandidateSet(limit, max_candidates, aln)` fails (one of its two
assertions) if and only if `max_candidates > limit` or `aln` is null; otherwise
it yields the pool with the given `limit` and `max_candidates`, no entries, an
empty topology index, an empty stack of parent trees and `bestScore = -DBL_MAX`,
which is a finite `double` and is below no finite `double`. -/
theorem construction_precondition (limit max_candidates : Int) (aln : Bool) :
    (CandidateSet.create limit max_candidates aln = none ↔
      (max_candidates > limit ∨ aln = false)) ∧
    (¬ (max_candidates > limit ∨ aln = false) →
      CandidateSet.create limit max_candidates aln
        = some ⟨[], limit, max_candidates, -DBL_MAX, [], [], true⟩) ∧
    (∀ cs, CandidateSet.create limit max_candidates aln = some cs →
      cs.limit = limit ∧ cs.max_candidates = max_candidates ∧ cs.entries = [] ∧
      cs.topologies = [] ∧ cs.parentTrees = [] ∧ cs.bestScore = -DBL_MAX ∧
      Dbl.IsFinite cs.bestScore ∧ ∀ x : Dbl, Dbl.IsFinite x → cs.bestScore ≤ x) := by
  refine ⟨?_, ?_, ?_⟩
  · unfold CandidateSet.create
    cases aln <;> by_cases h : max_candidates ≤ limit <;> simp [h]
    omega
  · intro h
    unfold CandidateSet.create
    cases aln
    · simp at h
    · have : max_candidates ≤ limit := by
        by_contra hc
        exact h (Or.inl (by omega))
      simp [this]
  · intro cs h
    have := create_eq h
    subst this
    refine ⟨rfl, rfl, rfl, rfl, rfl, rfl, ?_, finite_ge_lowest⟩
    show Dbl.IsFinite (-DBL_MAX)
    decide

/-- C22 (the claim as written fails): for `n = 0` on the pool {A:1.0, B:2.0}
with `max_candidates = 2`, `getBestTrees(0)` walks `max_candidates` entries and
returns two texts, while `getBestScores(0)` returns no score. -/
theorem getBestScores_zero_mismatch :
    (0 : Int) ≤ 0 ∧ (0 : Int) ≤ poolAB.limit ∧
    poolAB.getBestTrees 0 = some ["B", "A"] ∧ poolAB.getBestScores 0 = [] := by
  decide

/-- C22: for every pool state and every `n ≠ 0` with `n ≤ limit` (so for
`1 ≤ n ≤ limit`), `getBestTrees(n)` and `getBestScores(n)` walk the same
entries, the first `n` of the multimap from `rbegin()`: the tree texts returned
are those of the walked entries and the scores returned are the keys under which
the walked entries are stored, in the same order, so the two results have the
same length and pair up entry by entry; where every key is the score of its
entry (as after `update` calls), the scores returned are the `score` members of
the walked entries. -/
theorem getBestScores_same_walk (cs : CandidateSet) (n : Int) (h1 : n ≠ 0)
    (h2 : n ≤ cs.limit) :
    ∃ trees, cs.getBestTrees n = some trees ∧
      trees = (cs.entries.reverse.take n.toNat).map (fun e => e.2.tree) ∧
      cs.getBestScores n = (cs.entries.reverse.take n.toNat).map Prod.fst ∧
      (cs.getBestScores n).length = trees.length ∧
      (cs.getBestScores n).zip trees
        = (cs.entries.reverse.take n.toNat).map (fun e => (e.1, e.2.tree)) ∧
      ((∀ e ∈ cs.entries, e.1 = e.2.score) →
        cs.getBestScores n = (cs.entries.reverse.take n.toNat).map (fun e => e.2.score)) := by
  have hs : cs.getBestScores n = (cs.entries.reverse.take n.toNat).map Prod.fst := by
    unfold CandidateSet.getBestScores
    rw [walkBest_eq_take]
  refine ⟨_, ?_, rfl, hs, ?_, ?_, ?_⟩
  · unfold CandidateSet.getBestTrees
    rw [if_pos h2]
    show some ((walkBest (if n = 0 then cs.max_candidates else n) cs.entries.reverse).map
      (fun e => e.2.tree)) = _
    rw [if_neg h1, walkBest_eq_take]
  · rw [hs, List.length_map, List.length_map]
  · rw [hs]
    generalize cs.entries.reverse.take n.toNat = l
    induction l with
    | nil => rfl
    | cons a as ih => simp [ih]
  · intro hk
    rw [hs]
    refine List.map_congr_left (fun e he => ?_)
    exact hk e (List.mem_reverse.1 (List.mem_of_mem_take he))

/-- C22, a run: on the entries {A:1.0, B:2.0, D:3.0}, `getBestTrees(2)` is
`["D", "B"]` and `getBestScores(2)` is `[3.0, 2.0]`. -/
theorem getBestScores_same_walk_witness :
    (2 : Int) ≠ 0 ∧ (2 : Int) ≤ poolABD.limit ∧
    poolABD.getBestTrees 2 = some ["D", "B"] ∧ poolABD.getBestScores 2 = [d3_0, d2_0] ∧
    ∃ trees, poolABD.getBestTrees 2 = some trees ∧
      trees = (poolABD.entries.reverse.take (2 : Int).toNat).map (fun e => e.2.tree) ∧
      poolABD.getBestScores 2 = (poolABD.entries.reverse.take (2 : Int).toNat).map Prod.fst ∧
      (poolABD.getBestScores 2).length = trees.length ∧
      (poolABD.getBestScores 2).zip trees
        = (poolABD.entries.reverse.take (2 : Int).toNat).map (fun e => (e.1, e.2.tree)) ∧
      ((∀ e ∈ poolABD.entries, e.1 = e.2.score) →
        poolABD.getBestScores 2
          = (poolABD.entries.reverse.take (2 : Int).toNat).map (fun e => e.2.score)) :=
  ⟨by decide, by decide, by decide, by decide,
    getBestScores_same_walk poolABD 2 (by decide) (by decide)⟩

/-- C23 (the claim as written fails): after `update("A", NaN)` and
`update("A2", 1.0)` (one topology) the index and the entry keep NaN and the text
A, since `NaN <= 1.0` is false; after `update("A", 1.0)` and `update("A2", NaN)`
they keep 1.0 and the text A, since `1.0 <= NaN` is false.  Whatever the rank
given to NaN, in one of the two runs the stored variant is not the maximum of
the scores submitted for the key. -/
theorem better_variant_nan :
    ((Fp.CandidateSet.create 3 2 true).bind
        (fun cs => cs.updates firstChar [("A", Double.nan), ("A2", Double.num d1_0)])).map
      (fun cs => (cs.topologies, cs.entries.map (fun e => (e.2.tree, e.2.score))))
      = some ([("A", Double.nan)], [("A", Double.nan)]) ∧
    ((Fp.CandidateSet.create 3 2 true).bind
        (fun cs => cs.updates firstChar [("A", Double.num d1_0), ("A2", Double.nan)])).map
      (fun cs => (cs.topologies, cs.entries.map (fun e => (e.2.tree, e.2.score))))
      = some ([("A", Double.num d1_0)], [("A", Double.num d1_0)]) ∧
    firstChar "A2" = firstChar "A" := by
  decide

/-- C23: on a pool constructed with `1 ≤ limit`, every sequence `fops` of
`update` calls none of whose scores is NaN completes and stores no NaN; and
whenever a sequence `fops` of `update` calls, of any scores, ends in a state
that stores no NaN (the state `cs.toFp`, of ranks `cs`), then for every topology
key `k` of the index the stored score is a number `v`; `v` is the maximum of the
scores that are not NaN submitted with a tree of key `k` (all of them, also
those made before `k` was evicted or rejected; `ranksOf fops` are the calls
whose score is not NaN); exactly one entry `e` has the key `k`, it is stored
under `v` with `score = v`, and its tree text is that of a submission
`(e.tree, v)` of key `k` after which every submission of `k` has a score
strictly below `v` (the latest submission attaining the maximum). -/
theorem better_variant_numbers (gt : String → String) (limit max_candidates : Int)
    (aln : Bool) (cs0 : CandidateSet) (fops : List (String × Double))
    (hc : Fp.CandidateSet.create limit max_candidates aln = some cs0.toFp)
    (h1 : 1 ≤ limit) (h2 : limit ≤ INT_MAX) :
    ((∀ op ∈ fops, op.2 ≠ Double.nan) →
      ∃ cs : CandidateSet, cs0.toFp.updates gt fops = some cs.toFp) ∧
    ∀ cs : CandidateSet, cs0.toFp.updates gt fops = some cs.toFp →
      ∀ k x, Fp.mapFind k cs.toFp.topologies = some x →
        ∃ v, x = Double.num v ∧
          IsMaxOf v (((ranksOf fops).filter (fun c => gt c.1 == k)).map Prod.snd) ∧
          ∃ e, cs.entries.filter (fun x => x.2.topology == k) = [e] ∧
            cs.toFp.entries.filter (fun x => x.2.topology == k)
              = [(Double.num e.1, e.2.toFp)] ∧
            e.1 = v ∧ e.2.score = v ∧
            ∃ pre post, ranksOf fops = pre ++ (e.2.tree, v) :: post ∧ gt e.2.tree = k ∧
              ∀ c ∈ post, gt c.1 = k → c.2 < v := by
  obtain ⟨cs1, hu1, hall⟩ :=
    better_variant_kept gt limit max_candidates aln cs0 (ranksOf fops)
      (create_of_toFp hc) h1 h2
  constructor
  · intro hnum
    refine ⟨cs1, ?_⟩
    have h := updates_some_toFp hu1
    rw [numOps_ranksOf fops hnum] at h
    exact h
  · intro cs hu k x hx
    have hu' := (run_of_toFp_any hc hu).2
    rw [hu1] at hu'
    cases hu'
    obtain ⟨v, hxv, hv⟩ := mapFind_toFp_some.1 hx
    obtain ⟨hmax, e, hfil, he1, he2, hsub⟩ := hall k v hv
    refine ⟨v, hxv, hmax, e, hfil, ?_, he1, he2, hsub⟩
    show (cs1.entries.map (fun e => (Double.num e.1, e.2.toFp))).filter
      (fun x => x.2.topology == k) = _
    rw [List.filter_map]
    have hcomp : ((fun x : Double × Fp.CandidateTree => x.2.topology == k) ∘
        (fun e : Dbl × CandidateTree => (Double.num e.1, e.2.toFp)))
        = (fun x : Dbl × CandidateTree => x.2.topology == k) := rfl
    rw [hcomp, hfil]
    rfl

/-- C23, a run: `limit = 1`; A:1.0 is stored, B:2.0 evicts it, A2:3.0 (the
topology of A again) evicts B, A3:NaN and B2:1.5 are rejected.  The index holds
the key of A with 3.0, the maximum of the scores 1.0 and 3.0 submitted for it
that are not NaN. -/
theorem better_variant_numbers_witness :
    Fp.CandidateSet.create 1 1 true
      = some (⟨[], 1, 1, -DBL_MAX, [], [], true⟩ : CandidateSet).toFp ∧
    (1 : Int) ≤ 1 ∧ (1 : Int) ≤ INT_MAX ∧
    (⟨[], 1, 1, -DBL_MAX, [], [], true⟩ : CandidateSet).toFp.updates firstChar
        [("A", Double.num d1_0), ("B", Double.num d2_0), ("A2", Double.num d3_0),
          ("A3", Double.nan), ("B2", Double.num d1_5)]
      = some (⟨[(d3_0, ⟨"A2", "A", d3_0⟩)], 1, 1, d3_0, [("A", d3_0)], [], true⟩ :
          CandidateSet).toFp ∧
    ∀ k x, Fp.mapFind k (⟨[(d3_0, ⟨"A2", "A", d3_0⟩)], 1, 1, d3_0, [("A", d3_0)], [],
        true⟩ : CandidateSet).toFp.topologies = some x →
      ∃ v, x = Double.num v ∧
        IsMaxOf v (((ranksOf [("A", Double.num d1_0), ("B", Double.num d2_0),
            ("A2", Double.num d3_0), ("A3", Double.nan),
            ("B2", Double.num d1_5)]).filter
          (fun c => firstChar c.1 == k)).map Prod.snd) ∧
        ∃ e, (⟨[(d3_0, ⟨"A2", "A", d3_0⟩)], 1, 1, d3_0, [("A", d3_0)], [], true⟩ :
              CandidateSet).entries.filter (fun x => x.2.topology == k) = [e] ∧
          (⟨[(d3_0, ⟨"A2", "A", d3_0⟩)], 1, 1, d3_0, [("A", d3_0)], [], true⟩ :
              CandidateSet).toFp.entries.filter (fun x => x.2.topology == k)
            = [(Double.num e.1, e.2.toFp)] ∧
          e.1 = v ∧ e.2.score = v ∧
          ∃ pre post, ranksOf [("A", Double.num d1_0), ("B", Double.num d2_0),
              ("A2", Double.num d3_0), ("A3", Double.nan), ("B2", Double.num d1_5)]
              = pre ++ (e.2.tree, v) :: post ∧ firstChar e.2.tree = k ∧
            ∀ c ∈ post, firstChar c.1 = k → c.2 < v :=
  ⟨by decide, by decide, by decide, by decide,
    (better_variant_numbers firstChar 1 1 true ⟨[], 1, 1, -DBL_MAX, [], [], true⟩
      [("A", Double.num d1_0), ("B", Double.num d2_0), ("A2", Double.num d3_0),
        ("A3", Double.nan), ("B2", Double.num d1_5)]
      (by decide) (by decide) (by decide)).2
      ⟨[(d3_0, ⟨"A2", "A", d3_0⟩)], 1, 1, d3_0, [("A", d3_0)], [], true⟩ (by decide)⟩

/-- C26 (the claim as written fails): for `N = 131072` the state 65539 is valid
and decomposes to `(65536, 0, 1)`, and the divisor `k*(N-k)` of
`computeStateFreq` is `65536 * 65536 = 2 ^ 32`, which overflows `int` (and is 0
when reduced to 32 bits); for `N = 400000000` the valid state 2147483000 makes
the condition `state < 4+6*(N-1)` overflow. -/
theorem stateFreqDivisor_overflow :
    (0 : Int) ≤ 65539 ∧ (65539 : Int) < 4 + 6 * (131072 - 1) ∧
    ModelPoMo.decomposeState 131072 65539 = some (.ok (65536, 0, 1)) ∧
    ModelPoMo.stateFreqDivisor 131072 65536 = none ∧
    (65536 * (131072 - 65536) : Int) % 2 ^ 32 = 0 ∧
    (2147483000 : Int) < 4 + 6 * (400000000 - 1) ∧
    ModelPoMo.decomposeState 400000000 2147483000 = none := by
  decide

/-- C26: for `2 ≤ N ≤ 92681` and `0 ≤ state < 4 + 6*(N-1)`, `decomposeState`
returns a triple `(i, nt1, nt2)` without reaching `outError` or an overflow; for
`state < 4` (a fixed state) it is `(N, state, -1)`; for `state ≥ 4` it has
`1 ≤ i ≤ N-1` and `0 ≤ nt1 < nt2 ≤ 3`, and the divisor `i*(N-i)` of
`computeStateFreq` is computed without overflow and is not zero; and no other
valid state decomposes to the same triple. -/
theorem decomposeState_valid (N state : Int) (hN : 2 ≤ N) (hb : N ≤ 92681)
    (h0 : 0 ≤ state) (h1 : state < 4 + 6 * (N - 1)) :
    ∃ i nt1 nt2, ModelPoMo.decomposeState N state = some (.ok (i, nt1, nt2)) ∧
      (state < 4 → ModelPoMo.isFixed state = true ∧ i = N ∧ nt1 = state ∧ nt2 = -1) ∧
      (4 ≤ state → ModelPoMo.isFixed state = false ∧ 1 ≤ i ∧ i ≤ N - 1 ∧
        0 ≤ nt1 ∧ nt1 < nt2 ∧ nt2 ≤ 3 ∧
        ModelPoMo.stateFreqDivisor N i = some (i * (N - i)) ∧ i * (N - i) ≠ 0) ∧
      ∀ state', 0 ≤ state' → state' < 4 + 6 * (N - 1) →
        ModelPoMo.decomposeState N state' = ModelPoMo.decomposeState N state →
        state' = state := by
  have hmax : 4 + 6 * (N - 1) ≤ INT_MAX := by unfold INT_MAX; omega
  obtain ⟨i, nt1, nt2, hd, hfix, hpoly⟩ := decomposeState_ranges hN hmax h0 h1
  refine ⟨i, nt1, nt2, hd, ?_, ?_, ?_⟩
  · intro h
    exact ⟨by unfold ModelPoMo.isFixed; simpa using h, hfix h⟩
  · intro h
    obtain ⟨hi1, hi2, hn0, hn1, hn2⟩ := hpoly h
    have hpos : 0 < i * (N - i) := mul_pos (by omega) (by omega)
    have hle : i * (N - i) ≤ 2147441940 := by nlinarith [sq_nonneg (N - 2 * i)]
    refine ⟨by unfold ModelPoMo.isFixed; simpa using h, hi1, hi2, hn0, hn1, hn2, ?_, by omega⟩
    unfold ModelPoMo.stateFreqDivisor
    rw [intResult_eq (by unfold INT_MIN; omega) (by unfold INT_MAX; omega)]
    simp only
    rw [intResult_eq (by unfold INT_MIN; omega) (by unfold INT_MAX; omega)]
  · intro state' h0' h1' heq
    exact decomposeState_injective hN hmax h0 h1 h0' h1' heq

/-- C26, a run: `N = 10`, the state 57 (the last one) decomposes to
`(9, 2, 3)`. -/
theorem decomposeState_valid_witness :
    (2 : Int) ≤ 10 ∧ (10 : Int) ≤ 92681 ∧ (0 : Int) ≤ 57 ∧ (57 : Int) < 4 + 6 * (10 - 1) ∧
    ModelPoMo.decomposeState 10 57 = some (.ok (9, 2, 3)) ∧
    ModelPoMo.decomposeState 10 58 = some (.error "State exceeds limit") ∧
    ∃ i nt1 nt2, ModelPoMo.decomposeState 10 57 = some (.ok (i, nt1, nt2)) ∧
      ((57 : Int) < 4 →
        ModelPoMo.isFixed 57 = true ∧ i = 10 ∧ nt1 = 57 ∧ nt2 = -1) ∧
      ((4 : Int) ≤ 57 → ModelPoMo.isFixed 57 = false ∧ 1 ≤ i ∧ i ≤ 10 - 1 ∧
        0 ≤ nt1 ∧ nt1 < nt2 ∧ nt2 ≤ 3 ∧
        ModelPoMo.stateFreqDivisor 10 i = some (i * (10 - i)) ∧ i * (10 - i) ≠ 0) ∧
      ∀ state', 0 ≤ state' → state' < 4 + 6 * (10 - 1) →
        ModelPoMo.decomposeState 10 state' = ModelPoMo.decomposeState 10 57 →
        state' = 57 :=
  ⟨by decide, by decide, by decide, by decide, by decide, by decide,
    decomposeState_valid 10 57 (by decide) (by decide) (by decide) (by decide)⟩

/-! ## Further properties -/

/-- On a pool constructed with `1 ≤ limit`, every sequence of `update` calls
runs to completion, and so does any further `update` call: each returns a
boolean and none evaluates `begin()->first` on an empty multimap. -/
theorem update_total_positive_limit (gt : String → String) (limit max_candidates : Int)
    (aln : Bool) (cs0 : CandidateSet) (ops : List (String × Dbl))
    (hc : CandidateSet.create limit max_candidates aln = some cs0)
    (h1 : 1 ≤ limit) (h2 : limit ≤ INT_MAX) :
    ∃ cs, cs0.updates gt ops = some cs ∧
      ∀ (tree : String) (score : Dbl), ∃ b cs', cs.update gt tree score = some (b, cs') := by
  have h00 := create_eq hc
  obtain ⟨cs, hu⟩ := updates_defined gt ops cs0 (by rw [h00]; exact h1) (by rw [h00]; exact h2)
  obtain ⟨_, hlim, _⟩ := reached_inv hc hu
  exact ⟨cs, hu, fun tree score => update_defined gt cs tree score (hlim ▸ h1) (hlim ▸ h2)⟩

/-- A run of `update_total_positive_limit`: `limit = 3`, four calls and a
fifth. -/
theorem update_total_positive_limit_witness :
    CandidateSet.create 3 2 true = some pool0 ∧
    ∃ cs, pool0.updates firstChar [("A", d1_0), ("B", d2_0), ("C", d0_5), ("D", d3_0)]
        = some cs ∧
      ∀ (tree : String) (score : Dbl),
        ∃ b cs', cs.update firstChar tree score = some (b, cs') :=
  ⟨by decide,
    update_total_positive_limit firstChar 3 2 true pool0
      [("A", d1_0), ("B", d2_0), ("C", d0_5), ("D", d3_0)] (by decide) (by decide)
      (by decide)⟩

/-- In a state reached by `update` calls on a pool constructed with
`1 ≤ max_candidates`, `getNextCandTree` fails exactly when the pool is empty
(the assertion `!empty()`); on a non-empty pool it returns the tree text of a
stored entry. -/
theorem getNextCandTree_defined (gt : String → String) (limit max_candidates : Int)
    (aln : Bool) (cs0 cs : CandidateSet) (ops : List (String × Dbl))
    (hc : CandidateSet.create limit max_candidates aln = some cs0)
    (hu : cs0.updates gt ops = some cs) (hmc : 1 ≤ max_candidates) :
    (cs.entries = [] → cs.getNextCandTree = none) ∧
    (cs.entries ≠ [] → ∃ tree cs', cs.getNextCandTree = some (tree, cs') ∧
      tree ∈ cs.entries.map (fun e => e.2.tree)) := by
  obtain ⟨_, _, hmax⟩ := reached_inv hc hu
  have hp := reached_parentTrees hc hu
  refine ⟨getNextCandTree_empty_pool, ?_⟩
  intro hne
  have hinit := initParentTrees_eq hp
  have hpos : 0 < cs.entries.length := List.length_pos.2 hne
  obtain ⟨t, st, hst⟩ : ∃ t st,
      ((cs.entries.reverse.take cs.max_candidates.toNat).map
        (fun e => e.2.tree)).reverse = t :: st := by
    apply List.exists_cons_of_ne_nil
    intro hnil
    have := congrArg List.length hnil
    rw [List.length_reverse, List.length_map, List.length_take, List.length_reverse] at this
    simp only [List.length_nil] at this
    omega
  have hmem : t ∈ cs.entries.map (fun e => e.2.tree) := by
    have h1 : t ∈ ((cs.entries.reverse.take cs.max_candidates.toNat).map
        (fun e => e.2.tree)).reverse := by
      rw [hst]
      exact List.mem_cons_self _ _
    obtain ⟨e, he, het⟩ := List.mem_map.1 (List.mem_reverse.1 h1)
    exact List.mem_map.2 ⟨e, List.mem_reverse.1 (List.mem_of_mem_take he), het⟩
  rw [hst] at hinit
  refine ⟨t, { cs.initParentTrees with parentTrees := st }, ?_, hmem⟩
  rw [getNextCandTree_refill hne hp]
  exact getNextCandTree_loaded (by rw [hinit]; exact hne) (by rw [hinit])

/-- A run of `getNextCandTree_defined`: the pool {A:1.0, B:2.0, D:3.0} with
`max_candidates = 2` returns B. -/
theorem getNextCandTree_defined_witness :
    CandidateSet.create 3 2 true = some pool0 ∧
    pool0.updates firstChar [("A", d1_0), ("B", d2_0), ("C", d0_5), ("D", d3_0)]
      = some poolABD ∧
    poolABD.getNextCandTree.map Prod.fst = some "B" ∧
    pool0.getNextCandTree = none ∧
    ∃ tree cs', poolABD.getNextCandTree = some (tree, cs') ∧
      tree ∈ poolABD.entries.map (fun e => e.2.tree) :=
  ⟨by decide, by decide, by decide, by decide,
    (getNextCandTree_defined firstChar 3 2 true pool0 poolABD
      [("A", d1_0), ("B", d2_0), ("C", d0_5), ("D", d3_0)]
      (by decide) (by decide) (by decide)).2 (by decide)⟩

/-- The decomposition alone needs only that `4+6*(N-1)` is an `int`: for
`2 ≤ N ≤ 357913941` and `0 ≤ state < 4 + 6*(N-1)`, `decomposeState` returns a
triple without reaching `outError` or an overflow, `(N, state, -1)` for
`state < 4` and one with `1 ≤ i ≤ N-1` and `0 ≤ nt1 < nt2 ≤ 3` for `state ≥ 4`,
and no other valid state decomposes to the same triple. -/
theorem decomposeState_int_range (N state : Int) (hN : 2 ≤ N) (hb : N ≤ 357913941)
    (h0 : 0 ≤ state) (h1 : state < 4 + 6 * (N - 1)) :
    ∃ i nt1 nt2, ModelPoMo.decomposeState N state = some (.ok (i, nt1, nt2)) ∧
      (state < 4 → i = N ∧ nt1 = state ∧ nt2 = -1) ∧
      (4 ≤ state → 1 ≤ i ∧ i ≤ N - 1 ∧ 0 ≤ nt1 ∧ nt1 < nt2 ∧ nt2 ≤ 3) ∧
      ∀ state', 0 ≤ state' → state' < 4 + 6 * (N - 1) →
        ModelPoMo.decomposeState N state' = ModelPoMo.decomposeState N state →
        state' = state := by
  have hmax : 4 + 6 * (N - 1) ≤ INT_MAX := by unfold INT_MAX; omega
  obtain ⟨i, nt1, nt2, hd, hfix, hpoly⟩ := decomposeState_ranges hN hmax h0 h1
  exact ⟨i, nt1, nt2, hd, hfix, hpoly,
    fun state' h0' h1' heq => decomposeState_injective hN hmax h0 h1 h0' h1' heq⟩

/-- A run of `decomposeState_int_range`: `N = 92682`, the state 46344 decomposes
to `(46341, 0, 1)`; the divisor `46341 * 46341` of `computeStateFreq` for this
state overflows `int`, and so does `4+6*(N-1)` for `N = 357913942`. -/
theorem decomposeState_int_range_witness :
    (2 : Int) ≤ 92682 ∧ (92682 : Int) ≤ 357913941 ∧ (0 : Int) ≤ 46344 ∧
    (46344 : Int) < 4 + 6 * (92682 - 1) ∧
    ModelPoMo.decomposeState 92682 46344 = some (.ok (46341, 0, 1)) ∧
    ModelPoMo.stateFreqDivisor 92682 46341 = none ∧
    polyBound 6 357913942 = none ∧
    ∃ i nt1 nt2, ModelPoMo.decomposeState 92682 46344 = some (.ok (i, nt1, nt2)) ∧
      ((46344 : Int) < 4 → i = 92682 ∧ nt1 = 46344 ∧ nt2 = -1) ∧
      ((4 : Int) ≤ 46344 → 1 ≤ i ∧ i ≤ 92682 - 1 ∧ 0 ≤ nt1 ∧ nt1 < nt2 ∧ nt2 ≤ 3) ∧
      ∀ state', 0 ≤ state' → state' < 4 + 6 * (92682 - 1) →
        ModelPoMo.decomposeState 92682 state' = ModelPoMo.decomposeState 92682 46344 →
        state' = 46344 :=
  ⟨by decide, by decide, by decide, by decide, by decide, by decide, by decide,
    decomposeState_int_range 92682 46344 (by decide) (by decide) (by decide) (by decide)⟩

/-- On scores that are numbers the pool of ranks is the pool whose scores may be
NaN: the constructor, `update`, a sequence of `update` calls and the four
read-only queries of the second, on the image `cs.toFp` of a pool of ranks and
scores `Double.num`, give the image of what the first gives, and are undefined
exactly when it is. -/
theorem ranks_refine_doubles (gt : String → String) :
    (∀ (limit max_candidates : Int) (aln : Bool),
      Fp.CandidateSet.create limit max_candidates aln
        = (CandidateSet.create limit max_candidates aln).map CandidateSet.toFp) ∧
    (∀ (cs : CandidateSet) (tree : String) (score : Dbl),
      cs.toFp.update gt tree (Double.num score)
        = (cs.update gt tree score).map (fun r => (r.1, r.2.toFp))) ∧
    (∀ (cs : CandidateSet) (ops : List (String × Dbl)),
      cs.toFp.updates gt (numOps ops) = (cs.updates gt ops).map CandidateSet.toFp) ∧
    (∀ cs : CandidateSet, cs.toFp.getBestTree = cs.getBestTree) ∧
    (∀ (cs : CandidateSet) (numTree : Int),
      cs.toFp.getBestTrees numTree = cs.getBestTrees numTree) ∧
    (∀ (cs : CandidateSet) (numBest : Int),
      cs.toFp.getBestScores numBest = (cs.getBestScores numBest).map Double.num) ∧
    (∀ (cs : CandidateSet) (random_int : Int → Int),
      cs.toFp.getRandCandTree random_int = cs.getRandCandTree random_int) ∧
    (∀ cs cs' : CandidateSet, cs.toFp = cs'.toFp → cs = cs') :=
  ⟨create_toFp, update_toFp gt, fun cs ops => updates_toFp gt ops cs, getBestTree_toFp,
    getBestTrees_toFp, getBestScores_toFp, getRandCandTree_toFp,
    fun _ _ h => toFp_injective h⟩

/-- A NaN score, once stored, is never removed, and an `update` call with the
score NaN either stores it (returning true) or changes nothing (returning
false): in a state `fs` reached from the empty pool by `update` calls of any
scores, if an entry has the key NaN, every further sequence of `update` calls
that completes ends in a state in which an entry has the key NaN; and a call
`update(tree, NaN)` that completes returns false and leaves `fs` as it is, or
returns true and leaves an entry with the key NaN. -/
theorem stored_nan_stays (gt : String → String) (limit max_candidates : Int)
    (aln : Bool) (fs0 fs : Fp.CandidateSet) (fops : List (String × Double))
    (hc : Fp.CandidateSet.create limit max_candidates aln = some fs0)
    (hu : fs0.updates gt fops = some fs) :
    (∀ (more : List (String × Double)) (fs' : Fp.CandidateSet),
      (∃ e ∈ fs.entries, e.1 = Double.nan) → fs.updates gt more = some fs' →
        ∃ e ∈ fs'.entries, e.1 = Double.nan) ∧
    (∀ (tree : String) (b : Bool) (fs' : Fp.CandidateSet),
      fs.update gt tree Double.nan = some (b, fs') →
        (b = false ∧ fs' = fs) ∨ (b = true ∧ ∃ e ∈ fs'.entries, e.1 = Double.nan)) := by
  have hl := fp_linked_updates fops (fp_linked_create hc) hu
  exact ⟨fun more fs' hn hm => fp_nan_stays_updates more hl hn hm,
    fun tree b fs' h => fp_update_nan h⟩

/-- A run of `stored_nan_stays`: `limit = 2`; after A:NaN the calls B:1.0, C:3.0
and A2:2.0 leave the NaN entry where it is, at `begin()`. -/
theorem stored_nan_stays_witness :
    Fp.CandidateSet.create 2 2 true = some (⟨[], 2, 2, -DBL_MAX, [], [], true⟩ :
      CandidateSet).toFp ∧
    ((⟨[], 2, 2, -DBL_MAX, [], [], true⟩ : CandidateSet).toFp.updates firstChar
        [("A", Double.nan), ("B", Double.num d1_0), ("C", Double.num d3_0),
          ("A2", Double.num d2_0)]).map (fun fs => fs.entries.map (fun e => (e.2.tree, e.1)))
      = some [("A", Double.nan), ("B", Double.num d1_0)] ∧
    ∀ (more : List (String × Double)) (fs' : Fp.CandidateSet),
      (∃ e ∈ (⟨[(Double.nan, ⟨"A", "A", Double.nan⟩)], 2, 2, Double.num (-DBL_MAX),
          [("A", Double.nan)], [], true⟩ : Fp.CandidateSet).entries, e.1 = Double.nan) →
      (⟨[(Double.nan, ⟨"A", "A", Double.nan⟩)], 2, 2, Double.num (-DBL_MAX),
          [("A", Double.nan)], [], true⟩ : Fp.CandidateSet).updates firstChar more
        = some fs' →
      ∃ e ∈ fs'.entries, e.1 = Double.nan :=
  ⟨by decide, by decide,
    (stored_nan_stays firstChar 2 2 true
      (⟨[], 2, 2, -DBL_MAX, [], [], true⟩ : CandidateSet).toFp
      ⟨[(Double.nan, ⟨"A", "A", Double.nan⟩)], 2, 2, Double.num (-DBL_MAX),
        [("A", Double.nan)], [], true⟩
      [("A", Double.nan)] (by decide) (by decide)).1⟩

/-- A state that stores no NaN is a pool of ranks: when a sequence `fops` of
`update` calls, of any scores, on a freshly constructed pool ends in a state
`fs` none of whose keys is NaN, then `fs` is `cs.toFp` for the pool of ranks
`cs` that the calls of `fops` whose score is a number build, in their order,
from the fresh pool of ranks; no other member of `fs` (score of an entry, value
of the index, `bestScore`) is NaN. -/
theorem reached_without_nan (gt : String → String) (limit max_candidates : Int)
    (aln : Bool) (fs0 fs : Fp.CandidateSet) (fops : List (String × Double))
    (hc : Fp.CandidateSet.create limit max_candidates aln = some fs0)
    (hu : fs0.updates gt fops = some fs)
    (hno : ∀ e ∈ fs.entries, e.1 ≠ Double.nan) :
    ∃ cs0 cs : CandidateSet, fs0 = cs0.toFp ∧ fs = cs.toFp ∧
      CandidateSet.create limit max_candidates aln = some cs0 ∧
      cs0.updates gt (ranksOf fops) = some cs := by
  rw [create_toFp] at hc
  cases hc0 : CandidateSet.create limit max_candidates aln with
  | none =>
    rw [hc0] at hc
    cases hc
  | some cs0 =>
    rw [hc0] at hc
    simp only [Option.map, Option.some.injEq] at hc
    subst hc
    have hl : cs0.toFp.Linked := fp_linked_create (by rw [create_toFp, hc0]; rfl)
    rcases updates_number_or_nan fops hl hu with ⟨cs, hfs, hrun⟩ | ⟨e, he, hn⟩
    · exact ⟨cs0, cs, rfl, hfs, rfl, hrun⟩
    · exact absurd hn (hno e he)

/-- A run of `reached_without_nan`: `limit = 3`; the calls A:1.0, A2:NaN, B:2.0,
C:0.5, D:3.0 and E:NaN end in the pool {A:1.0, B:2.0, D:3.0}, the one that the
calls A:1.0, B:2.0, C:0.5 and D:3.0 build. -/
theorem reached_without_nan_witness :
    Fp.CandidateSet.create 3 2 true = some pool0.toFp ∧
    pool0.toFp.updates firstChar
        [("A", Double.num d1_0), ("A2", Double.nan), ("B", Double.num d2_0),
          ("C", Double.num d0_5), ("D", Double.num d3_0), ("E", Double.nan)]
      = some poolABD.toFp ∧
    (∀ e ∈ poolABD.toFp.entries, e.1 ≠ Double.nan) ∧
    ranksOf [("A", Double.num d1_0), ("A2", Double.nan), ("B", Double.num d2_0),
          ("C", Double.num d0_5), ("D", Double.num d3_0), ("E", Double.nan)]
      = [("A", d1_0), ("B", d2_0), ("C", d0_5), ("D", d3_0)] ∧
    ∃ cs0 cs : CandidateSet, pool0.toFp = cs0.toFp ∧ poolABD.toFp = cs.toFp ∧
      CandidateSet.create 3 2 true = some cs0 ∧
      cs0.updates firstChar
        (ranksOf [("A", Double.num d1_0), ("A2", Double.nan), ("B", Double.num d2_0),
          ("C", Double.num d0_5), ("D", Double.num d3_0), ("E", Double.nan)]) = some cs :=
  ⟨by decide, by decide, by decide, by decide,
    reached_without_nan firstChar 3 2 true pool0.toFp poolABD.toFp
      [("A", Double.num d1_0), ("A2", Double.nan), ("B", Double.num d2_0),
        ("C", Double.num d0_5), ("D", Double.num d3_0), ("E", Double.nan)]
      (by decide) (by decide) (by decide)⟩

end IQTree
